import Mathlib

/-!
simple-hex-printer (shp.h): a shallow embedding.

The header renders integral values and ranges of fixed-size objects as
hexadecimal text on a `std::ostream`.  The embedding has three layers:

* a model of the part of `std::ostream` the header uses: the formatting mode
  (base, adjustment, case, showbase, showpos, fill, width, precision, the
  locale's `numpunct` and the exception mask), the error state, and the
  formatted inserters for characters, strings and integers;
* `format_backup`, `integral_hex_writer` and `iterator_hex_writer`, translated
  function by function from `include/shp/shp.h`;
* the `hex_str` entry points, which render into a fresh `std::ostringstream`.

A call that can throw returns an `Exit`: it returns, or a
`std::ios_base::failure` leaves it, or `std::terminate` is called.  What the
header reads from the process, the global C++ locale (copied by a new
`std::ostringstream`) and the character classification of the C locale (used
by `std::isprint`), is passed as an `Env`.

The stream library is the one of GCC (libstdc++) on a 64-bit target: `size_t`
is 64 bits wide, `int` 32 bits, `char` is signed.  The locale's `num_put` and
`ctype` facets are the standard ones, the stream has no callbacks registered,
and its buffer and the memory take whatever is written.  Bytes are natural
numbers; every cast to `uint8_t` is an explicit `% 256`, and the character
with code `c` stands for the `char` holding the byte `c`.  The counters
`global_offset`, `row_offset` and the cache `offset` count bytes already
printed from a range that lives in memory, so they stay far below `2 ^ 64` and
are kept as unbounded naturals; the subtractions and the narrowing conversions
to `int` (the parameter of `std::setw`) are modelled with their wrap-around.
-/

namespace shp

/-! ## The text sink -/

/-- The `basefield` of `std::ios_base::fmtflags`. -/
inductive Base
  | dec
  | oct
  | hex
  deriving DecidableEq, Repr

/-- The `adjustfield` of `std::ios_base::fmtflags`; a fresh stream has none set. -/
inductive Adjust
  | unset
  | left
  | right
  | internal
  deriving DecidableEq, Repr

/-- A value of `std::ios_base::iostate`: the three error bits. -/
structure IoState where
  bad : Bool
  fail : Bool
  eof : Bool
  deriving DecidableEq, Repr

/-- The value `std::ios_base::goodbit`: no bit set. -/
def IoState.goodbit : IoState := { bad := false, fail := false, eof := false }

/-- The value `std::ios_base::badbit`. -/
def IoState.badbit : IoState := { bad := true, fail := false, eof := false }

/-- The value `std::ios_base::failbit`. -/
def IoState.failbit : IoState := { bad := false, fail := true, eof := false }

/-- The test `(a & b) != 0`. -/
def IoState.meets (a b : IoState) : Bool :=
  (a.bad && b.bad) || (a.fail && b.fail) || (a.eof && b.eof)

/-- The union `a | b`. -/
def IoState.or (a b : IoState) : IoState :=
  { bad := a.bad || b.bad, fail := a.fail || b.fail, eof := a.eof || b.eof }

/-- The `std::numpunct<char>` facet of a locale, as far as integers go: the
separator `thousands_sep()` and the group sizes `grouping()`, one number per
`char` of the string, the rightmost group first. -/
structure Locale where
  thousands_sep : Char
  grouping : List Nat
  deriving DecidableEq, Repr

/-- The locale `std::locale::classic()`: no grouping. -/
def Locale.classic : Locale := { thousands_sep := ',', grouping := [] }

/-- Whether a `char` of `grouping()` is a group size in force: above 0 as a
`signed char` and different from `CHAR_MAX`. -/
def Locale.group_size_ok (g : Nat) : Bool := decide (0 < g ∧ g < 127)

/-- The flag `_M_use_grouping` of the `numpunct` cache: the grouping string is
not empty and its first `char` is a group size in force. -/
def Locale.use_grouping (loc : Locale) : Bool :=
  match loc.grouping with
  | [] => false
  | g :: _ => Locale.group_size_ok g

/-- The function `std::__add_grouping` on the digits taken least significant
first: while more digits are left than the current group holds, a group is
split off and followed by the separator; the last group size is used again
and again.  Every round removes a digit, so `fuel` rounds suffice when `fuel`
is the number of digits. -/
def Locale.add_grouping_rev (sep : Char) : Nat → List Nat → List Char → List Char
  | 0, _, ds => ds
  | fuel + 1, gs, ds =>
    match gs with
    | [] => ds
    | g :: rest =>
      if Locale.group_size_ok g ∧ g < ds.length then
        ds.take g ++ sep :: Locale.add_grouping_rev sep fuel (if rest = [] then gs else rest)
          (ds.drop g)
      else ds

/-- The digit grouping of `std::num_put` (`_M_group_int`), on the digits most
significant first. -/
def Locale.add_grouping (loc : Locale) (digits : List Char) : List Char :=
  if loc.use_grouping then
    (Locale.add_grouping_rev loc.thousands_sep digits.length loc.grouping digits.reverse).reverse
  else digits

/-- The formatting mode of a stream: what `std::ios::copyfmt` copies and the
header can observe. -/
structure Fmt where
  base : Base
  adjust : Adjust
  uppercase : Bool
  showbase : Bool
  showpos : Bool
  fill : Char
  width : Int
  precision : Int
  loc : Locale
  exceptions : IoState
  deriving DecidableEq, Repr

/-- The mode of a stream constructed while `loc` is the global locale
(`std::basic_ios::init`). -/
def Fmt.init (loc : Locale) : Fmt :=
  { base := .dec, adjust := .unset, uppercase := false, showbase := false,
    showpos := false, fill := ' ', width := 0, precision := 6, loc := loc,
    exceptions := IoState.goodbit }

/-- An output stream: its formatting mode, its error state `rdstate()` and the
characters written so far. -/
structure OStream where
  fmt : Fmt
  state : IoState
  buf : List Char
  deriving DecidableEq, Repr

/-- A default-constructed `std::ostringstream`, made while `loc` is the global
locale. -/
def OStream.fresh (loc : Locale) : OStream :=
  { fmt := Fmt.init loc, state := IoState.goodbit, buf := [] }

/-- The member `std::ostringstream::str`. -/
def OStream.str (os : OStream) : String := String.mk os.buf

/-- The member `good()`: `rdstate() == 0`. -/
def OStream.good (os : OStream) : Bool := decide (os.state = IoState.goodbit)

/-- How a call ends: it returns a value, or a `std::ios_base::failure` leaves
it, or `std::terminate` is called; in the last two cases `os` is the stream
the call worked on, as it is at that moment. -/
inductive Exit (α : Type) where
  | returned (a : α)
  | failure (os : OStream)
  | terminate (os : OStream)
  deriving DecidableEq, Repr

/-- Sequencing: the rest of a function body runs when the call before it
returned. -/
def Exit.bind {α β : Type} (x : Exit α) (f : α → Exit β) : Exit β :=
  match x with
  | .returned a => f a
  | .failure os => .failure os
  | .terminate os => .terminate os

/-- A loop over a list whose body can throw. -/
def Exit.fold {σ α : Type} (f : σ → α → Exit σ) : σ → List α → Exit σ
  | s, [] => .returned s
  | s, a :: as => (f s a).bind fun s1 => Exit.fold f s1 as

/-- The stream a call on a stream leaves behind, however it ends. -/
def Exit.sink : Exit OStream → OStream
  | .returned os => os
  | .failure os => os
  | .terminate os => os

/-- The manipulator `std::hex`. -/
def OStream.hex (os : OStream) : OStream :=
  { os with fmt := { os.fmt with base := .hex } }

/-- The manipulator `std::uppercase`. -/
def OStream.set_uppercase (os : OStream) : OStream :=
  { os with fmt := { os.fmt with uppercase := true } }

/-- The manipulator `std::setw(n)`. -/
def OStream.setw (os : OStream) (n : Int) : OStream :=
  { os with fmt := { os.fmt with width := n } }

/-- The manipulator `std::setfill(c)`. -/
def OStream.setfill (os : OStream) (c : Char) : OStream :=
  { os with fmt := { os.fmt with fill := c } }

/-- The member `clear(state)`: the state is replaced, and a
`std::ios_base::failure` is thrown when the exception mask covers one of its
bits. -/
def OStream.clear (os : OStream) (state : IoState) : Exit OStream :=
  if os.fmt.exceptions.meets state then .failure { os with state := state }
  else .returned { os with state := state }

/-- The member `setstate(state)`: `clear(rdstate() | state)`. -/
def OStream.setstate (os : OStream) (state : IoState) : Exit OStream :=
  os.clear (os.state.or state)

/-- The constructor of `std::ostream::sentry` on a stream that is not
`good()`: `else if (os.bad()) os.setstate(failbit)`.  The sentry then converts
to `false` and the inserter writes nothing. -/
def OStream.sentry_not_good (os : OStream) : Exit OStream :=
  if os.state.bad then os.setstate IoState.failbit else .returned os

/-- The fill characters a field of `len` characters receives. -/
def padding (f : Fmt) (len : Nat) : List Char :=
  List.replicate (f.width - (len : Int)).toNat f.fill

/-- Padding of character and string inserters: the fill goes after the text
when the adjustment is `left` and before it otherwise. -/
def pad_text (f : Fmt) (s : List Char) : List Char :=
  match f.adjust with
  | .left => s ++ padding f s.length
  | _ => padding f s.length ++ s

/-- The end of a formatted inserter on a good stream: the field goes to the
buffer and `width(0)` is called. -/
def OStream.emit (os : OStream) (field : List Char) : OStream :=
  { os with fmt := { os.fmt with width := 0 }, buf := os.buf ++ field }

/-- Inserter `os << "..."`: on a good stream the text padded to the pending
width, which is then reset to 0. -/
def OStream.put_string (os : OStream) (s : List Char) : Exit OStream :=
  if os.good then .returned (os.emit (pad_text os.fmt s))
  else os.sentry_not_good

/-- Inserter `os << c` for a `char`. -/
def OStream.put_char (os : OStream) (c : Char) : Exit OStream :=
  os.put_string [c]

/-- One digit of a numeral; digits above 9 follow the `uppercase` flag. -/
def digit_char (upper : Bool) (d : Nat) : Char :=
  if d < 10 then Char.ofNat (48 + d)
  else if upper then Char.ofNat (55 + d) else Char.ofNat (87 + d)

/-- The digit loop of `std::num_put`: least significant digit first, pushed in
front of the accumulator, until the quotient is 0 (at least one digit). -/
def digits_loop (base : Nat) : Nat → Nat → List Nat → List Nat
  | 0, _, acc => acc
  | fuel + 1, v, acc =>
    if v / base = 0 then (v % base) :: acc
    else digits_loop base fuel (v / base) ((v % base) :: acc)

/-- The digits of `v` in `base`, most significant first.  The loop divides a
positive `v` at most `v` times, so `v + 1` rounds always suffice. -/
def to_digits (base v : Nat) : List Nat := digits_loop base (v + 1) v []

/-- Sign or base marker and digits of an integer of `bits` bits, as
`std::num_put` produces them (`_M_insert_int`): the digits, grouped by the
locale of the stream, then the sign or base marker in front.  In base 16 and
8 the value is printed as the unsigned bit pattern; `showbase` adds `0x`/`0X`
(or a leading `0` in base 8) to a non-zero value. -/
def num_text (f : Fmt) (bits : Nat) (signed : Bool) (v : Int) : List Char × List Char :=
  let u : Nat := (v % (2 : Int) ^ bits).toNat
  match f.base with
  | .hex =>
    (if f.showbase && u != 0 then ['0', if f.uppercase then 'X' else 'x'] else [],
     f.loc.add_grouping ((to_digits 16 u).map (digit_char f.uppercase)))
  | .oct =>
    ([], (if f.showbase && u != 0 then ['0'] else []) ++
      f.loc.add_grouping ((to_digits 8 u).map (digit_char f.uppercase)))
  | .dec =>
    if signed then
      (if v < 0 then ['-'] else if f.showpos then ['+'] else [],
       f.loc.add_grouping ((to_digits 10 v.natAbs).map (digit_char f.uppercase)))
    else ([], f.loc.add_grouping ((to_digits 10 u).map (digit_char f.uppercase)))

/-- Padding of a numeric field (stage 3 of `std::num_put::do_put`): after the
text for `left`, between sign or base marker and digits for `internal`, before
the text otherwise. -/
def pad_num (f : Fmt) (marker digits : List Char) : List Char :=
  let fillc := padding f (marker.length + digits.length)
  match f.adjust with
  | .left => marker ++ digits ++ fillc
  | .internal => marker ++ fillc ++ digits
  | _ => fillc ++ marker ++ digits

/-- Inserter `os << v` for an integer type of `bits` bits. -/
def OStream.put_integer (os : OStream) (bits : Nat) (signed : Bool) (v : Int) : Exit OStream :=
  if os.good then
    let t := num_text os.fmt bits signed v
    .returned (os.emit (pad_num os.fmt t.1 t.2))
  else os.sentry_not_good

/-- Conversion of a `size_t` value to `int`, as at the parameter of `std::setw`. -/
def size_to_int (n : Nat) : Int :=
  let m : Nat := n % 2 ^ 32
  if m < 2 ^ 31 then (m : Int) else (m : Int) - 2 ^ 32

/-- What the header reads from the process: the global C++ locale
`std::locale()`, which a new `std::ostringstream` copies, and the
classification `std::isprint` of the C locale (`LC_CTYPE`) on the values of
`unsigned char`. -/
structure Env where
  loc : Locale
  isprint : Nat → Bool

/-- The environment of a program that has changed neither locale: the classic
C++ locale and the "C" locale, where `isprint` holds from 0x20 to 0x7E. -/
def Env.classic : Env :=
  { loc := Locale.classic, isprint := fun c => decide (32 ≤ c ∧ c ≤ 126) }

/-! ## format_backup -/

/-- The class `format_backup`: the stream it guards is implicit, `old_ios_`
holds the mode copied with `copyfmt` by the constructor. -/
structure format_backup where
  old_ios_ : Fmt
  deriving DecidableEq, Repr

/-- Constructor: `old_ios_.copyfmt(os)`.  `copyfmt` copies the exception mask
last, with `exceptions(mask)`, which throws when the mask covers a bit of the
target's own state; `old_ios_` is a `std::ios{nullptr}`, a stream without a
buffer, whose state is `badbit`. -/
def format_backup.ctor (os : OStream) : Exit format_backup :=
  if os.fmt.exceptions.meets IoState.badbit then .failure os
  else .returned { old_ios_ := os.fmt }

/-- Destructor: `os_->copyfmt(old_ios_)`.  The mode is written back, the
exception mask last; when the mask covers a bit of the state of `os` the
exception meets the `noexcept` of the destructor and `std::terminate` is
called. -/
def format_backup.dtor (b : format_backup) (os : OStream) : Exit OStream :=
  if b.old_ios_.exceptions.meets os.state then .terminate { os with fmt := b.old_ios_ }
  else .returned { os with fmt := b.old_ios_ }

/-- A scope that holds a `format_backup` guard around `body`: the destructor
runs when the body returns and when an exception unwinds the scope. -/
def format_backup.scope (body : OStream → Exit OStream) (os : OStream) : Exit OStream :=
  match format_backup.ctor os with
  | .returned backup =>
    match body os with
    | .returned os1 => backup.dtor os1
    | .failure os1 =>
      match backup.dtor os1 with
      | .returned os2 => .failure os2
      | .failure os2 => .terminate os2
      | .terminate os2 => .terminate os2
    | .terminate os1 => .terminate os1
  | .failure os0 => .failure os0
  | .terminate os0 => .terminate os0

/-! ## integral_hex_writer -/

/-- The integral types `T` of `integral_hex_writer`: `bool`, or an integer type
of `size` bytes, signed or unsigned. -/
inductive IntType
  | bool
  | int (size : Nat) (signed : Bool)
  deriving DecidableEq, Repr

/-- The operator `sizeof(T)`. -/
def IntType.sizeof : IntType → Nat
  | .bool => 1
  | .int size _ => size

/-- The trait `std::is_signed<T>`. -/
def IntType.is_signed : IntType → Bool
  | .bool => false
  | .int _ signed => signed

/-- Conversion of an integer to `T`, as when the constructor parameter
`T value` is initialised: non-zero is `true` for `bool`, otherwise the value is
reduced modulo `2 ^ (8 * sizeof(T))` into the range of `T`. -/
def IntType.conv : IntType → Int → Int
  | .bool, v => if v = 0 then 0 else 1
  | .int size false, v => v % (2 : Int) ^ (8 * size)
  | .int size true, v =>
    let m := v % (2 : Int) ^ (8 * size)
    if m < (2 : Int) ^ (8 * size - 1) then m else m - (2 : Int) ^ (8 * size)

/-- The template arguments `WithPrefix`, `DoFill`, `InUpperCase`. -/
structure IntegralFormat where
  WithPrefix : Bool
  DoFill : Bool
  InUpperCase : Bool
  deriving DecidableEq, Repr

/-- The defaults `Prefix`, `Fill`, `UpperCase`. -/
def IntegralFormat.default : IntegralFormat :=
  { WithPrefix := true, DoFill := true, InUpperCase := true }

/-- The class `integral_hex_writer<T, ...>`: the stored `value_`. -/
structure integral_hex_writer (T : IntType) where
  value_ : Int
  deriving DecidableEq, Repr

/-- Constructor `integral_hex_writer(T value)`. -/
def integral_hex_writer.ctor (T : IntType) (value : Int) : integral_hex_writer T :=
  { value_ := T.conv value }

/-- The function `detail::print_one_byte`: for `bool`,
`os << static_cast<unsigned>(v)`; otherwise
`os << static_cast<int>(static_cast<make_unsigned<T>::type>(v))`. -/
def detail.print_one_byte (os : OStream) (T : IntType) (v : Int) : Exit OStream :=
  match T with
  | .bool => os.put_integer 32 false v
  | .int _ _ => os.put_integer 32 true (v % 256)

/-- The body of `operator<<` for `integral_hex_writer`, between the
construction and the destruction of its `format_backup`. -/
def integral_hex_writer.body (fmt : IntegralFormat) {T : IntType}
    (v : integral_hex_writer T) (os : OStream) : Exit OStream :=
  let os := os.hex
  (if fmt.WithPrefix then os.put_string ['0', 'x'] else .returned os).bind fun os =>
  let os := if fmt.DoFill then (os.setw (size_to_int (2 * T.sizeof))).setfill '0' else os
  let os := if fmt.InUpperCase then os.set_uppercase else os
  if T.sizeof > 1 then os.put_integer (8 * T.sizeof) T.is_signed v.value_
  else detail.print_one_byte os T v.value_

/-- The operator `operator<<(std::ostream&, const integral_hex_writer&)`. -/
def integral_hex_writer.operator_shl (fmt : IntegralFormat) {T : IntType}
    (os : OStream) (v : integral_hex_writer T) : Exit OStream :=
  format_backup.scope (integral_hex_writer.body fmt v) os

/-- The function `hex_str` for an integral value: render into a fresh
`std::ostringstream` and return its contents; no string when `operator<<`
does not return. -/
def hex_str_integral (env : Env) (T : IntType) (value : Int) (fmt : IntegralFormat) :
    Option String :=
  match integral_hex_writer.operator_shl fmt (OStream.fresh env.loc)
      (integral_hex_writer.ctor T value) with
  | .returned os => some os.str
  | _ => none

/-! ## iterator_hex_writer -/

/-- The value `std::numeric_limits<std::size_t>::max()`. -/
def SIZE_MAX : Nat := 2 ^ 64 - 1

/-- The value `PTRDIFF_MAX`, the largest size of an object. -/
def PTRDIFF_MAX : Nat := 2 ^ 63 - 1

/-- The template argument `RowWidthValue`: `RowWidth<Sz>` or `SingleRow`. -/
inductive RowWidthT
  | RowWidth (Sz : Nat)
  | SingleRow
  deriving DecidableEq, Repr

/-- The member `RowWidthValue::value`. -/
def RowWidthT.value : RowWidthT → Nat
  | .RowWidth Sz => Sz
  | .SingleRow => SIZE_MAX

/-- The template arguments of `iterator_hex_writer` after `Iterator`. -/
structure Format where
  WithOffsets : Bool
  WithNibbleSeparation : Bool
  RowWidthValue : RowWidthT
  WithASCII : Bool
  InUpperCase : Bool
  deriving DecidableEq, Repr

/-- The defaults `PrintOffsets`, `SeparateNibbles`, `RowWidth<16>`,
`PrintASCII`, `UpperCase`. -/
def Format.default : Format :=
  { WithOffsets := true, WithNibbleSeparation := true, RowWidthValue := .RowWidth 16,
    WithASCII := true, InUpperCase := true }

/-- The two `static_assert`s of `iterator_hex_writer` that can fail for tag
arguments: `"Single row printer should exclude offsets and ASCII"` and
`"Row width cannot be 0"`. -/
def iterator_hex_writer.static_asserts (fmt : Format) : Bool :=
  (!(fmt.RowWidthValue == .SingleRow)
    || (fmt.RowWidthValue == .SingleRow && !(fmt.WithOffsets || fmt.WithASCII)))
  && fmt.RowWidthValue.value != 0

/-- The value `sizeof(print_state)` for an iterator the size of a pointer, as
the helpers `hex` and `hex_str` produce it: `it`, `end`, `address_width`,
`global_offset` and `row_offset` of 8 bytes each, then the cache, which is the
empty `dummy_ascii_cache_t` or `offset` and the array of
`RowWidthValue::value` bytes, padded to a multiple of 8. -/
def iterator_hex_writer.sizeof_print_state (fmt : Format) : Nat :=
  match fmt.RowWidthValue with
  | .SingleRow => 48
  | .RowWidth Sz => 48 + 8 * ((Sz + 7) / 8)

/-- Whether `print_state`, with its member
`std::array<std::uint8_t, RowWidthValue::value> cache`, is a valid type: its
size must not exceed the largest object size. -/
def iterator_hex_writer.cache_fits (fmt : Format) : Bool :=
  decide (iterator_hex_writer.sizeof_print_state fmt ≤ PTRDIFF_MAX)

/-- The member type of `print_state::ascii_cache`: `dummy_ascii_cache_t`, or
`ascii_cache_t` with its `offset` and its `cache` array. -/
inductive ascii_cache_t
  | dummy
  | mk (offset : Nat) (cache : List Nat)
  deriving DecidableEq, Repr

/-- The type selected by `std::conditional<is_same<RowWidthValue, SingleRow>, ...>`,
value-initialised: `offset` 0 and `RowWidthValue::value` zero bytes.  The
array `std::array<std::uint8_t, RowWidthValue::value>` is a valid type for the
row widths `cache_fits` accepts only; for any other row width there is no
writer, see `operator_shl`. -/
def ascii_cache_t.init (fmt : Format) : ascii_cache_t :=
  match fmt.RowWidthValue with
  | .SingleRow => .dummy
  | .RowWidth Sz => .mk 0 (List.replicate Sz 0)

/-- The member `add_byte`: `cache[offset++] = b`, or nothing for the dummy. -/
def ascii_cache_t.add_byte (c : ascii_cache_t) (b : Nat) : ascii_cache_t :=
  match c with
  | .dummy => .dummy
  | .mk offset cache => .mk (offset + 1) (cache.set offset b)

/-- The function `print_ascii`: the character itself when `std::isprint`
holds for it in the C locale of the process, a dot otherwise. -/
def iterator_hex_writer.print_ascii (env : Env) (os : OStream) (byte : Nat) : Exit OStream :=
  let ascii_byte := byte % 256
  if env.isprint ascii_byte then os.put_char (Char.ofNat ascii_byte)
  else os.put_char '.'

/-- The member `print_cached`: padding for a partial row, the two-space
gutter, the cached bytes `cache[0]` to `cache[offset - 1]` as ASCII, and the
reset of `offset`. -/
def ascii_cache_t.print_cached (env : Env) (fmt : Format) (c : ascii_cache_t) (os : OStream) :
    Exit (ascii_cache_t × OStream) :=
  match c with
  | .dummy => .returned (.dummy, os)
  | .mk offset cache =>
    (if offset ≠ fmt.RowWidthValue.value then
        let missing_bytes := (fmt.RowWidthValue.value + 2 ^ 64 - offset) % 2 ^ 64
        let characters_per_byte := if fmt.WithNibbleSeparation then 3 else 2
        ((os.setfill ' ').setw
          (size_to_int ((missing_bytes * characters_per_byte) % 2 ^ 64))).put_char ' '
      else .returned os).bind fun os =>
    (os.put_string [' ', ' ']).bind fun os =>
    (Exit.fold (fun os i => iterator_hex_writer.print_ascii env os (cache.getD i 0)) os
      (List.range offset)).bind fun os =>
    .returned (.mk 0 cache, os)

/-- The loop of `get_address_width`:
`for (reminder = full_size - 1; reminder != 0; reminder /= 16, ++result)`. -/
@[semireducible]
def iterator_hex_writer.get_address_width.loop (reminder result : Nat) : Nat :=
  if h : reminder = 0 then result
  else iterator_hex_writer.get_address_width.loop (reminder / 16) (result + 1)
termination_by reminder
decreasing_by exact Nat.div_lt_self (Nat.pos_of_ne_zero h) (by decide)

/-- The member `print_state::get_address_width`; `full_size` is
`std::distance(it, end)`, the number of elements of the range, and
`full_size - 1` is converted to `size_t`. -/
def iterator_hex_writer.get_address_width (full_size : Nat) : Nat :=
  let result := iterator_hex_writer.get_address_width.loop ((full_size + 2 ^ 64 - 1) % 2 ^ 64) 0
  if result < 2 then 2 else result

/-- The struct `print_state` without its iterators, which the embedding
replaces by recursion over the list of elements. -/
structure print_state where
  address_width : Nat
  global_offset : Nat
  row_offset : Nat
  ascii_cache : ascii_cache_t
  deriving DecidableEq, Repr

/-- Constructor of `print_state` for a range of `full_size` elements. -/
def print_state.ctor (fmt : Format) (full_size : Nat) : print_state :=
  { address_width :=
      if fmt.WithOffsets then iterator_hex_writer.get_address_width full_size else 0,
    global_offset := 0,
    row_offset := 0,
    ascii_cache := ascii_cache_t.init fmt }

/-- The function `print_byte`. -/
def iterator_hex_writer.print_byte (env : Env) (fmt : Format) (os : OStream) (s : print_state)
    (byte : Nat) : Exit (OStream × print_state) :=
  (if s.row_offset = 0 ∧ s.global_offset ≠ 0 then os.put_char '\n' else .returned os).bind
  fun os =>
  (if fmt.WithOffsets ∧ s.row_offset = 0 then
      (os.put_string ['0', 'x']).bind fun os =>
      let os := (os.hex.setw (size_to_int s.address_width)).setfill '0'
      let os := if fmt.InUpperCase then os.set_uppercase else os
      (os.put_integer 64 false s.global_offset).bind fun os =>
      os.put_string [':', ' ']
    else .returned os).bind
  fun os =>
  (if fmt.WithNibbleSeparation ∧ s.row_offset ≠ 0 then os.put_char ' ' else .returned os).bind
  fun os =>
  let s := { s with ascii_cache := s.ascii_cache.add_byte byte }
  let os := ((os.setw 2).setfill '0').hex
  let os := if fmt.InUpperCase then os.set_uppercase else os
  (os.put_integer 32 true byte).bind
  fun os =>
  let s := { s with global_offset := s.global_offset + 1 }
  let s := { s with row_offset := s.row_offset + 1 }
  if s.row_offset = fmt.RowWidthValue.value then
    (s.ascii_cache.print_cached env fmt os).bind fun r =>
    .returned (r.2, { s with ascii_cache := r.1, row_offset := 0 })
  else .returned (os, s)

/-- The function `print_value_bytes`: the bytes of the element `*ps.it`, in
memory order, each converted with `static_cast<uint8_t>`. -/
def iterator_hex_writer.print_value_bytes (env : Env) (fmt : Format) (os : OStream)
    (ps : print_state) (value : List Nat) : Exit (OStream × print_state) :=
  Exit.fold (fun r value_byte => iterator_hex_writer.print_byte env fmt r.1 r.2 (value_byte % 256))
    (os, ps) value

/-- The body of `do_print` between the construction and the destruction of its
`format_backup`; `range` holds the elements from `begin_` to `end_`, each as
its bytes in memory order. -/
def iterator_hex_writer.do_print.body (env : Env) (fmt : Format) (range : List (List Nat))
    (os : OStream) : Exit OStream :=
  let ps := print_state.ctor fmt range.length
  (Exit.fold (fun r value => iterator_hex_writer.print_value_bytes env fmt r.1 r.2 value)
    (os, ps) range).bind fun r =>
  if r.2.row_offset ≠ 0 then
    (r.2.ascii_cache.print_cached env fmt r.1).bind fun c => .returned c.2
  else .returned r.1

/-- The function `do_print`. -/
def iterator_hex_writer.do_print (env : Env) (fmt : Format) (range : List (List Nat))
    (os : OStream) : Exit OStream :=
  format_backup.scope (iterator_hex_writer.do_print.body env fmt range) os

/-- The operator `operator<<(std::ostream&, const iterator_hex_writer&)`.  A
writer whose template arguments fail a `static_assert`, or whose `print_state`
is not a valid type, does not exist: the result is `none`. -/
def iterator_hex_writer.operator_shl (env : Env) (fmt : Format) (os : OStream)
    (range : List (List Nat)) : Option (Exit OStream) :=
  if iterator_hex_writer.static_asserts fmt ∧ iterator_hex_writer.cache_fits fmt then
    some (iterator_hex_writer.do_print env fmt range os)
  else none

/-- The function `hex_str` for a collection: render the range into a fresh
`std::ostringstream` and return its contents; no string when the writer does
not exist or `operator<<` does not return. -/
def hex_str (env : Env) (range : List (List Nat)) (fmt : Format) : Option String :=
  match iterator_hex_writer.operator_shl env fmt (OStream.fresh env.loc) range with
  | some (.returned os) => some os.str
  | _ => none

/-- The function `hex_str` for a single standard-layout object: the range from
`addressof(v)` to `addressof(v) + 1`. -/
def hex_str_value (env : Env) (v : List Nat) (fmt : Format) : Option String :=
  hex_str env [v] fmt

/-- A range of single-byte elements (`uint8_t`, `char`). -/
def bytes_range (bytes : List Nat) : List (List Nat) := bytes.map fun b => [b]

/-- The bytes of a range in the order `do_print` visits them, after the
`static_cast<uint8_t>` of `print_value_bytes`. -/
def range_bytes (range : List (List Nat)) : List Nat := range.flatten.map fun b => b % 256

/-- The loop of `print_value_bytes` and `do_print` seen as one loop over bytes. -/
def iterator_hex_writer.print_bytes (env : Env) (fmt : Format) (os : OStream) (ps : print_state)
    (bytes : List Nat) : Exit (OStream × print_state) :=
  Exit.fold (fun r b => iterator_hex_writer.print_byte env fmt r.1 r.2 b) (os, ps) bytes

/-! ## Vocabulary of the specification

Plain list functions that say what the rendered text is made of.  They are
used to state the theorems; none of them is part of the program. -/

/-- Numeric value of one hexadecimal digit, of either case. -/
def hex_digit_value (c : Char) : Option Nat :=
  if '0' ≤ c ∧ c ≤ '9' then some (c.toNat - 48)
  else if 'A' ≤ c ∧ c ≤ 'F' then some (c.toNat - 55)
  else if 'a' ≤ c ∧ c ≤ 'f' then some (c.toNat - 87)
  else none

/-- Whether a character is a hexadecimal digit. -/
def is_hex_digit (c : Char) : Bool := (hex_digit_value c).isSome

/-- A text read as a base-16 numeral, most significant digit first; `none`
when the text is empty or holds a character that is not a hex digit. -/
def hex_value (s : List Char) : Option Nat :=
  if s = [] then none
  else s.foldl (fun acc c => acc.bind fun n => (hex_digit_value c).map fun d => 16 * n + d) (some 0)

/-- The two-digit, zero-padded hex rendering of a byte. -/
def hex2 (upper : Bool) (b : Nat) : List Char :=
  [digit_char upper (b / 16 % 16), digit_char upper (b % 16)]

/-- The shortest hex numeral of `n`. -/
def hex_numeral (upper : Bool) (n : Nat) : List Char := (to_digits 16 n).map (digit_char upper)

/-- The text of `n` in hex, padded with zeros on the left to `w` characters. -/
def hex_padded (upper : Bool) (w n : Nat) : List Char :=
  List.replicate (w - (to_digits 16 n).length) '0' ++ (to_digits 16 n).map (digit_char upper)

/-- The hex numeral of `n` as a stream with the locale `loc` writes it into a
field of `w` characters filled with '0': the digits, grouped by the locale,
with zeros on their left. -/
def hex_field (loc : Locale) (upper : Bool) (w n : Nat) : List Char :=
  List.replicate (w - (loc.add_grouping (hex_numeral upper n)).length) '0'
    ++ loc.add_grouping (hex_numeral upper n)

/-- A locale that leaves numerals of one or two digits alone: its first group
does not consist of a single digit. -/
def Locale.keeps_pairs (loc : Locale) : Bool := !(loc.grouping.head? == some 1)

/-- The `numpunct` of a locale such as `en_US.UTF-8`: groups of three digits
separated by commas. -/
def Locale.en_US : Locale := { thousands_sep := ',', grouping := [3, 3] }

/-- The environment after `std::locale::global(std::locale("en_US.UTF-8"))`:
digits are grouped in threes; `isprint` on single bytes is as in the "C"
locale. -/
def Env.en_US : Env := { loc := Locale.en_US, isprint := Env.classic.isprint }

/-- An environment whose `isprint` is the one of the "C" locale on every value
of `unsigned char`: true from 0x20 to 0x7E only. -/
def Env.c_ctype (e : Env) : Prop := ∀ c, c < 256 → e.isprint c = decide (32 ≤ c ∧ c ≤ 126)

/-- The environment `env` with the locale of a given stream in the place of
the global locale: what the text written to that stream depends on. -/
def Env.with_locale (env : Env) (loc : Locale) : Env := { loc := loc, isprint := env.isprint }

/-- The stream `os` with `text` added to the characters it holds. -/
def OStream.append (os : OStream) (text : List Char) : OStream :=
  { os with buf := os.buf ++ text }

/-- The separator between two bytes of a row. -/
def nibble_sep (fmt : Format) : List Char := if fmt.WithNibbleSeparation then [' '] else []

/-- The hex groups of the bytes of one row: two digits per byte. -/
def hex_groups (fmt : Format) (row : List Nat) : List Char :=
  (nibble_sep fmt).intercalate (row.map (hex2 fmt.InUpperCase))

/-- The address field of a row that starts at offset `g`: "0x", the offset in
hex padded with zeros to `aw` digits, ": ". -/
def address_field (upper : Bool) (aw g : Nat) : List Char :=
  ['0', 'x'] ++ hex_padded upper aw g ++ [':', ' ']

/-- The hex groups of the bytes of one row as a stream with the locale of `e`
writes them. -/
def hex_fields (e : Env) (fmt : Format) (row : List Nat) : List Char :=
  (nibble_sep fmt).intercalate (row.map (hex_field e.loc fmt.InUpperCase 2))

/-- The address field of a row that starts at offset `g` as a stream with
the locale of `e` writes it. -/
def address_out (e : Env) (upper : Bool) (aw g : Nat) : List Char :=
  ['0', 'x'] ++ hex_field e.loc upper aw g ++ [':', ' ']

/-- The character shown for a byte in the ASCII column under the `isprint`
of `e`. -/
def ascii_out (e : Env) (b : Nat) : Char :=
  if e.isprint (b % 256) then Char.ofNat (b % 256) else '.'

/-- The character shown for a byte in the ASCII column when `isprint` is the
one of the "C" locale: the byte itself from 0x20 to 0x7E, a dot otherwise. -/
def ascii_char (b : Nat) : Char :=
  if 32 ≤ b % 256 ∧ b % 256 ≤ 126 then Char.ofNat (b % 256) else '.'

/-- The number of characters per byte that `print_cached` pads with. -/
def chars_per_byte (fmt : Format) : Nat := if fmt.WithNibbleSeparation then 3 else 2

/-- The number of spaces `print_cached` emits before the gutter for a partial
row of `k` bytes, with the arithmetic of the source: `size_t` subtraction and
product, conversion to `int`, and a field of at least the one space written. -/
def pad_spaces (fmt : Format) (k : Nat) : Nat :=
  (size_to_int (((fmt.RowWidthValue.value + 2 ^ 64 - k) % 2 ^ 64 * chars_per_byte fmt)
    % 2 ^ 64) - 1).toNat + 1

/-- What `print_cached` appends for a row holding the bytes `row` in the "C"
locale: the padding of a partial row, the gutter, the ASCII characters. -/
def flush_text (fmt : Format) (row : List Nat) : List Char :=
  match fmt.RowWidthValue with
  | .SingleRow => []
  | .RowWidth _ =>
    (if row.length ≠ fmt.RowWidthValue.value then List.replicate (pad_spaces fmt row.length) ' '
      else []) ++ [' ', ' '] ++ row.map ascii_char

/-- What `print_cached` appends for a row holding the bytes `row`. -/
def flush_out (e : Env) (fmt : Format) (row : List Nat) : List Char :=
  match fmt.RowWidthValue with
  | .SingleRow => []
  | .RowWidth _ =>
    (if row.length ≠ fmt.RowWidthValue.value then List.replicate (pad_spaces fmt row.length) ' '
      else []) ++ [' ', ' '] ++ row.map (ascii_out e)

/-- What `print_byte` appends before a possible flush, for the byte `b` at
global offset `g` and row offset `r`. -/
def byte_out (e : Env) (fmt : Format) (aw g r b : Nat) : List Char :=
  (if r = 0 ∧ g ≠ 0 then ['\n'] else []) ++
  (if fmt.WithOffsets ∧ r = 0 then
    address_out e fmt.InUpperCase (size_to_int aw).toNat (g % 2 ^ 64) else []) ++
  (if fmt.WithNibbleSeparation ∧ r ≠ 0 then [' '] else []) ++
  hex_field e.loc fmt.InUpperCase 2 b

/-- The bytes cached for the current row after `bytes` have been printed. -/
def row_after (fmt : Format) : List Nat → List Nat → List Nat
  | row, [] => row
  | row, b :: bs =>
    row_after fmt (if row.length + 1 = fmt.RowWidthValue.value then [] else row ++ [b]) bs

/-- The text the byte loop appends for `bytes`, starting at global offset `g`
with `row` already cached. -/
def bytes_out (e : Env) (fmt : Format) (aw : Nat) : Nat → List Nat → List Nat → List Char
  | _, _, [] => []
  | g, row, b :: bs =>
    byte_out e fmt aw g row.length b ++
    (if row.length + 1 = fmt.RowWidthValue.value then flush_out e fmt (row ++ [b]) else []) ++
    bytes_out e fmt aw (g + 1)
      (if row.length + 1 = fmt.RowWidthValue.value then [] else row ++ [b]) bs

/-- The number of rows of a dump of `n` bytes. -/
def row_count (fmt : Format) (n : Nat) : Nat :=
  (n + fmt.RowWidthValue.value - 1) / fmt.RowWidthValue.value

/-- The bytes of row `j`. -/
def row_bytes (fmt : Format) (bytes : List Nat) (j : Nat) : List Nat :=
  (bytes.drop (j * fmt.RowWidthValue.value)).take fmt.RowWidthValue.value

/-- The text of row `j` without digit grouping and in the "C" locale: address
field, hex groups, ASCII column. -/
def line_text (fmt : Format) (aw j : Nat) (row : List Nat) : List Char :=
  (if fmt.WithOffsets then
      address_field fmt.InUpperCase (size_to_int aw).toNat ((j * fmt.RowWidthValue.value) % 2 ^ 64)
    else []) ++
  hex_groups fmt row ++ flush_text fmt row

/-- The lines of a dump without digit grouping and in the "C" locale. -/
def dump_lines (fmt : Format) (aw : Nat) (bytes : List Nat) : List (List Char) :=
  (List.range (row_count fmt bytes.length)).map fun j => line_text fmt aw j (row_bytes fmt bytes j)

/-- The text of row `j` in the environment `e`: address field, hex groups,
ASCII column. -/
def line_out (e : Env) (fmt : Format) (aw j : Nat) (row : List Nat) : List Char :=
  (if fmt.WithOffsets then
      address_out e fmt.InUpperCase (size_to_int aw).toNat
        ((j * fmt.RowWidthValue.value) % 2 ^ 64)
    else []) ++
  hex_fields e fmt row ++ flush_out e fmt row

/-- The lines of a dump in the environment `e`. -/
def lines_out (e : Env) (fmt : Format) (aw : Nat) (bytes : List Nat) : List (List Char) :=
  (List.range (row_count fmt bytes.length)).map fun j =>
    line_out e fmt aw j (row_bytes fmt bytes j)

/-- The largest finite row width for which `print_state` is a valid type:
`48 + 8 * ((MAX_ROW_WIDTH + 7) / 8)` is `PTRDIFF_MAX - 7`. -/
def MAX_ROW_WIDTH : Nat := 2 ^ 63 - 56

/-- The manipulators `operator<<` of `integral_hex_writer` applies between the
prefix and the value. -/
def integral_hex_writer.manip (fmt : IntegralFormat) (size : Nat) (os : OStream) : OStream :=
  let os := if fmt.DoFill then (os.setw (size_to_int (2 * size))).setfill '0' else os
  if fmt.InUpperCase then os.set_uppercase else os

/-- The value, as an unsigned number, that `T` holds after conversion of `v`:
0 or 1 for `bool`, otherwise `v` modulo `2 ^ (8 * sizeof(T))`. -/
def IntType.bits_value : IntType → Int → Nat
  | .bool, v => if v = 0 then 0 else 1
  | .int size _, v => (v % (2 : Int) ^ (8 * size)).toNat

/-- The text `integral_hex_writer` is documented to produce. -/
def integral_text (fmt : IntegralFormat) (T : IntType) (v : Int) : List Char :=
  (if fmt.WithPrefix then ['0', 'x'] else []) ++
  (if fmt.DoFill then
    hex_padded fmt.InUpperCase (size_to_int (2 * T.sizeof)).toNat (T.bits_value v)
   else hex_numeral fmt.InUpperCase (T.bits_value v))

/-- The text `integral_hex_writer` writes to a stream with the locale `loc`:
the optional "0x" and the numeral, grouped by the locale, in a field of
`2 * sizeof(T)` characters when `DoFill` is on. -/
def integral_field (loc : Locale) (fmt : IntegralFormat) (T : IntType) (v : Int) : List Char :=
  (if fmt.WithPrefix then ['0', 'x'] else []) ++
  hex_field loc fmt.InUpperCase (if fmt.DoFill then (size_to_int (2 * T.sizeof)).toNat else 0)
    (T.bits_value v)

/-- The upper-case form of a hex digit: a to f become A to F, every other
character stays. -/
def to_upper_hex (c : Char) : Char :=
  if 'a' ≤ c ∧ c ≤ 'f' then Char.ofNat (c.toNat - 32) else c

/-- A character among 0-9 and A-F. -/
def is_upper_hex (c : Char) : Bool :=
  decide (('0' ≤ c ∧ c ≤ '9') ∨ ('A' ≤ c ∧ c ≤ 'F'))

/-- A character among 0-9 and a-f. -/
def is_lower_hex (c : Char) : Bool :=
  decide (('0' ≤ c ∧ c ≤ '9') ∨ ('a' ≤ c ∧ c ≤ 'f'))

/-- The loop of `get_address_width` run for at most `fuel` iterations: the
result when the loop condition `reminder != 0` fails within them, `none` when
it still holds after `fuel` iterations. -/
def iterator_hex_writer.get_address_width.loop_bounded : Nat → Nat → Nat → Option Nat
  | 0, reminder, result => if reminder = 0 then some result else none
  | fuel + 1, reminder, result =>
    if reminder = 0 then some result
    else iterator_hex_writer.get_address_width.loop_bounded fuel (reminder / 16) (result + 1)

/-- A stream on which the writers produce their documented text: it is in the
good state, its locale is `loc`, and its mode has no `left` adjustment, no
`showbase`, no pending width above 1, and `uppercase` only when the writer
prints upper case anyway. -/
def Good (upper : Bool) (loc : Locale) (os : OStream) : Prop :=
  os.state = IoState.goodbit ∧ os.fmt.loc = loc ∧ os.fmt.adjust ≠ .left ∧
  os.fmt.showbase = false ∧ os.fmt.width ≤ 1 ∧ (os.fmt.uppercase = true → upper = true)

/-- The link between `print_state` and the bytes of the current row. -/
def Inv (fmt : Format) (s : print_state) (row : List Nat) : Prop :=
  s.row_offset = row.length ∧
  match fmt.RowWidthValue with
  | .SingleRow => s.ascii_cache = .dummy
  | .RowWidth Sz =>
    row.length < Sz ∧ ∃ c, s.ascii_cache = .mk row.length c ∧ c.length = Sz ∧ c.take row.length = row

/-- The text the byte loop appends for `bytes` from the start of a row at
global offset `g`, followed by the flush of a last, partial row. -/
def rows_out (e : Env) (fmt : Format) (aw g : Nat) (bytes : List Nat) : List Char :=
  bytes_out e fmt aw g [] bytes ++
  (if row_after fmt [] bytes ≠ [] then flush_out e fmt (row_after fmt [] bytes) else [])

/-- The text `do_print` appends for a range of `n` elements with the bytes
`bytes`. -/
def body_out (e : Env) (fmt : Format) (n : Nat) (bytes : List Nat) : List Char :=
  rows_out e fmt (print_state.ctor fmt n).address_width 0 bytes

/-! ## Theorems -/

/-! ### Digits -/

theorem digits_loop_eq (base : Nat) (hb : 1 < base) :
    ∀ (fuel v : Nat) (acc : List Nat), 0 < v → v ≤ fuel →
      digits_loop base fuel v acc = (Nat.digits base v).reverse ++ acc := by
  intro fuel
  induction fuel with
  | zero => intro v acc hv hf; omega
  | succ n ih =>
    intro v acc hv hf
    rw [digits_loop, Nat.digits_def' hb hv]
    by_cases hq : v / base = 0
    · simp [hq]
    · have hlt : v / base < v := Nat.div_lt_self hv hb
      rw [if_neg hq, ih (v / base) _ (Nat.pos_of_ne_zero hq) (by omega)]
      simp

theorem to_digits_zero (base : Nat) : to_digits base 0 = [0] := by
  simp [to_digits, digits_loop]

theorem to_digits_pos (base v : Nat) (hb : 1 < base) (hv : 0 < v) :
    to_digits base v = (Nat.digits base v).reverse := by
  rw [to_digits, digits_loop_eq base hb (v + 1) v [] hv (by omega)]
  simp

theorem to_digits_length_pos (base v : Nat) (hb : 1 < base) :
    0 < (to_digits base v).length := by
  rcases Nat.eq_zero_or_pos v with rfl | hv
  · simp [to_digits_zero]
  · rw [to_digits_pos base v hb hv, List.length_reverse]
    exact List.length_pos.mpr (Nat.digits_ne_nil_iff_ne_zero.mpr (by omega))

theorem to_digits_length_le (base v k : Nat) (hb : 1 < base) (hk : 0 < k) (hv : v < base ^ k) :
    (to_digits base v).length ≤ k := by
  rcases Nat.eq_zero_or_pos v with rfl | h0
  · simp [to_digits_zero]; omega
  · rw [to_digits_pos base v hb h0, List.length_reverse, Nat.digits_len base v hb (by omega)]
    exact Nat.log_lt_of_lt_pow (by omega) hv

theorem to_digits_lt (base v d : Nat) (hb : 1 < base) (hd : d ∈ to_digits base v) : d < base := by
  rcases Nat.eq_zero_or_pos v with rfl | h0
  · simp [to_digits_zero] at hd; omega
  · rw [to_digits_pos base v hb h0, List.mem_reverse] at hd
    exact Nat.digits_lt_base hb hd

theorem to_digits_ofDigits (base v : Nat) (hb : 1 < base) :
    Nat.ofDigits base (to_digits base v).reverse = v := by
  rcases Nat.eq_zero_or_pos v with rfl | h0
  · simp [to_digits_zero]
  · rw [to_digits_pos base v hb h0, List.reverse_reverse, Nat.ofDigits_digits]

theorem to_digits_head_ne_zero (base v : Nat) (hb : 1 < base) (hv : 0 < v) :
    (to_digits base v).head? ≠ some 0 := by
  rw [to_digits_pos base v hb hv, List.head?_reverse]
  have hne : Nat.digits base v ≠ [] := Nat.digits_ne_nil_iff_ne_zero.mpr (by omega)
  rw [List.getLast?_eq_getLast _ hne]
  intro h
  exact Nat.getLast_digit_ne_zero base (by omega) (Option.some.inj h)

theorem digit_char_value (upper : Bool) : ∀ d, d < 16 →
    hex_digit_value (digit_char upper d) = some d := by
  cases upper <;> decide

theorem digit_char_zero (upper : Bool) : digit_char upper 0 = '0' := by
  cases upper <;> rfl

theorem byte_digits (upper : Bool) (b : Nat) (hb : b < 256) :
    List.replicate (2 - (to_digits 16 b).length) '0' ++ (to_digits 16 b).map (digit_char upper)
      = hex2 upper b := by
  by_cases h16 : b < 16
  · have h1 : to_digits 16 b = [b] := by
      simp [to_digits, digits_loop, Nat.div_eq_of_lt h16, Nat.mod_eq_of_lt h16]
    simp [h1, hex2, Nat.div_eq_of_lt h16, Nat.mod_eq_of_lt h16, digit_char_zero]
  · have h2 : to_digits 16 b = [b / 16, b % 16] := by
      obtain ⟨k, rfl⟩ : ∃ k, b = k + 1 := ⟨b - 1, by omega⟩
      have hq : (k + 1) / 16 ≠ 0 := by omega
      have hqq : (k + 1) / 16 / 16 = 0 := by omega
      have hm : (k + 1) / 16 % 16 = (k + 1) / 16 := by omega
      simp [to_digits, digits_loop, hq, hqq, hm]
    have hm : b / 16 % 16 = b / 16 := by omega
    simp [h2, hex2, hm]

/-! ### Exits -/

@[simp] theorem Exit.bind_returned {α β : Type} (a : α) (f : α → Exit β) :
    (Exit.returned a).bind f = f a := rfl

@[simp] theorem Exit.bind_failure {α β : Type} (os : OStream) (f : α → Exit β) :
    (Exit.failure os : Exit α).bind f = .failure os := rfl

@[simp] theorem Exit.bind_terminate {α β : Type} (os : OStream) (f : α → Exit β) :
    (Exit.terminate os : Exit α).bind f = .terminate os := rfl

theorem Exit.bind_assoc {α β γ : Type} (x : Exit α) (f : α → Exit β) (g : β → Exit γ) :
    (x.bind f).bind g = x.bind fun a => (f a).bind g := by
  cases x <;> rfl

@[simp] theorem Exit.fold_nil {σ α : Type} (f : σ → α → Exit σ) (s : σ) :
    Exit.fold f s [] = .returned s := rfl

@[simp] theorem Exit.fold_cons {σ α : Type} (f : σ → α → Exit σ) (s : σ) (a : α) (as : List α) :
    Exit.fold f s (a :: as) = (f s a).bind fun s1 => Exit.fold f s1 as := rfl

theorem Exit.fold_append {σ α : Type} (f : σ → α → Exit σ) : ∀ (xs ys : List α) (s : σ),
    Exit.fold f s (xs ++ ys) = (Exit.fold f s xs).bind fun s1 => Exit.fold f s1 ys := by
  intro xs
  induction xs with
  | nil => intro ys s; rfl
  | cons x xs ih =>
    intro ys s
    simp only [List.cons_append, Exit.fold_cons, Exit.bind_assoc]
    congr 1
    funext s1
    exact ih ys s1

theorem Exit.fold_map {σ α β : Type} (f : σ → β → Exit σ) (g : α → β) : ∀ (xs : List α) (s : σ),
    Exit.fold f s (xs.map g) = Exit.fold (fun s a => f s (g a)) s xs := by
  intro xs
  induction xs with
  | nil => intro s; rfl
  | cons x xs ih =>
    intro s
    simp only [List.map_cons, Exit.fold_cons]
    congr 1
    funext s1
    exact ih s1

/-! ### Digit grouping -/

theorem add_grouping_off (loc : Locale) (ds : List Char) (h : loc.use_grouping = false) :
    loc.add_grouping ds = ds := by
  simp [Locale.add_grouping, h]

theorem add_grouping_classic (ds : List Char) : Locale.classic.add_grouping ds = ds :=
  add_grouping_off _ _ rfl

theorem add_grouping_short (loc : Locale) (ds : List Char) (h : loc.keeps_pairs = true)
    (hl : ds.length ≤ 2) : loc.add_grouping ds = ds := by
  unfold Locale.add_grouping
  split
  · next hu =>
    cases hg : loc.grouping with
    | nil => simp [Locale.use_grouping, hg] at hu
    | cons g rest =>
      have hg1 : g ≠ 1 := by simpa [Locale.keeps_pairs, hg] using h
      have hok : 0 < g ∧ g < 127 := by simpa [Locale.use_grouping, hg, Locale.group_size_ok] using hu
      cases hd : ds.length with
      | zero =>
        have : ds = [] := List.length_eq_zero.mp hd
        subst this
        simp [Locale.add_grouping_rev]
      | succ n =>
        have hlt : ¬ (g < ds.length) := by omega
        simp [Locale.add_grouping_rev, hlt]
  · rfl

theorem add_grouping_rev_mem (sep c : Char) : ∀ (fuel : Nat) (gs : List Nat) (ds : List Char),
    c ∈ Locale.add_grouping_rev sep fuel gs ds → c ∈ ds ∨ c = sep := by
  intro fuel
  induction fuel with
  | zero => intro gs ds h; exact Or.inl h
  | succ n ih =>
    intro gs ds h
    cases gs with
    | nil => exact Or.inl h
    | cons g rest =>
      simp only [Locale.add_grouping_rev] at h
      split at h
      · rcases List.mem_append.mp h with h1 | h1
        · exact Or.inl (List.mem_of_mem_take h1)
        · rcases List.mem_cons.mp h1 with h2 | h2
          · exact Or.inr h2
          · rcases ih _ _ h2 with h3 | h3
            · exact Or.inl (List.mem_of_mem_drop h3)
            · exact Or.inr h3
      · exact Or.inl h

theorem add_grouping_mem (loc : Locale) (ds : List Char) (c : Char)
    (h : c ∈ loc.add_grouping ds) : c ∈ ds ∨ c = loc.thousands_sep := by
  unfold Locale.add_grouping at h
  split at h
  · rcases add_grouping_rev_mem _ c _ _ _ (List.mem_reverse.mp h) with h1 | h1
    · exact Or.inl (List.mem_reverse.mp h1)
    · exact Or.inr h1
  · exact Or.inl h

theorem add_grouping_rev_length (sep : Char) : ∀ (fuel : Nat) (gs : List Nat) (ds : List Char),
    ds.length ≤ (Locale.add_grouping_rev sep fuel gs ds).length := by
  intro fuel
  induction fuel with
  | zero => intro gs ds; exact Nat.le_refl _
  | succ n ih =>
    intro gs ds
    cases gs with
    | nil => exact Nat.le_refl _
    | cons g rest =>
      simp only [Locale.add_grouping_rev]
      split
      · next hc =>
        have h1 := ih (if rest = [] then g :: rest else rest) (ds.drop g)
        simp only [List.length_append, List.length_cons, List.length_take, List.length_drop] at h1 ⊢
        omega
      · exact Nat.le_refl _

theorem add_grouping_length (loc : Locale) (ds : List Char) :
    ds.length ≤ (loc.add_grouping ds).length := by
  unfold Locale.add_grouping
  split
  · have := add_grouping_rev_length loc.thousands_sep ds.length loc.grouping ds.reverse
    simpa using this
  · exact Nat.le_refl _

theorem hex_numeral_length_pos (upper : Bool) (n : Nat) : 0 < (hex_numeral upper n).length := by
  simp only [hex_numeral, List.length_map]
  exact to_digits_length_pos 16 n (by decide)

theorem hex_field_ne_nil (loc : Locale) (upper : Bool) (w n : Nat) :
    hex_field loc upper w n ≠ [] := by
  intro h
  have h1 := add_grouping_length loc (hex_numeral upper n)
  have h2 := hex_numeral_length_pos upper n
  have h3 : (hex_field loc upper w n).length = 0 := by rw [h]; rfl
  simp only [hex_field, List.length_append, List.length_replicate] at h3
  omega

theorem hex_field_off (loc : Locale) (upper : Bool) (w n : Nat) (h : loc.use_grouping = false) :
    hex_field loc upper w n = hex_padded upper w n := by
  simp [hex_field, hex_padded, hex_numeral, add_grouping_off loc _ h]

theorem hex_field_short (loc : Locale) (upper : Bool) (w n : Nat) (hw : w ≤ 1) :
    hex_field loc upper w n = loc.add_grouping (hex_numeral upper n) := by
  have h1 := add_grouping_length loc (hex_numeral upper n)
  have h2 := hex_numeral_length_pos upper n
  have h0 : w - (loc.add_grouping (hex_numeral upper n)).length = 0 := by omega
  simp [hex_field, h0]

theorem hex_field_byte (loc : Locale) (upper : Bool) (b : Nat) (h : loc.keeps_pairs = true)
    (hb : b < 256) : hex_field loc upper 2 b = hex2 upper b := by
  have hl : (hex_numeral upper b).length ≤ 2 := by
    simp only [hex_numeral, List.length_map]
    exact to_digits_length_le 16 b 2 (by decide) (by decide) (by omega)
  rw [hex_field, add_grouping_short loc _ h hl]
  simp only [hex_numeral, List.length_map]
  exact byte_digits upper b hb

/-! ### The sink -/

theorem padding_nil (f : Fmt) (len : Nat) (h : f.width ≤ len) : padding f len = [] := by
  have h0 : (f.width - (len : Int)).toNat = 0 := by omega
  simp [padding, h0]

theorem pad_text_eq (f : Fmt) (s : List Char) (h : f.width ≤ s.length) : pad_text f s = s := by
  unfold pad_text
  rw [padding_nil f s.length h]
  cases f.adjust <;> simp

theorem good_is_good (upper : Bool) (loc : Locale) (os : OStream) (hg : Good upper loc os) :
    os.good = true := by
  simp [OStream.good, hg.1]

theorem put_string_good (upper : Bool) (loc : Locale) (os : OStream) (s : List Char)
    (hg : Good upper loc os) (hs : 1 ≤ s.length) :
    ∃ os1, os.put_string s = .returned os1 ∧ os1.buf = os.buf ++ s ∧ Good upper loc os1 := by
  have hgood := good_is_good upper loc os hg
  obtain ⟨h0, hl, h1, h2, h3, h4⟩ := hg
  have hw : os.fmt.width ≤ (s.length : Int) := by omega
  refine ⟨os.emit (pad_text os.fmt s), by simp [OStream.put_string, hgood], ?_, ?_⟩
  · simp [OStream.emit, pad_text_eq _ _ hw]
  · exact ⟨h0, hl, h1, h2, by simp [OStream.emit], h4⟩

theorem put_char_good (upper : Bool) (loc : Locale) (os : OStream) (c : Char)
    (hg : Good upper loc os) :
    ∃ os1, os.put_char c = .returned os1 ∧ os1.buf = os.buf ++ [c] ∧ Good upper loc os1 :=
  put_string_good upper loc os [c] hg (by simp)

theorem pad_num_hex (f : Fmt) (bits : Nat) (signed : Bool) (v : Int)
    (hb : f.base = .hex) (ha : f.adjust ≠ .left) (hs : f.showbase = false) :
    pad_num f (num_text f bits signed v).1 (num_text f bits signed v).2 =
      List.replicate (f.width.toNat
          - (f.loc.add_grouping (hex_numeral f.uppercase (v % (2 : Int) ^ bits).toNat)).length) f.fill
        ++ f.loc.add_grouping (hex_numeral f.uppercase (v % (2 : Int) ^ bits).toNat) := by
  have hn : num_text f bits signed v =
      ([], f.loc.add_grouping (hex_numeral f.uppercase (v % (2 : Int) ^ bits).toNat)) := by
    simp [num_text, hb, hs, hex_numeral]
  rw [hn]
  generalize f.loc.add_grouping (hex_numeral f.uppercase (v % (2 : Int) ^ bits).toNat) = t
  have hp : (f.width - ((([] : List Char).length + t.length : Nat) : Int)).toNat
      = f.width.toNat - t.length := by
    simp only [List.length_nil, Nat.zero_add]
    omega
  unfold pad_num padding
  simp only [hp]
  cases hadj : f.adjust <;> simp_all

theorem put_integer_hex (upper : Bool) (loc : Locale) (os : OStream) (bits : Nat) (signed : Bool)
    (v : Int) (hst : os.state = IoState.goodbit) (hl : os.fmt.loc = loc)
    (hb : os.fmt.base = .hex) (ha : os.fmt.adjust ≠ .left) (hs : os.fmt.showbase = false)
    (hf : os.fmt.fill = '0' ∨ os.fmt.width ≤ 1) (hu : os.fmt.uppercase = upper) :
    os.put_integer bits signed v
      = .returned (os.emit (hex_field loc upper os.fmt.width.toNat (v % (2 : Int) ^ bits).toNat)) := by
  have hgood : os.good = true := by simp [OStream.good, hst]
  simp only [OStream.put_integer, hgood, if_true]
  rw [pad_num_hex os.fmt bits signed v hb ha hs, hl, hu]
  congr 2
  rcases hf with hf | hf
  · rw [hf]; rfl
  · have h1 := add_grouping_length loc (hex_numeral upper (v % (2 : Int) ^ bits).toNat)
    have h2 := hex_numeral_length_pos upper (v % (2 : Int) ^ bits).toNat
    have h0 : os.fmt.width.toNat
        - (loc.add_grouping (hex_numeral upper (v % (2 : Int) ^ bits).toNat)).length = 0 := by
      omega
    simp [hex_field, h0]

theorem put_byte_good (upper : Bool) (loc : Locale) (os : OStream) (b : Nat)
    (hg : Good upper loc os) (hb : b < 256) :
    ∃ os1, (if upper = true then (((os.setw 2).setfill '0').hex).set_uppercase
        else ((os.setw 2).setfill '0').hex).put_integer 32 true b = .returned os1 ∧
      os1.buf = os.buf ++ hex_field loc upper 2 b ∧ Good upper loc os1 := by
  obtain ⟨h0, hl, h1, h2, h3, h4⟩ := hg
  have hv : (((b : Nat) : Int) % (2 : Int) ^ 32).toNat = b := by omega
  cases upper with
  | true =>
    simp only [if_true]
    rw [put_integer_hex true loc ((((os.setw 2).setfill '0').hex).set_uppercase) 32 true b h0 hl
      rfl h1 h2 (Or.inl rfl) rfl, hv]
    exact ⟨_, rfl, rfl, h0, hl, h1, h2, by simp [OStream.emit], fun _ => rfl⟩
  | false =>
    have hu : os.fmt.uppercase = false := by
      cases hc : os.fmt.uppercase
      · rfl
      · exact absurd (h4 hc) (by simp)
    simp only [Bool.false_eq_true, if_false]
    rw [put_integer_hex false loc (((os.setw 2).setfill '0').hex) 32 true b h0 hl
      rfl h1 h2 (Or.inl rfl) hu, hv]
    refine ⟨_, rfl, rfl, h0, hl, h1, h2, by simp [OStream.emit], ?_⟩
    intro hc
    simp [OStream.emit, OStream.setw, OStream.setfill, OStream.hex, hu] at hc

theorem put_address_good (env : Env) (upper : Bool) (loc : Locale) (os : OStream) (aw g : Nat)
    (hg : Good upper loc os) :
    ∃ os1, ((os.put_string ['0', 'x']).bind fun os =>
        ((if upper = true then ((os.hex.setw (size_to_int aw)).setfill '0').set_uppercase
          else (os.hex.setw (size_to_int aw)).setfill '0').put_integer 64 false g).bind fun os =>
        os.put_string [':', ' ']) = .returned os1 ∧
      os1.buf = os.buf ++ address_out (env.with_locale loc) upper (size_to_int aw).toNat
        (g % 2 ^ 64) ∧
      Good upper loc os1 := by
  obtain ⟨os1, e1, b1, g1⟩ := put_string_good upper loc os ['0', 'x'] hg (by simp)
  rw [e1, Exit.bind_returned]
  obtain ⟨h0, hl, h1, h2, h3, h4⟩ := g1
  have hv : (((g : Nat) : Int) % (2 : Int) ^ 64).toNat = g % 2 ^ 64 := by omega
  have key : ∀ os2 : OStream, os2.state = IoState.goodbit → os2.fmt.loc = loc →
      os2.fmt.base = .hex → os2.fmt.adjust ≠ .left →
      os2.fmt.showbase = false → os2.fmt.fill = '0' → os2.fmt.uppercase = upper →
      os2.fmt.width = size_to_int aw → os2.buf = os1.buf →
      ∃ os3, ((os2.put_integer 64 false g).bind fun os => os.put_string [':', ' '])
          = .returned os3 ∧
        os3.buf = os.buf ++ address_out (env.with_locale loc) upper (size_to_int aw).toNat
          (g % 2 ^ 64) ∧
        Good upper loc os3 := by
    intro os2 e0 el e1 e2 e3 e4 e5 e6 e7
    rw [put_integer_hex upper loc os2 64 false g e0 el e1 e2 e3 (Or.inl e4) e5, Exit.bind_returned]
    have hgood : Good upper loc (os2.emit (hex_field loc upper os2.fmt.width.toNat
        (((g : Nat) : Int) % (2 : Int) ^ 64).toNat)) :=
      ⟨e0, el, e2, e3, by simp [OStream.emit], fun hc => by
        have : os2.fmt.uppercase = true := hc
        rw [e5] at this; exact this⟩
    obtain ⟨os3, k0, k1, k2⟩ := put_string_good upper loc _ [':', ' '] hgood (by simp)
    refine ⟨os3, k0, ?_, k2⟩
    rw [k1]
    simp only [OStream.emit, e7, b1, e6, hv, address_out, Env.with_locale, List.append_assoc]
  cases upper with
  | true =>
    simp only [if_true]
    exact key _ h0 hl rfl h1 h2 rfl rfl rfl rfl
  | false =>
    have hu : os1.fmt.uppercase = false := by
      cases hc : os1.fmt.uppercase
      · rfl
      · exact absurd (h4 hc) (by simp)
    simp only [Bool.false_eq_true, if_false]
    exact key _ h0 hl rfl h1 h2 rfl hu rfl rfl

theorem print_ascii_good (env : Env) (upper : Bool) (loc : Locale) (os : OStream) (b : Nat)
    (hg : Good upper loc os) :
    ∃ os1, iterator_hex_writer.print_ascii env os b = .returned os1 ∧
      os1.buf = os.buf ++ [ascii_out (env.with_locale loc) b] ∧ Good upper loc os1 := by
  unfold iterator_hex_writer.print_ascii ascii_out
  simp only [Env.with_locale]
  by_cases h : env.isprint (b % 256) = true
  · simp only [h, if_true]
    exact put_char_good upper loc os _ hg
  · simp only [h, if_false]
    exact put_char_good upper loc os _ hg

theorem print_ascii_fold (env : Env) (upper : Bool) (loc : Locale) :
    ∀ (xs : List Nat) (os : OStream), Good upper loc os →
    ∃ os1, Exit.fold (iterator_hex_writer.print_ascii env) os xs = .returned os1 ∧
      os1.buf = os.buf ++ xs.map (ascii_out (env.with_locale loc)) ∧ Good upper loc os1 := by
  intro xs
  induction xs with
  | nil => intro os hg; exact ⟨os, rfl, by simp, hg⟩
  | cons x xs ih =>
    intro os hg
    obtain ⟨os1, e1, h1, h2⟩ := print_ascii_good env upper loc os x hg
    obtain ⟨os2, e2, h3, h4⟩ := ih os1 h2
    refine ⟨os2, ?_, ?_, h4⟩
    · rw [Exit.fold_cons, e1, Exit.bind_returned, e2]
    · rw [h3, h1]
      simp

theorem range_map_getD (c : List Nat) : ∀ k, k ≤ c.length →
    (List.range k).map (fun i => c.getD i 0) = c.take k := by
  intro k
  induction k with
  | zero => intro _; simp
  | succ n ih =>
    intro hk
    have hn : n < c.length := by omega
    rw [List.range_succ, List.map_append, ih (by omega), List.take_succ]
    simp [List.getElem?_eq_getElem hn]

theorem print_cached_good (env : Env) (fmt : Format) (loc : Locale) (os : OStream) (k Sz : Nat)
    (c : List Nat) (hR : fmt.RowWidthValue = .RowWidth Sz) (hk : k ≤ c.length)
    (hg : Good fmt.InUpperCase loc os) :
    ∃ os1, (ascii_cache_t.mk k c).print_cached env fmt os = .returned (.mk 0 c, os1) ∧
      os1.buf = os.buf ++ flush_out (env.with_locale loc) fmt (c.take k) ∧
      Good fmt.InUpperCase loc os1 := by
  have hlen : (c.take k).length = k := by simp [hk]
  have hfold : ∀ os1 : OStream,
      Exit.fold (fun os i => iterator_hex_writer.print_ascii env os (c.getD i 0)) os1 (List.range k)
        = Exit.fold (iterator_hex_writer.print_ascii env) os1 (c.take k) := by
    intro os1
    rw [← range_map_getD c k hk, Exit.fold_map]
  have hpad : ∀ w : Int,
      ∃ os1, ((os.setfill ' ').setw w).put_char ' ' = .returned os1 ∧
        os1.buf = os.buf ++ List.replicate ((w - 1).toNat + 1) ' ' ∧
        Good fmt.InUpperCase loc os1 := by
    intro w
    have hgood := good_is_good _ _ _ hg
    obtain ⟨h0, hl, h1, h2, h3, h4⟩ := hg
    have hgood2 : ((os.setfill ' ').setw w).good = true := hgood
    refine ⟨((os.setfill ' ').setw w).emit (pad_text ((os.setfill ' ').setw w).fmt [' ']),
      by simp only [OStream.put_char, OStream.put_string, hgood2, if_true], ?_,
      h0, hl, h1, h2, by simp [OStream.emit], h4⟩
    simp only [OStream.emit, OStream.setw, OStream.setfill, pad_text, padding,
      List.length_singleton, Nat.cast_one]
    have e1 : List.replicate (w - 1).toNat ' ' ++ [' ']
        = List.replicate ((w - 1).toNat + 1) ' ' := (List.replicate_succ' _ _).symm
    have e2 : [' '] ++ List.replicate (w - 1).toNat ' '
        = List.replicate ((w - 1).toNat + 1) ' ' := by simp [List.replicate_succ]
    cases os.fmt.adjust <;> simp only [e1, e2]
  simp only [ascii_cache_t.print_cached, hfold]
  unfold flush_out
  rw [hR, hlen]
  by_cases hkR : k = (RowWidthT.RowWidth Sz).value
  · simp only [hkR, ne_eq, not_true_eq_false, if_false, Exit.bind_returned]
    obtain ⟨os1, a0, a1, a2⟩ := put_string_good fmt.InUpperCase loc os [' ', ' '] hg (by simp)
    obtain ⟨os2, b0, b1, b2⟩ := print_ascii_fold env fmt.InUpperCase loc
      (c.take (RowWidthT.RowWidth Sz).value) os1 a2
    refine ⟨os2, ?_, ?_, b2⟩
    · rw [a0, Exit.bind_returned, b0, Exit.bind_returned]
    · rw [b1, a1]; simp
  · simp only [ne_eq, hkR, not_false_eq_true, if_true]
    obtain ⟨os0, p0, p1, p2⟩ := hpad (size_to_int
      ((((RowWidthT.RowWidth Sz).value + 2 ^ 64 - k) % 2 ^ 64 *
        (if fmt.WithNibbleSeparation = true then 3 else 2)) % 2 ^ 64))
    obtain ⟨os1, a0, a1, a2⟩ := put_string_good fmt.InUpperCase loc os0 [' ', ' '] p2 (by simp)
    obtain ⟨os2, b0, b1, b2⟩ := print_ascii_fold env fmt.InUpperCase loc (c.take k) os1 a2
    refine ⟨os2, ?_, ?_, b2⟩
    · rw [p0, Exit.bind_returned, a0, Exit.bind_returned, b0, Exit.bind_returned]
    · rw [b1, a1, p1]
      simp [pad_spaces, chars_per_byte, hR]

/-! ### One step of the byte loop -/

theorem stage_char (upper : Bool) (loc : Locale) (c : Prop) [Decidable c] (ch : Char)
    (os : OStream) (hg : Good upper loc os) :
    ∃ os1, (if c then os.put_char ch else Exit.returned os) = .returned os1 ∧
      os1.buf = os.buf ++ (if c then [ch] else []) ∧ Good upper loc os1 := by
  by_cases h : c
  · simp only [h, if_true]; exact put_char_good upper loc os ch hg
  · simp only [h, if_false]; exact ⟨os, rfl, by simp, hg⟩

theorem stage_address (env : Env) (upper : Bool) (loc : Locale) (c : Prop) [Decidable c]
    (aw g : Nat) (os : OStream) (hg : Good upper loc os) :
    ∃ os1, (if c then
        ((os.put_string ['0', 'x']).bind fun os =>
          ((if upper = true then ((os.hex.setw (size_to_int aw)).setfill '0').set_uppercase
            else (os.hex.setw (size_to_int aw)).setfill '0').put_integer 64 false g).bind fun os =>
          os.put_string [':', ' '])
        else Exit.returned os) = .returned os1 ∧
      os1.buf = os.buf ++
        (if c then address_out (env.with_locale loc) upper (size_to_int aw).toNat (g % 2 ^ 64)
          else []) ∧
      Good upper loc os1 := by
  by_cases h : c
  · simp only [h, if_true]; exact put_address_good env upper loc os aw g hg
  · simp only [h, if_false]; exact ⟨os, rfl, by simp, hg⟩

theorem take_set_append (c : List Nat) (k b : Nat) (hk : k < c.length) :
    (c.set k b).take (k + 1) = c.take k ++ [b] := by
  rw [List.take_succ, List.set_take, List.getElem?_set_self hk,
    List.set_eq_of_length_le (by simp)]
  rfl

theorem print_byte_step (env : Env) (fmt : Format) (loc : Locale) (os : OStream)
    (s : print_state) (row : List Nat) (b : Nat) (hb : b < 256)
    (hg : Good fmt.InUpperCase loc os) (hi : Inv fmt s row) :
    ∃ os1 s1, iterator_hex_writer.print_byte env fmt os s b = .returned (os1, s1) ∧
      os1.buf = os.buf ++
        byte_out (env.with_locale loc) fmt s.address_width s.global_offset row.length b ++
        (if row.length + 1 = fmt.RowWidthValue.value then
          flush_out (env.with_locale loc) fmt (row ++ [b]) else []) ∧
      Good fmt.InUpperCase loc os1 ∧
      Inv fmt s1 (if row.length + 1 = fmt.RowWidthValue.value then [] else row ++ [b]) ∧
      s1.global_offset = s.global_offset + 1 ∧
      s1.address_width = s.address_width := by
  obtain ⟨hro, hc⟩ := hi
  unfold iterator_hex_writer.print_byte
  obtain ⟨os1, e1, b1, g1⟩ :=
    stage_char fmt.InUpperCase loc (s.row_offset = 0 ∧ s.global_offset ≠ 0) '\n' os hg
  rw [e1, Exit.bind_returned]
  obtain ⟨os2, e2, b2, g2⟩ := stage_address env fmt.InUpperCase loc
    (fmt.WithOffsets = true ∧ s.row_offset = 0) s.address_width s.global_offset os1 g1
  dsimp only at e2 ⊢
  rw [e2, Exit.bind_returned]
  obtain ⟨os3, e3, b3, g3⟩ := stage_char fmt.InUpperCase loc
    (fmt.WithNibbleSeparation = true ∧ s.row_offset ≠ 0) ' ' os2 g2
  rw [e3, Exit.bind_returned]
  obtain ⟨os4, e4, b4, g4⟩ := put_byte_good fmt.InUpperCase loc os3 b g3 hb
  rw [e4, Exit.bind_returned]
  have hbuf : os4.buf = os.buf ++
      byte_out (env.with_locale loc) fmt s.address_width s.global_offset row.length b := by
    rw [b4, b3, b2, b1, hro]
    simp [byte_out, Env.with_locale]
  clear e1 e2 e3 e4 b1 b2 b3 b4
  rw [hro]
  unfold Inv
  cases hR : fmt.RowWidthValue with
  | SingleRow =>
    rw [hR] at hc
    have hd : s.ascii_cache = ascii_cache_t.dummy := hc
    rw [hd]
    by_cases hend : row.length + 1 = RowWidthT.SingleRow.value
    · simp only [if_pos hend, ascii_cache_t.add_byte, ascii_cache_t.print_cached,
        Exit.bind_returned]
      refine ⟨_, _, rfl, ?_, g4, ⟨rfl, rfl⟩, rfl, rfl⟩
      simp [hbuf, flush_out, hR]
    · simp only [if_neg hend]
      exact ⟨_, _, rfl, by simpa using hbuf, g4, ⟨by simp, rfl⟩, rfl, rfl⟩
  | RowWidth Sz =>
    rw [hR] at hc
    obtain ⟨hlt, c, hc1, hc2, hc3⟩ := hc
    rw [hc1]
    by_cases hend : row.length + 1 = (RowWidthT.RowWidth Sz).value
    · simp only [if_pos hend, ascii_cache_t.add_byte]
      have hSz : row.length + 1 = Sz := hend
      obtain ⟨os5, p0, p2, p3⟩ := print_cached_good env fmt loc os4 (row.length + 1) Sz
        (c.set row.length b) hR (by simp; omega) g4
      rw [take_set_append c row.length b (by omega), hc3] at p2
      rw [p0, Exit.bind_returned]
      refine ⟨_, _, rfl, ?_, p3, ⟨rfl, ?_⟩, rfl, rfl⟩
      · rw [p2, hbuf]
      · exact ⟨by simp; omega, c.set row.length b, rfl, by simp [hc2], by simp⟩
    · simp only [if_neg hend]
      have hne : row.length + 1 ≠ Sz := hend
      refine ⟨_, _, rfl, by simpa using hbuf, g4, ⟨by simp, ?_⟩, rfl, rfl⟩
      refine ⟨by simp; omega, c.set row.length b, ?_, by simp [hc2], ?_⟩
      · simp [ascii_cache_t.add_byte]
      · simp only [List.length_append, List.length_singleton]
        rw [take_set_append c row.length b (by omega), hc3]

/-! ### The byte loop -/

theorem print_bytes_sim (env : Env) (fmt : Format) (loc : Locale) :
    ∀ (bytes : List Nat) (os : OStream) (s : print_state) (row : List Nat),
    (∀ b ∈ bytes, b < 256) → Good fmt.InUpperCase loc os → Inv fmt s row →
    ∃ os1 s1, iterator_hex_writer.print_bytes env fmt os s bytes = .returned (os1, s1) ∧
      os1.buf = os.buf ++
        bytes_out (env.with_locale loc) fmt s.address_width s.global_offset row bytes ∧
      Good fmt.InUpperCase loc os1 ∧
      Inv fmt s1 (row_after fmt row bytes) := by
  intro bytes
  induction bytes with
  | nil =>
    intro os s row _ hg hi
    exact ⟨os, s, rfl, by simp [bytes_out], hg, hi⟩
  | cons b bs ih =>
    intro os s row hb hg hi
    obtain ⟨os1, s1, e1, h1, h2, h3, h4, h5⟩ :=
      print_byte_step env fmt loc os s row b (hb b (by simp)) hg hi
    obtain ⟨os2, s2, e2, k1, k2, k3⟩ := ih os1 s1 _ (fun x hx => hb x (by simp [hx])) h2 h3
    refine ⟨os2, s2, ?_, ?_, k2, k3⟩
    · simp only [iterator_hex_writer.print_bytes, Exit.fold_cons] at e2 ⊢
      rw [e1, Exit.bind_returned]
      exact e2
    · rw [k1, h1, h4, h5]
      simp [bytes_out]

theorem range_fold_eq (env : Env) (fmt : Format) : ∀ (range : List (List Nat))
    (r : OStream × print_state),
    Exit.fold (fun r value => iterator_hex_writer.print_value_bytes env fmt r.1 r.2 value) r range
      = Exit.fold (fun r b => iterator_hex_writer.print_byte env fmt r.1 r.2 b) r
          (range_bytes range) := by
  intro range
  induction range with
  | nil => intro r; rfl
  | cons v vs ih =>
    intro r
    have hb : range_bytes (v :: vs) = (v.map fun b => b % 256) ++ range_bytes vs := by
      simp [range_bytes]
    rw [Exit.fold_cons, hb, Exit.fold_append, Exit.fold_map]
    simp only [iterator_hex_writer.print_value_bytes]
    congr 1
    funext r1
    exact ih r1

theorem range_bytes_lt (range : List (List Nat)) : ∀ b ∈ range_bytes range, b < 256 := by
  intro b hb
  simp only [range_bytes, List.mem_map] at hb
  obtain ⟨a, _, rfl⟩ := hb
  exact Nat.mod_lt _ (by decide)

theorem inv_init (fmt : Format) (n : Nat) (hR : fmt.RowWidthValue.value ≠ 0) :
    Inv fmt (print_state.ctor fmt n) [] := by
  unfold Inv
  refine ⟨rfl, ?_⟩
  cases hRW : fmt.RowWidthValue with
  | SingleRow => simp [print_state.ctor, ascii_cache_t.init, hRW]
  | RowWidth Sz =>
    rw [hRW] at hR
    have hpos : 0 < Sz := Nat.pos_of_ne_zero hR
    exact ⟨hpos, List.replicate Sz 0, by simp [print_state.ctor, ascii_cache_t.init, hRW],
      by simp, by simp⟩

theorem do_print_body_eq (env : Env) (fmt : Format) (range : List (List Nat)) (os : OStream) :
    iterator_hex_writer.do_print.body env fmt range os
      = (iterator_hex_writer.print_bytes env fmt os (print_state.ctor fmt range.length)
          (range_bytes range)).bind fun r =>
        if r.2.row_offset ≠ 0 then
          (r.2.ascii_cache.print_cached env fmt r.1).bind fun c => .returned c.2
        else .returned r.1 := by
  unfold iterator_hex_writer.do_print.body iterator_hex_writer.print_bytes
  dsimp only
  rw [range_fold_eq]

theorem do_print_body_buf (env : Env) (fmt : Format) (loc : Locale) (range : List (List Nat))
    (os : OStream) (hR : fmt.RowWidthValue.value ≠ 0) (hg : Good fmt.InUpperCase loc os) :
    ∃ os1, iterator_hex_writer.do_print.body env fmt range os = .returned os1 ∧
      os1.buf = os.buf ++ body_out (env.with_locale loc) fmt range.length (range_bytes range) ∧
      Good fmt.InUpperCase loc os1 := by
  obtain ⟨os1, s1, e1, h1, h2, h3⟩ := print_bytes_sim env fmt loc (range_bytes range) os
    (print_state.ctor fmt range.length) [] (range_bytes_lt range) hg (inv_init fmt _ hR)
  rw [do_print_body_eq, e1, Exit.bind_returned]
  have hg0 : (print_state.ctor fmt range.length).global_offset = 0 := rfl
  rw [hg0] at h1
  obtain ⟨hro, hc⟩ := h3
  unfold body_out rows_out
  by_cases hrow : row_after fmt [] (range_bytes range) = []
  · have h0 : s1.row_offset = 0 := by rw [hro, hrow]; rfl
    simp only [h0, ne_eq, not_true_eq_false, if_false, hrow]
    exact ⟨os1, rfl, by simpa using h1, h2⟩
  · have h0 : s1.row_offset ≠ 0 := by
      rw [hro]; exact fun h => hrow (List.length_eq_zero.mp h)
    simp only [h0, ne_eq, not_false_eq_true, if_true, hrow]
    cases hRW : fmt.RowWidthValue with
    | SingleRow =>
      rw [hRW] at hc
      have hd : s1.ascii_cache = ascii_cache_t.dummy := hc
      rw [hd]
      exact ⟨os1, rfl, by simp [flush_out, hRW, h1], h2⟩
    | RowWidth Sz =>
      rw [hRW] at hc
      obtain ⟨hlt, c, hc1, hc2, hc3⟩ := hc
      rw [hc1]
      obtain ⟨os2, p0, p2, p3⟩ := print_cached_good env fmt loc os1
        (row_after fmt [] (range_bytes range)).length Sz c hRW (by omega) h2
      rw [hc3] at p2
      rw [p0, Exit.bind_returned]
      exact ⟨os2, rfl, by rw [p2, h1]; simp, p3⟩

/-- The writer on a good stream: `do_print` returns, and the stream is the
one before the call with the text of the dump appended. -/
theorem do_print_good (env : Env) (fmt : Format) (range : List (List Nat)) (os : OStream)
    (hR : fmt.RowWidthValue.value ≠ 0) (hg : Good fmt.InUpperCase os.fmt.loc os)
    (hm : os.fmt.exceptions.bad = false) :
    iterator_hex_writer.do_print env fmt range os
      = .returned (os.append
          (body_out (env.with_locale os.fmt.loc) fmt range.length (range_bytes range))) := by
  obtain ⟨os1, e1, h1, h2⟩ := do_print_body_buf env fmt os.fmt.loc range os hR hg
  have hc : os.fmt.exceptions.meets IoState.badbit = false := by
    simp [IoState.meets, IoState.badbit, hm]
  have hd : os.fmt.exceptions.meets os1.state = false := by
    rw [h2.1]; simp [IoState.meets, IoState.goodbit]
  have hs : os1.state = os.state := h2.1.trans hg.1.symm
  simp only [iterator_hex_writer.do_print, format_backup.scope, format_backup.ctor, hc, e1,
    format_backup.dtor, hd, Bool.false_eq_true, if_false]
  obtain ⟨f1, s1, b1⟩ := os1
  obtain ⟨f, st, bf⟩ := os
  simp only [OStream.append, Exit.returned.injEq, OStream.mk.injEq, true_and] at *
  exact ⟨hs, h1⟩

/-! ### From the byte loop to rows -/

theorem intercalate_cons_eq {α : Type} (sep x : List α) : ∀ xs : List (List α),
    sep.intercalate (x :: xs) = x ++ (xs.map fun y => sep ++ y).flatten := by
  intro xs
  induction xs generalizing x with
  | nil => simp [List.intercalate]
  | cons y ys ih =>
    have h := ih y
    simp only [List.intercalate] at h ⊢
    simp [List.intersperse, h]

theorem bytes_out_append (e : Env) (fmt : Format) (aw : Nat) : ∀ (xs ys : List Nat) (g : Nat)
    (row : List Nat),
    bytes_out e fmt aw g row (xs ++ ys)
      = bytes_out e fmt aw g row xs ++ bytes_out e fmt aw (g + xs.length) (row_after fmt row xs) ys ∧
    row_after fmt row (xs ++ ys) = row_after fmt (row_after fmt row xs) ys := by
  intro xs
  induction xs with
  | nil => intro ys g row; simp [bytes_out, row_after]
  | cons x xs ih =>
    intro ys g row
    obtain ⟨h1, h2⟩ := ih ys (g + 1)
      (if row.length + 1 = fmt.RowWidthValue.value then [] else row ++ [x])
    have e : g + 1 + xs.length = g + (xs.length + 1) := by omega
    rw [e] at h1
    refine ⟨?_, ?_⟩
    · simp only [List.cons_append, bytes_out, row_after, List.length_cons, List.append_assoc,
        List.append_eq, h1]
    · simp only [List.cons_append, row_after]
      exact h2

theorem byte_out_mid (e : Env) (fmt : Format) (aw g r b : Nat) (hr : r ≠ 0) :
    byte_out e fmt aw g r b = nibble_sep fmt ++ hex_field e.loc fmt.InUpperCase 2 b := by
  simp [byte_out, hr, nibble_sep]

theorem byte_out_first (e : Env) (fmt : Format) (aw g b : Nat) :
    byte_out e fmt aw g 0 b = (if g ≠ 0 then ['\n'] else []) ++
      (if fmt.WithOffsets then address_out e fmt.InUpperCase (size_to_int aw).toNat (g % 2 ^ 64)
        else []) ++ hex_field e.loc fmt.InUpperCase 2 b := by
  simp [byte_out]

theorem row_tail (e : Env) (fmt : Format) (aw : Nat) : ∀ (bs row : List Nat) (g : Nat), row ≠ [] →
    row.length + bs.length ≤ fmt.RowWidthValue.value →
    bytes_out e fmt aw g row bs
      = (bs.map fun b => nibble_sep fmt ++ hex_field e.loc fmt.InUpperCase 2 b).flatten ++
        (if row.length + bs.length = fmt.RowWidthValue.value ∧ bs ≠ [] then
          flush_out e fmt (row ++ bs) else []) ∧
    row_after fmt row bs
      = (if row.length + bs.length = fmt.RowWidthValue.value ∧ bs ≠ [] then [] else row ++ bs) := by
  intro bs
  induction bs with
  | nil => intro row g _ _; simp [bytes_out, row_after]
  | cons b bs ih =>
    intro row g hrow hlen
    have hr : row.length ≠ 0 := fun h => hrow (List.length_eq_zero.mp h)
    simp only [List.length_cons] at hlen
    by_cases hend : row.length + 1 = fmt.RowWidthValue.value
    · have hbs : bs = [] := List.length_eq_zero.mp (by omega)
      subst hbs
      simp [bytes_out, row_after, hend, byte_out_mid e fmt aw g _ b hr]
    · obtain ⟨h1, h2⟩ := ih (row ++ [b]) (g + 1) (by simp) (by simp; omega)
      have hl : (row ++ [b]).length + bs.length = row.length + (bs.length + 1) := by
        simp; omega
      rw [hl] at h1 h2
      refine ⟨?_, ?_⟩
      · simp only [bytes_out, if_neg hend, h1, byte_out_mid e fmt aw g _ b hr, List.length_cons]
        by_cases hfin : row.length + (bs.length + 1) = fmt.RowWidthValue.value
        · have hne : bs ≠ [] := by
            intro h; subst h; simp at hfin; exact hend hfin
          simp [hfin, hne]
        · simp [hfin]
      · simp only [row_after, if_neg hend, h2, List.length_cons]
        by_cases hfin : row.length + (bs.length + 1) = fmt.RowWidthValue.value
        · have hne : bs ≠ [] := by
            intro h; subst h; simp at hfin; exact hend hfin
          simp [hfin, hne]
        · simp [hfin]

theorem row_chunk (e : Env) (fmt : Format) (aw g : Nat) (bs : List Nat) (hne : bs ≠ [])
    (hlen : bs.length ≤ fmt.RowWidthValue.value) :
    bytes_out e fmt aw g [] bs
      = (if g ≠ 0 then ['\n'] else []) ++
        (if fmt.WithOffsets then
          address_out e fmt.InUpperCase (size_to_int aw).toNat (g % 2 ^ 64) else []) ++
        hex_fields e fmt bs ++
        (if bs.length = fmt.RowWidthValue.value then flush_out e fmt bs else []) ∧
    row_after fmt [] bs = (if bs.length = fmt.RowWidthValue.value then [] else bs) := by
  cases bs with
  | nil => exact absurd rfl hne
  | cons b bs =>
    simp only [List.length_cons] at hlen
    have hg : hex_fields e fmt (b :: bs)
        = hex_field e.loc fmt.InUpperCase 2 b ++
          (bs.map fun b => nibble_sep fmt ++ hex_field e.loc fmt.InUpperCase 2 b).flatten := by
      simp [hex_fields, intercalate_cons_eq, List.map_map, Function.comp_def]
    by_cases hend : 0 + 1 = fmt.RowWidthValue.value
    · have hbs : bs = [] := List.length_eq_zero.mp (by omega)
      subst hbs
      have h1 : 1 = fmt.RowWidthValue.value := by simpa using hend
      simp [bytes_out, row_after, ← h1, byte_out_first, hg]
    · have h1 : ¬ (1 = fmt.RowWidthValue.value) := by simpa using hend
      obtain ⟨k1, k2⟩ := row_tail e fmt aw bs [b] (g + 1) (by simp) (by simp; omega)
      simp only [List.length_singleton, List.singleton_append] at k1 k2
      have hiff : (1 + bs.length = fmt.RowWidthValue.value ∧ bs ≠ []) ↔
          bs.length + 1 = fmt.RowWidthValue.value := by
        constructor
        · rintro ⟨h, _⟩; omega
        · intro h
          refine ⟨by omega, ?_⟩
          intro hb; subst hb; simp at h; exact h1 h
      refine ⟨?_, ?_⟩
      · simp only [bytes_out, List.length_nil, if_neg hend, List.nil_append, k1,
          byte_out_first, hg, List.length_cons]
        by_cases hfin : bs.length + 1 = fmt.RowWidthValue.value
        · simp [hfin, hiff.mpr hfin]
        · have : ¬ (1 + bs.length = fmt.RowWidthValue.value ∧ bs ≠ []) := fun h => hfin (hiff.mp h)
          simp [hfin, this]
      · simp only [row_after, List.length_nil, if_neg hend, List.nil_append, k2, List.length_cons]
        by_cases hfin : bs.length + 1 = fmt.RowWidthValue.value
        · simp [hfin, hiff.mpr hfin]
        · have : ¬ (1 + bs.length = fmt.RowWidthValue.value ∧ bs ≠ []) := fun h => hfin (hiff.mp h)
          simp [hfin, this]

theorem rows_out_nil (e : Env) (fmt : Format) (aw g : Nat) : rows_out e fmt aw g [] = [] := by
  simp [rows_out, bytes_out, row_after]

theorem rows_out_split (e : Env) (fmt : Format) (aw j : Nat) (bytes : List Nat) (hne : bytes ≠ [])
    (hR : fmt.RowWidthValue.value ≠ 0) :
    rows_out e fmt aw (j * fmt.RowWidthValue.value) bytes
      = (if j ≠ 0 then ['\n'] else []) ++
        line_out e fmt aw j (bytes.take fmt.RowWidthValue.value) ++
        rows_out e fmt aw ((j + 1) * fmt.RowWidthValue.value)
          (bytes.drop fmt.RowWidthValue.value) := by
  have hpos : 0 < bytes.length := List.length_pos.mpr hne
  have hcne : bytes.take fmt.RowWidthValue.value ≠ [] := by
    intro h
    have hl : (bytes.take fmt.RowWidthValue.value).length = 0 := by rw [h]; rfl
    rw [List.length_take] at hl
    omega
  have hclen : (bytes.take fmt.RowWidthValue.value).length ≤ fmt.RowWidthValue.value := by
    simp
  obtain ⟨c1, c2⟩ := row_chunk e fmt aw (j * fmt.RowWidthValue.value)
    (bytes.take fmt.RowWidthValue.value) hcne hclen
  obtain ⟨a1, a2⟩ := bytes_out_append e fmt aw (bytes.take fmt.RowWidthValue.value)
    (bytes.drop fmt.RowWidthValue.value) (j * fmt.RowWidthValue.value) []
  rw [List.take_append_drop] at a1 a2
  have hj : (j * fmt.RowWidthValue.value ≠ 0) ↔ j ≠ 0 := by
    simp [Nat.mul_eq_zero, hR]
  unfold rows_out
  rw [a1, a2, c1, c2]
  by_cases hfull : (bytes.take fmt.RowWidthValue.value).length = fmt.RowWidthValue.value
  · have hg : j * fmt.RowWidthValue.value + (bytes.take fmt.RowWidthValue.value).length
        = (j + 1) * fmt.RowWidthValue.value := by rw [hfull]; ring
    rw [hg]
    simp only [hfull, if_true, line_out, ite_not, hj]
    by_cases hj0 : j = 0 <;> simp [hj0]
  · have hlt : bytes.length < fmt.RowWidthValue.value := by
      simp only [List.length_take] at hfull
      omega
    have hd : bytes.drop fmt.RowWidthValue.value = [] := List.drop_eq_nil_of_le (by omega)
    simp only [hfull, if_false, hd, bytes_out, row_after, List.append_nil, line_out, ite_not, hj]
    by_cases hj0 : j = 0 <;> simp [hj0, hcne]

theorem row_count_zero (fmt : Format) (hR : fmt.RowWidthValue.value ≠ 0) : row_count fmt 0 = 0 := by
  unfold row_count
  apply Nat.div_eq_of_lt
  omega

theorem row_count_drop (fmt : Format) (bytes : List Nat) (hne : bytes ≠ [])
    (hR : fmt.RowWidthValue.value ≠ 0) :
    row_count fmt bytes.length
      = row_count fmt (bytes.drop fmt.RowWidthValue.value).length + 1 := by
  have hpos : 0 < bytes.length := List.length_pos.mpr hne
  have hRpos : 0 < fmt.RowWidthValue.value := Nat.pos_of_ne_zero hR
  unfold row_count
  rw [List.length_drop]
  by_cases hle : bytes.length ≤ fmt.RowWidthValue.value
  · have h0 : bytes.length - fmt.RowWidthValue.value = 0 := by omega
    rw [h0]
    have e1 : (bytes.length + fmt.RowWidthValue.value - 1) / fmt.RowWidthValue.value = 1 := by
      apply Nat.div_eq_of_lt_le <;> omega
    have e2 : (0 + fmt.RowWidthValue.value - 1) / fmt.RowWidthValue.value = 0 := by
      apply Nat.div_eq_of_lt; omega
    rw [e1, e2]
  · have e : bytes.length + fmt.RowWidthValue.value - 1
        = (bytes.length - fmt.RowWidthValue.value + fmt.RowWidthValue.value - 1)
          + fmt.RowWidthValue.value := by omega
    rw [e, Nat.add_div_right _ hRpos]

theorem row_bytes_zero (fmt : Format) (bytes : List Nat) :
    row_bytes fmt bytes 0 = bytes.take fmt.RowWidthValue.value := by
  simp [row_bytes]

theorem row_bytes_succ (fmt : Format) (bytes : List Nat) (k : Nat) :
    row_bytes fmt bytes (k + 1) = row_bytes fmt (bytes.drop fmt.RowWidthValue.value) k := by
  simp only [row_bytes, List.drop_drop]
  congr 2
  ring

theorem rows_out_later (e : Env) (fmt : Format) (aw : Nat) (hR : fmt.RowWidthValue.value ≠ 0) :
    ∀ (n : Nat) (bytes : List Nat) (j : Nat), bytes.length ≤ n → j ≠ 0 →
    rows_out e fmt aw (j * fmt.RowWidthValue.value) bytes
      = ((List.range (row_count fmt bytes.length)).map fun k =>
          '\n' :: line_out e fmt aw (j + k) (row_bytes fmt bytes k)).flatten := by
  intro n
  induction n with
  | zero =>
    intro bytes j hlen _
    have hb : bytes = [] := List.length_eq_zero.mp (by omega)
    subst hb
    simp [rows_out_nil, row_count_zero fmt hR]
  | succ n ih =>
    intro bytes j hlen hj
    by_cases hb : bytes = []
    · subst hb
      simp [rows_out_nil, row_count_zero fmt hR]
    · have hpos : 0 < bytes.length := List.length_pos.mpr hb
      have hRpos : 0 < fmt.RowWidthValue.value := Nat.pos_of_ne_zero hR
      rw [rows_out_split e fmt aw j bytes hb hR, row_count_drop fmt bytes hb hR,
        ih (bytes.drop fmt.RowWidthValue.value) (j + 1) (by rw [List.length_drop]; omega)
          (by omega),
        List.range_succ_eq_map, List.map_cons, List.map_map, List.flatten_cons]
      have hm : (List.range (row_count fmt (bytes.drop fmt.RowWidthValue.value).length)).map
          ((fun k => '\n' :: line_out e fmt aw (j + k) (row_bytes fmt bytes k)) ∘ Nat.succ)
          = (List.range (row_count fmt (bytes.drop fmt.RowWidthValue.value).length)).map
            (fun k => '\n' :: line_out e fmt aw (j + 1 + k)
              (row_bytes fmt (bytes.drop fmt.RowWidthValue.value) k)) := by
        apply List.map_congr_left
        intro k _
        simp only [Function.comp, Nat.succ_eq_add_one, row_bytes_succ]
        congr 2
        omega
      rw [hm]
      simp [hj, row_bytes_zero]

theorem rows_out_lines (e : Env) (fmt : Format) (aw : Nat) (bytes : List Nat)
    (hR : fmt.RowWidthValue.value ≠ 0) :
    rows_out e fmt aw 0 bytes = ['\n'].intercalate (lines_out e fmt aw bytes) := by
  by_cases hb : bytes = []
  · subst hb
    simp [rows_out_nil, lines_out, row_count_zero fmt hR, List.intercalate]
  · have h := rows_out_split e fmt aw 0 bytes hb hR
    rw [Nat.zero_mul] at h
    rw [h, rows_out_later e fmt aw hR _ _ 1 (Nat.le_refl _) (by decide)]
    unfold lines_out
    rw [row_count_drop fmt bytes hb hR, List.range_succ_eq_map, List.map_cons, List.map_map,
      intercalate_cons_eq, List.map_map]
    have hm : (List.range (row_count fmt (bytes.drop fmt.RowWidthValue.value).length)).map
        ((fun y => ['\n'] ++ y) ∘ (fun j => line_out e fmt aw j (row_bytes fmt bytes j)) ∘ Nat.succ)
        = (List.range (row_count fmt (bytes.drop fmt.RowWidthValue.value).length)).map
          (fun k => '\n' :: line_out e fmt aw (1 + k)
            (row_bytes fmt (bytes.drop fmt.RowWidthValue.value) k)) := by
      apply List.map_congr_left
      intro k _
      simp only [Function.comp, Nat.succ_eq_add_one, row_bytes_succ, List.singleton_append]
      congr 2
      omega
    rw [hm]
    simp [row_bytes_zero]

/-! ### The text of a dump -/

theorem good_fresh (upper : Bool) (loc : Locale) : Good upper loc (OStream.fresh loc) := by
  refine ⟨rfl, rfl, by simp [OStream.fresh, Fmt.init], rfl, by simp [OStream.fresh, Fmt.init], ?_⟩
  intro h
  simp [OStream.fresh, Fmt.init] at h

theorem static_asserts_width (fmt : Format) (h : iterator_hex_writer.static_asserts fmt = true) :
    fmt.RowWidthValue.value ≠ 0 := by
  simp only [iterator_hex_writer.static_asserts, Bool.and_eq_true, bne_iff_ne] at h
  exact h.2

/-- The text of a dump on a stream: for a format with a row width other than
0 and a good stream without `badbit` in its exception mask, `do_print`
returns, and the stream is the one before the call with the lines of the dump
appended, joined by newlines. -/
theorem do_print_lines (env : Env) (fmt : Format) (range : List (List Nat)) (os : OStream)
    (hR : fmt.RowWidthValue.value ≠ 0) (hg : Good fmt.InUpperCase os.fmt.loc os)
    (hm : os.fmt.exceptions.bad = false) :
    iterator_hex_writer.do_print env fmt range os
      = .returned (os.append (['\n'].intercalate (lines_out (env.with_locale os.fmt.loc) fmt
          (print_state.ctor fmt range.length).address_width (range_bytes range)))) := by
  rw [do_print_good env fmt range os hR hg hm, body_out, rows_out_lines _ fmt _ _ hR]

/-- The string `hex_str` returns for a format that can be instantiated, in any
environment. -/
theorem hex_str_out (env : Env) (fmt : Format) (range : List (List Nat))
    (hsa : iterator_hex_writer.static_asserts fmt = true)
    (hcf : iterator_hex_writer.cache_fits fmt = true) :
    hex_str env range fmt = some (String.mk (['\n'].intercalate
      (lines_out env fmt (print_state.ctor fmt range.length).address_width
        (range_bytes range)))) := by
  have hb := do_print_lines env fmt range (OStream.fresh env.loc) (static_asserts_width fmt hsa)
    (good_fresh fmt.InUpperCase env.loc) rfl
  simp only [hex_str, iterator_hex_writer.operator_shl, hsa, hcf, and_self, if_true, hb]
  rfl

theorem keeps_pairs_of_off (loc : Locale) (h : loc.use_grouping = false) :
    loc.keeps_pairs = true := by
  unfold Locale.keeps_pairs
  cases hg : loc.grouping with
  | nil => simp
  | cons g rest =>
    simp only [Locale.use_grouping, hg, Locale.group_size_ok, decide_eq_false_iff_not] at h
    have : g ≠ 1 := by omega
    simp [this]

theorem ascii_out_plain (e : Env) (hct : e.c_ctype) (b : Nat) : ascii_out e b = ascii_char b := by
  have h := hct (b % 256) (Nat.mod_lt _ (by decide))
  simp only [ascii_out, ascii_char, h, decide_eq_true_eq]

theorem flush_out_plain (e : Env) (hct : e.c_ctype) (fmt : Format) (row : List Nat) :
    flush_out e fmt row = flush_text fmt row := by
  unfold flush_out flush_text
  have : row.map (ascii_out e) = row.map ascii_char :=
    List.map_congr_left fun b _ => ascii_out_plain e hct b
  rw [this]

theorem hex_fields_plain (e : Env) (hk : e.loc.keeps_pairs = true) (fmt : Format)
    (row : List Nat) (hb : ∀ b ∈ row, b < 256) : hex_fields e fmt row = hex_groups fmt row := by
  unfold hex_fields hex_groups
  congr 1
  exact List.map_congr_left fun b hm => hex_field_byte e.loc _ b hk (hb b hm)

theorem address_out_plain (e : Env) (hg : e.loc.use_grouping = false) (upper : Bool)
    (aw g : Nat) : address_out e upper aw g = address_field upper aw g := by
  simp [address_out, address_field, hex_field_off e.loc upper aw g hg]

theorem line_out_plain (e : Env) (fmt : Format) (aw j : Nat) (row : List Nat) (hct : e.c_ctype)
    (hk : e.loc.keeps_pairs = true) (hg : fmt.WithOffsets = true → e.loc.use_grouping = false)
    (hb : ∀ b ∈ row, b < 256) : line_out e fmt aw j row = line_text fmt aw j row := by
  unfold line_out line_text
  rw [flush_out_plain e hct, hex_fields_plain e hk fmt row hb]
  cases ho : fmt.WithOffsets with
  | false => simp
  | true => simp [address_out_plain e (hg ho)]

theorem mem_row_bytes (fmt : Format) (bytes : List Nat) (j b : Nat)
    (h : b ∈ row_bytes fmt bytes j) : b ∈ bytes :=
  List.mem_of_mem_drop (List.mem_of_mem_take h)

theorem lines_out_plain (e : Env) (fmt : Format) (aw : Nat) (bytes : List Nat) (hct : e.c_ctype)
    (hk : e.loc.keeps_pairs = true) (hg : fmt.WithOffsets = true → e.loc.use_grouping = false)
    (hb : ∀ b ∈ bytes, b < 256) : lines_out e fmt aw bytes = dump_lines fmt aw bytes := by
  unfold lines_out dump_lines
  apply List.map_congr_left
  intro j _
  exact line_out_plain e fmt aw j _ hct hk hg fun b h => hb b (mem_row_bytes fmt bytes j b h)

theorem classic_c_ctype : Env.classic.c_ctype := fun _ _ => rfl

/-- The string `hex_str` returns for a format that can be instantiated, in an
environment with the `isprint` of the "C" locale and a locale that leaves the
numerals of the dump alone. -/
theorem hex_str_lines (env : Env) (fmt : Format) (range : List (List Nat))
    (hsa : iterator_hex_writer.static_asserts fmt = true)
    (hcf : iterator_hex_writer.cache_fits fmt = true) (hct : env.c_ctype)
    (hk : env.loc.keeps_pairs = true)
    (hg : fmt.WithOffsets = true → env.loc.use_grouping = false) :
    hex_str env range fmt = some (String.mk (['\n'].intercalate
      (dump_lines fmt (print_state.ctor fmt range.length).address_width (range_bytes range)))) := by
  rw [hex_str_out env fmt range hsa hcf,
    lines_out_plain env fmt _ _ hct hk hg (range_bytes_lt range)]

/-- The string `hex_str` returns in a program that has changed neither
locale. -/
theorem hex_str_classic (fmt : Format) (range : List (List Nat))
    (hsa : iterator_hex_writer.static_asserts fmt = true)
    (hcf : iterator_hex_writer.cache_fits fmt = true) :
    hex_str Env.classic range fmt = some (String.mk (['\n'].intercalate
      (dump_lines fmt (print_state.ctor fmt range.length).address_width (range_bytes range)))) :=
  hex_str_lines Env.classic fmt range hsa hcf classic_c_ctype rfl fun _ => rfl

/-! ### Shape of the text -/

theorem intercalate_concat_eq {α : Type} (sep y : List α) (xs : List (List α)) :
    ∃ pre, sep.intercalate (xs ++ [y]) = pre ++ y := by
  cases xs with
  | nil => exact ⟨[], by simp [List.intercalate]⟩
  | cons x xs =>
    exact ⟨x ++ (xs.map fun z => sep ++ z).flatten ++ sep, by simp [intercalate_cons_eq]⟩

theorem mem_intercalate {α : Type} (sep : List α) (xs : List (List α)) (c : α)
    (h : c ∈ sep.intercalate xs) : c ∈ sep ∨ ∃ x ∈ xs, c ∈ x := by
  cases xs with
  | nil => simp [List.intercalate] at h
  | cons x xs =>
    rw [intercalate_cons_eq] at h
    simp only [List.mem_append, List.mem_flatten, List.mem_map] at h
    rcases h with h | ⟨l, ⟨y, hy, rfl⟩, hc⟩
    · exact Or.inr ⟨x, by simp, h⟩
    · rcases List.mem_append.mp hc with h1 | h1
      · exact Or.inl h1
      · exact Or.inr ⟨y, by simp [hy], h1⟩

theorem head?_intercalate {α : Type} (sep x : List α) (xs : List (List α)) (hx : x ≠ []) :
    (sep.intercalate (x :: xs)).head? = x.head? := by
  rw [intercalate_cons_eq]
  cases x with
  | nil => exact absurd rfl hx
  | cons a l => simp

theorem getLast?_intercalate {α : Type} (sep y : List α) (xs : List (List α)) (hy : y ≠ []) :
    (sep.intercalate (xs ++ [y])).getLast? = y.getLast? := by
  obtain ⟨pre, hpre⟩ := intercalate_concat_eq sep y xs
  rw [hpre, List.getLast?_append]
  cases h : y.getLast? with
  | none => exact absurd (List.getLast?_eq_none_iff.mp h) hy
  | some a => rfl

theorem digit_char_plain (upper : Bool) : ∀ d, d < 16 →
    digit_char upper d ≠ '\n' ∧ digit_char upper d ≠ ' ' ∧ digit_char upper d ≠ '-' := by
  cases upper <;> decide

theorem hex2_plain (upper : Bool) (b : Nat) (c : Char) (hc : c ∈ hex2 upper b) :
    c ≠ '\n' ∧ c ≠ ' ' ∧ c ≠ '-' := by
  simp only [hex2, List.mem_cons, List.mem_singleton, List.not_mem_nil, or_false] at hc
  rcases hc with rfl | rfl
  · exact digit_char_plain upper _ (Nat.mod_lt _ (by decide))
  · exact digit_char_plain upper _ (Nat.mod_lt _ (by decide))

theorem hex2_ne_nil (upper : Bool) (b : Nat) : hex2 upper b ≠ [] := by simp [hex2]

theorem range_bytes_bytes_range (bytes : List Nat) :
    range_bytes (bytes_range bytes) = bytes.map fun b => b % 256 := by
  induction bytes with
  | nil => rfl
  | cons b bs ih =>
    simp only [range_bytes, bytes_range, List.map_cons, List.flatten_cons, List.singleton_append,
      List.cons.injEq, true_and] at ih ⊢
    exact ih

theorem dump_lines_nil (fmt : Format) (aw : Nat) (hR : fmt.RowWidthValue.value ≠ 0) :
    dump_lines fmt aw [] = [] := by
  simp [dump_lines, row_count_zero fmt hR]

theorem lines_out_nil (e : Env) (fmt : Format) (aw : Nat) (hR : fmt.RowWidthValue.value ≠ 0) :
    lines_out e fmt aw [] = [] := by
  simp [lines_out, row_count_zero fmt hR]

theorem lines_out_one (e : Env) (fmt : Format) (aw : Nat) (bytes : List Nat) (hne : bytes ≠ [])
    (hlen : bytes.length ≤ fmt.RowWidthValue.value) :
    lines_out e fmt aw bytes = [line_out e fmt aw 0 bytes] := by
  have hpos : 0 < bytes.length := List.length_pos.mpr hne
  have hc : row_count fmt bytes.length = 1 := by
    unfold row_count
    apply Nat.div_eq_of_lt_le <;> omega
  have hr : List.range 1 = [0] := rfl
  simp [lines_out, hc, hr, row_bytes, List.take_of_length_le hlen]

theorem single_row_asserts (fmt : Format) (hrow : fmt.RowWidthValue = .SingleRow)
    (hoff : fmt.WithOffsets = false) (hasc : fmt.WithASCII = false) :
    iterator_hex_writer.static_asserts fmt = true ∧ iterator_hex_writer.cache_fits fmt = true := by
  constructor
  · simp [iterator_hex_writer.static_asserts, hrow, hoff, hasc, RowWidthT.value, SIZE_MAX]
  · simp [iterator_hex_writer.cache_fits, iterator_hex_writer.sizeof_print_state, hrow,
      PTRDIFF_MAX]

/-- The string of a single-row dump, under every global locale that leaves
numerals of two digits alone. -/
theorem single_row_text (env : Env) (fmt : Format) (range : List (List Nat))
    (hrow : fmt.RowWidthValue = .SingleRow) (hoff : fmt.WithOffsets = false)
    (hasc : fmt.WithASCII = false) (hlen : (range_bytes range).length ≤ SIZE_MAX)
    (hk : env.loc.keeps_pairs = true) :
    hex_str env range fmt = some (String.mk (hex_groups fmt (range_bytes range))) := by
  obtain ⟨hsa, hcf⟩ := single_row_asserts fmt hrow hoff hasc
  rw [hex_str_out env fmt range hsa hcf]
  have hR := static_asserts_width fmt hsa
  by_cases hne : range_bytes range = []
  · rw [hne, lines_out_nil env fmt _ hR]
    simp [hex_groups, List.intercalate]
  · rw [lines_out_one env fmt _ _ hne (by rw [hrow]; exact hlen)]
    simp [List.intercalate, line_out, hoff, flush_out, hrow,
      hex_fields_plain env hk fmt _ (range_bytes_lt range)]

theorem hex_groups_no_newline (fmt : Format) (row : List Nat) :
    '\n' ∉ hex_groups fmt row := by
  intro h
  rcases mem_intercalate _ _ _ h with h1 | ⟨x, hx, hc⟩
  · unfold nibble_sep at h1
    split at h1
    · simp at h1
    · simp at h1
  · obtain ⟨b, _, rfl⟩ := List.mem_map.mp hx
    exact (hex2_plain _ _ _ hc).1 rfl

theorem hex_groups_head (fmt : Format) (row : List Nat) (c : Char)
    (h : (hex_groups fmt row).head? = some c) : c ≠ ' ' ∧ c ≠ '\n' := by
  cases row with
  | nil => simp [hex_groups, List.intercalate] at h
  | cons b bs =>
    simp only [hex_groups, List.map_cons] at h
    rw [head?_intercalate _ _ _ (hex2_ne_nil _ _)] at h
    have hm : c ∈ hex2 fmt.InUpperCase b := List.mem_of_mem_head? h
    exact ⟨(hex2_plain _ _ _ hm).2.1, (hex2_plain _ _ _ hm).1⟩

theorem hex_groups_last (fmt : Format) (row : List Nat) (c : Char)
    (h : (hex_groups fmt row).getLast? = some c) : c ≠ ' ' ∧ c ≠ '\n' := by
  rcases List.eq_nil_or_concat row with rfl | ⟨init, b, rfl⟩
  · simp [hex_groups, List.intercalate] at h
  · simp only [hex_groups, List.concat_eq_append, List.map_append, List.map_cons,
      List.map_nil] at h
    rw [getLast?_intercalate _ _ _ (hex2_ne_nil _ _)] at h
    have hm : c ∈ hex2 fmt.InUpperCase b := List.mem_of_getLast?_eq_some h
    exact ⟨(hex2_plain _ _ _ hm).2.1, (hex2_plain _ _ _ hm).1⟩


/-! ### The claims -/

theorem finite_asserts (fmt : Format) (R : Nat) (hrow : fmt.RowWidthValue = .RowWidth R)
    (hR : 0 < R) (hmax : R ≤ MAX_ROW_WIDTH) :
    iterator_hex_writer.static_asserts fmt = true ∧ iterator_hex_writer.cache_fits fmt = true := by
  constructor
  · simp [iterator_hex_writer.static_asserts, hrow, RowWidthT.value]
    omega
  · simp only [iterator_hex_writer.cache_fits, iterator_hex_writer.sizeof_print_state, hrow,
      PTRDIFF_MAX, decide_eq_true_eq]
    simp only [MAX_ROW_WIDTH] at hmax
    omega

/-- C1. In single-row mode with offsets and ASCII off, the string returned for
a sequence of bytes is exactly the two-digit hex renderings of the bytes, in
order, joined by one space when `separate_nibbles` is on and by nothing when
it is off; it holds no newline and neither starts nor ends with a space; the
bytes 0x00..0x0F in upper case without separation give
"000102030405060708090A0B0C0D0E0F".  The string is the one of a program that
has not changed its locale, and the same under every global locale whose
digit groups hold two digits or more. -/
theorem C1_single_row_is_flat_concatenation (sep upper : Bool) (bytes : List Nat)
    (hlen : bytes.length ≤ SIZE_MAX) :
    hex_str Env.classic (bytes_range bytes) ⟨false, sep, .SingleRow, false, upper⟩
      = some (String.mk ((if sep = true then [' '] else []).intercalate
          (bytes.map fun b => hex2 upper (b % 256)))) ∧
    (∀ out, hex_str Env.classic (bytes_range bytes) ⟨false, sep, .SingleRow, false, upper⟩
        = some out →
      '\n' ∉ out.data ∧ out.data.head? ≠ some ' ' ∧ out.data.getLast? ≠ some ' ') ∧
    hex_str Env.classic (bytes_range (List.range 16)) ⟨false, false, .SingleRow, false, true⟩
      = some "000102030405060708090A0B0C0D0E0F" ∧
    (∀ env : Env, env.loc.keeps_pairs = true →
      hex_str env (bytes_range bytes) ⟨false, sep, .SingleRow, false, upper⟩
        = hex_str Env.classic (bytes_range bytes) ⟨false, sep, .SingleRow, false, upper⟩) := by
  have hl : (range_bytes (bytes_range bytes)).length ≤ SIZE_MAX := by
    rw [range_bytes_bytes_range, List.length_map]; exact hlen
  have keyg : ∀ env : Env, env.loc.keeps_pairs = true →
      hex_str env (bytes_range bytes) ⟨false, sep, .SingleRow, false, upper⟩
        = some (String.mk (hex_groups ⟨false, sep, .SingleRow, false, upper⟩
            (range_bytes (bytes_range bytes)))) := fun env hk =>
    single_row_text env ⟨false, sep, .SingleRow, false, upper⟩ (bytes_range bytes)
      rfl rfl rfl hl hk
  have key := keyg Env.classic rfl
  refine ⟨?_, ?_, by decide, ?_⟩
  · rw [key, range_bytes_bytes_range]
    simp [hex_groups, nibble_sep, List.map_map, Function.comp_def]
  · intro out hout
    rw [key] at hout
    have ho : out.data
        = hex_groups ⟨false, sep, .SingleRow, false, upper⟩ (range_bytes (bytes_range bytes)) := by
      rw [← Option.some.inj hout]
    rw [ho]
    refine ⟨hex_groups_no_newline _ _, ?_, ?_⟩
    · intro h
      exact (hex_groups_head _ _ _ h).1 rfl
    · intro h
      exact (hex_groups_last _ _ _ h).1 rfl
  · intro env hk
    rw [keyg env hk, key]

/-- C1, at the bytes DE AD with separation, lower case. -/
theorem C1_single_row_is_flat_concatenation_witness :
    [0xDE, 0xAD].length ≤ SIZE_MAX ∧
    hex_str Env.classic (bytes_range [0xDE, 0xAD]) ⟨false, true, .SingleRow, false, false⟩
      = some (String.mk ((if true = true then [' '] else []).intercalate
          ([0xDE, 0xAD].map fun b => hex2 false (b % 256)))) :=
  ⟨by decide, (C1_single_row_is_flat_concatenation true false [0xDE, 0xAD] (by decide)).1⟩

theorem row_bytes_length (fmt : Format) (bytes : List Nat) (j : Nat)
    (hj : j < row_count fmt bytes.length) (hR : fmt.RowWidthValue.value ≠ 0) :
    1 ≤ (row_bytes fmt bytes j).length ∧
    (row_bytes fmt bytes j).length ≤ fmt.RowWidthValue.value := by
  have hpos : 0 < fmt.RowWidthValue.value := Nat.pos_of_ne_zero hR
  have h1 : (j + 1) * fmt.RowWidthValue.value ≤ bytes.length + fmt.RowWidthValue.value - 1 :=
    (Nat.le_div_iff_mul_le hpos).mp hj
  rw [Nat.succ_mul] at h1
  simp only [row_bytes, List.length_take, List.length_drop]
  omega

theorem length_flatten_map_const {α β : Type} (f : α → List β) (m : Nat)
    (hf : ∀ x, (f x).length = m) : ∀ xs : List α, ((xs.map f).flatten).length = m * xs.length := by
  intro xs
  induction xs with
  | nil => simp
  | cons x xs ih =>
    simp only [List.map_cons, List.flatten_cons, List.length_append, ih, hf, List.length_cons]
    ring

theorem hex_groups_length (fmt : Format) (row : List Nat) (hne : row ≠ []) :
    (hex_groups fmt row).length
      = chars_per_byte fmt * row.length - (chars_per_byte fmt - 2) := by
  cases row with
  | nil => exact absurd rfl hne
  | cons b bs =>
    simp only [hex_groups, List.map_cons, intercalate_cons_eq, List.map_map, List.length_append,
      List.length_cons]
    rw [length_flatten_map_const _ (chars_per_byte fmt)]
    · have h2 : (hex2 fmt.InUpperCase b).length = 2 := rfl
      rw [h2]
      unfold chars_per_byte
      split <;> omega
    · intro x
      unfold chars_per_byte nibble_sep
      split <;> simp [hex2]

theorem conv_emod (size : Nat) (signed : Bool) (v : Int) :
    (IntType.int size signed).conv v % (2 : Int) ^ (8 * size) = v % (2 : Int) ^ (8 * size) := by
  cases signed with
  | false => simp [IntType.conv, Int.emod_emod_of_dvd]
  | true =>
    simp only [IntType.conv]
    split
    · simp [Int.emod_emod_of_dvd]
    · rw [Int.sub_emod, Int.emod_self, Int.sub_zero, Int.emod_emod_of_dvd _ (dvd_refl _),
        Int.emod_emod_of_dvd _ (dvd_refl _)]


theorem put_string_ok (os : OStream) (s : List Char) (h : os.state = IoState.goodbit) :
    os.put_string s = .returned (os.emit (pad_text os.fmt s)) := by
  simp [OStream.put_string, OStream.good, h]

theorem body_eq_put (fmt : IntegralFormat) (T : IntType) (value : Int) (os : OStream) :
    ∃ bits signed x,
      integral_hex_writer.body fmt (integral_hex_writer.ctor T value) os
        = ((if fmt.WithPrefix then os.hex.put_string ['0', 'x'] else Exit.returned os.hex).bind
            fun os => (integral_hex_writer.manip fmt T.sizeof os).put_integer bits signed x) ∧
      (x % (2 : Int) ^ bits).toNat = T.bits_value value := by
  cases T with
  | bool =>
    refine ⟨32, false, if value = 0 then 0 else 1, ?_, ?_⟩
    · simp [integral_hex_writer.body, integral_hex_writer.manip, integral_hex_writer.ctor,
        IntType.sizeof, IntType.conv, detail.print_one_byte]
    · simp only [IntType.bits_value]
      split <;> simp
  | int size signed =>
    by_cases hs : size > 1
    · refine ⟨8 * size, signed, (IntType.int size signed).conv value, ?_, ?_⟩
      · simp [integral_hex_writer.body, integral_hex_writer.manip, integral_hex_writer.ctor,
          IntType.sizeof, IntType.is_signed, hs]
      · rw [conv_emod]; rfl
    · refine ⟨32, true, (IntType.int size signed).conv value % 256, ?_, ?_⟩
      · simp [integral_hex_writer.body, integral_hex_writer.manip, integral_hex_writer.ctor,
          IntType.sizeof, hs, detail.print_one_byte]
      · simp only [IntType.bits_value]
        have hsz : size = 0 ∨ size = 1 := by omega
        rcases hsz with rfl | rfl
        · have h0 : (IntType.int 0 signed).conv value = 0 := by
            cases signed <;> simp [IntType.conv, Int.emod_one]
          simp [h0, Int.emod_one]
        · have h1 := conv_emod 1 signed value
          have e : (2 : Int) ^ (8 * 1) = 256 := by norm_num
          rw [e] at h1 ⊢
          rw [h1]
          have hlt : value % 256 < 256 := Int.emod_lt_of_pos _ (by decide)
          have hge : 0 ≤ value % 256 := Int.emod_nonneg _ (by decide)
          have e2 : value % 256 % (2 : Int) ^ 32 = value % 256 := by
            apply Int.emod_eq_of_lt hge
            have : (256 : Int) < (2 : Int) ^ 32 := by norm_num
            omega
          rw [e2]

theorem manip_props (fmt : IntegralFormat) (size : Nat) (loc : Locale) (os : OStream)
    (hg : Good fmt.InUpperCase loc os) (hb : os.fmt.base = .hex) :
    (integral_hex_writer.manip fmt size os).state = IoState.goodbit ∧
    (integral_hex_writer.manip fmt size os).fmt.loc = loc ∧
    (integral_hex_writer.manip fmt size os).fmt.base = .hex ∧
    (integral_hex_writer.manip fmt size os).fmt.adjust ≠ .left ∧
    (integral_hex_writer.manip fmt size os).fmt.showbase = false ∧
    (integral_hex_writer.manip fmt size os).fmt.uppercase = fmt.InUpperCase ∧
    (integral_hex_writer.manip fmt size os).buf = os.buf ∧
    (integral_hex_writer.manip fmt size os).fmt.exceptions = os.fmt.exceptions ∧
    (if fmt.DoFill then
      (integral_hex_writer.manip fmt size os).fmt.width = size_to_int (2 * size) ∧
      (integral_hex_writer.manip fmt size os).fmt.fill = '0'
     else (integral_hex_writer.manip fmt size os).fmt.width ≤ 1) := by
  obtain ⟨h0, hl, h1, h2, h3, h4⟩ := hg
  have hu : fmt.InUpperCase = false → os.fmt.uppercase = false := by
    intro hf
    cases hc : os.fmt.uppercase
    · rfl
    · rw [h4 hc] at hf; exact absurd hf (by simp)
  obtain ⟨p, f, u⟩ := fmt
  cases f <;> cases u <;>
    simp_all [integral_hex_writer.manip, OStream.setw, OStream.setfill, OStream.set_uppercase]

theorem hex_padded_short (upper : Bool) (w n : Nat) (hw : w ≤ 1) :
    hex_padded upper w n = hex_numeral upper n := by
  have := to_digits_length_pos 16 n (by decide)
  have h0 : w - (to_digits 16 n).length = 0 := by omega
  simp [hex_padded, hex_numeral, h0]


/-- The text of `integral_hex_writer` on a good stream. -/
theorem integral_body_good (fmt : IntegralFormat) (T : IntType) (value : Int) (os : OStream)
    (hg : Good fmt.InUpperCase os.fmt.loc os) :
    ∃ os1, integral_hex_writer.body fmt (integral_hex_writer.ctor T value) os = .returned os1 ∧
      os1.buf = os.buf ++ integral_field os.fmt.loc fmt T value ∧
      os1.state = IoState.goodbit := by
  obtain ⟨bits, signed, x, hput, hval⟩ := body_eq_put fmt T value os
  have hgh : Good fmt.InUpperCase os.fmt.loc os.hex := hg
  have hpre : ∃ os1, (if fmt.WithPrefix then os.hex.put_string ['0', 'x']
        else Exit.returned os.hex) = .returned os1 ∧
      os1.buf = os.buf ++ (if fmt.WithPrefix then ['0', 'x'] else []) ∧
      Good fmt.InUpperCase os.fmt.loc os1 ∧ os1.fmt.base = .hex := by
    by_cases hp : fmt.WithPrefix = true
    · simp only [hp, if_true]
      obtain ⟨os1, e1, b1, g1⟩ := put_string_good _ _ os.hex ['0', 'x'] hgh (by simp)
      refine ⟨os1, e1, b1, g1, ?_⟩
      rw [put_string_ok _ _ hgh.1] at e1
      rw [← Exit.returned.inj e1]
      rfl
    · simp only [hp, if_false]
      exact ⟨os.hex, rfl, by simp [OStream.hex], hgh, rfl⟩
  obtain ⟨os1, e1, b1, g1, hb1⟩ := hpre
  rw [hput, e1, Exit.bind_returned]
  obtain ⟨m0, m1, m2, m3, m4, m5, m6, _, m7⟩ := manip_props fmt T.sizeof os.fmt.loc os1 g1 hb1
  have hf : (integral_hex_writer.manip fmt T.sizeof os1).fmt.fill = '0' ∨
      (integral_hex_writer.manip fmt T.sizeof os1).fmt.width ≤ 1 := by
    cases hfl : fmt.DoFill with
    | true => rw [hfl] at m7; exact Or.inl m7.2
    | false => rw [hfl] at m7; exact Or.inr (by simpa using m7)
  rw [put_integer_hex fmt.InUpperCase os.fmt.loc _ bits signed x m0 m1 m2 m3 m4 hf m5]
  refine ⟨_, rfl, ?_, m0⟩
  simp only [OStream.emit, m6, b1, hval, integral_field, List.append_assoc]
  congr 2
  cases hfl : fmt.DoFill with
  | true =>
    rw [hfl] at m7
    simp only [if_true] at m7 ⊢
    rw [m7.1]
  | false =>
    rw [hfl] at m7
    simp only [Bool.false_eq_true, if_false] at m7 ⊢
    rw [hex_field_short _ _ _ _ (by omega : (integral_hex_writer.manip fmt T.sizeof os1).fmt.width.toNat ≤ 1),
      hex_field_short _ _ 0 _ (by omega)]

/-- The writer on a good stream without `badbit` in its exception mask:
`operator<<` returns, and the stream is the one before the call with the text
of the value appended. -/
theorem integral_shl_good (fmt : IntegralFormat) (T : IntType) (value : Int) (os : OStream)
    (hg : Good fmt.InUpperCase os.fmt.loc os) (hm : os.fmt.exceptions.bad = false) :
    integral_hex_writer.operator_shl fmt os (integral_hex_writer.ctor T value)
      = .returned (os.append (integral_field os.fmt.loc fmt T value)) := by
  obtain ⟨os1, e1, h1, h2⟩ := integral_body_good fmt T value os hg
  have hc : os.fmt.exceptions.meets IoState.badbit = false := by
    simp [IoState.meets, IoState.badbit, hm]
  have hd : os.fmt.exceptions.meets os1.state = false := by
    rw [h2]; simp [IoState.meets, IoState.goodbit]
  have hs : os1.state = os.state := h2.trans hg.1.symm
  simp only [integral_hex_writer.operator_shl, format_backup.scope, format_backup.ctor, hc, e1,
    format_backup.dtor, hd, Bool.false_eq_true, if_false]
  obtain ⟨f1, s1, b1⟩ := os1
  obtain ⟨f, st, bf⟩ := os
  simp only [OStream.append, Exit.returned.injEq, OStream.mk.injEq, true_and] at *
  exact ⟨hs, h1⟩

/-- The string `hex_str` returns for an integral value, in any environment. -/
theorem hex_str_integral_out (env : Env) (T : IntType) (value : Int) (fmt : IntegralFormat) :
    hex_str_integral env T value fmt = some (String.mk (integral_field env.loc fmt T value)) := by
  have h := integral_shl_good fmt T value (OStream.fresh env.loc)
    (good_fresh fmt.InUpperCase env.loc) rfl
  simp only [hex_str_integral, h]
  rfl

theorem integral_field_off (loc : Locale) (fmt : IntegralFormat) (T : IntType) (v : Int)
    (h : loc.use_grouping = false) : integral_field loc fmt T v = integral_text fmt T v := by
  unfold integral_field integral_text
  rw [hex_field_off loc _ _ _ h]
  cases fmt.DoFill with
  | true => rfl
  | false => simp [hex_padded_short]

theorem hex_field_small (loc : Locale) (upper : Bool) (w n : Nat) (hk : loc.keeps_pairs = true)
    (hn : n < 256) : hex_field loc upper w n = hex_padded upper w n := by
  have hl : (hex_numeral upper n).length ≤ 2 := by
    simp only [hex_numeral, List.length_map]
    exact to_digits_length_le 16 n 2 (by decide) (by decide) (by omega)
  rw [hex_field, add_grouping_short loc _ hk hl]
  simp [hex_padded, hex_numeral]

theorem integral_field_small (loc : Locale) (fmt : IntegralFormat) (T : IntType) (v : Int)
    (hk : loc.keeps_pairs = true) (hn : T.bits_value v < 256) :
    integral_field loc fmt T v = integral_text fmt T v := by
  unfold integral_field integral_text
  rw [hex_field_small loc _ _ _ hk hn]
  cases fmt.DoFill with
  | true => rfl
  | false => simp [hex_padded_short]

/-- The string `hex_str` returns for an integral value under a global locale
that does not group digits. -/
theorem hex_str_integral_eq (env : Env) (T : IntType) (value : Int) (fmt : IntegralFormat)
    (h : env.loc.use_grouping = false) :
    hex_str_integral env T value fmt = some (String.mk (integral_text fmt T value)) := by
  rw [hex_str_integral_out, integral_field_off _ _ _ _ h]

theorem size_to_int_small (n : Nat) (h : n < 2 ^ 31) : size_to_int n = (n : Int) := by
  unfold size_to_int
  have h1 : n % 2 ^ 32 = n := by omega
  simp only [h1]
  rw [if_pos h]

theorem bits_value_lt (T : IntType) (v : Int) (h1 : 1 ≤ T.sizeof) :
    T.bits_value v < 16 ^ (2 * T.sizeof) := by
  cases T with
  | bool =>
    simp only [IntType.bits_value, IntType.sizeof]
    split <;> norm_num
  | int size signed =>
    simp only [IntType.bits_value, IntType.sizeof]
    have hpos : (0 : Int) < (2 : Int) ^ (8 * size) := by positivity
    have hlt := Int.emod_lt_of_pos v hpos
    have hge := Int.emod_nonneg v (ne_of_gt hpos)
    have e : ((16 ^ (2 * size) : Nat) : Int) = (2 : Int) ^ (8 * size) := by
      push_cast
      rw [show (16 : Int) = 2 ^ 4 by norm_num, ← pow_mul]
      congr 1
      ring
    rw [Int.toNat_lt hge, e]
    exact hlt

theorem hex_numeral_is_hex (upper : Bool) (n : Nat) (c : Char) (hc : c ∈ hex_numeral upper n) :
    is_hex_digit c = true ∧ c ≠ '-' := by
  obtain ⟨d, hd, rfl⟩ := List.mem_map.mp hc
  have hlt := to_digits_lt 16 n d (by decide) hd
  exact ⟨by simp [is_hex_digit, digit_char_value upper d hlt], (digit_char_plain upper d hlt).2.2⟩

theorem hex_padded_is_hex (upper : Bool) (w n : Nat) (c : Char) (hc : c ∈ hex_padded upper w n) :
    is_hex_digit c = true ∧ c ≠ '-' := by
  rcases List.mem_append.mp hc with h | h
  · obtain ⟨_, rfl⟩ := List.mem_replicate.mp h
    exact ⟨by decide, by decide⟩
  · exact hex_numeral_is_hex upper n c h

theorem hex_padded_length (upper : Bool) (w n : Nat) (h : n < 16 ^ w) (hw : 0 < w) :
    (hex_padded upper w n).length = w := by
  have := to_digits_length_le 16 n w (by decide) hw h
  simp only [hex_padded, List.length_append, List.length_replicate, List.length_map]
  omega

theorem foldl_digits_value : ∀ (ds : List Nat) (a : Nat),
    ds.foldl (fun n d => 16 * n + d) a = a * 16 ^ ds.length + Nat.ofDigits 16 ds.reverse := by
  intro ds
  induction ds with
  | nil => intro a; simp
  | cons d ds ih =>
    intro a
    rw [List.foldl_cons, ih, List.reverse_cons, Nat.ofDigits_append, List.length_reverse,
      List.length_cons, Nat.ofDigits_singleton]
    ring

theorem hex_fold_digits (upper : Bool) : ∀ (ds : List Nat), (∀ d ∈ ds, d < 16) → ∀ a : Nat,
    (ds.map (digit_char upper)).foldl
        (fun acc c => acc.bind fun n => (hex_digit_value c).map fun d => 16 * n + d) (some a)
      = some (ds.foldl (fun n d => 16 * n + d) a) := by
  intro ds
  induction ds with
  | nil => intro _ a; rfl
  | cons d ds ih =>
    intro h a
    have hd := digit_char_value upper d (h d (by simp))
    simp only [List.map_cons, List.foldl_cons, Option.some_bind, hd, Option.map_some']
    exact ih (fun x hx => h x (by simp [hx])) _

theorem hex_fold_zeros : ∀ k : Nat,
    (List.replicate k '0').foldl
        (fun acc c => acc.bind fun n => (hex_digit_value c).map fun d => 16 * n + d) (some 0)
      = some 0 := by
  intro k
  induction k with
  | zero => rfl
  | succ k ih =>
    rw [List.replicate_succ, List.foldl_cons]
    exact ih

theorem hex_value_padded (upper : Bool) (k n : Nat) :
    hex_value (List.replicate k '0' ++ hex_numeral upper n) = some n := by
  have hpos := to_digits_length_pos 16 n (by decide)
  have hne : List.replicate k '0' ++ hex_numeral upper n ≠ [] := by
    intro h
    have hl : (List.replicate k '0' ++ hex_numeral upper n).length = 0 := by rw [h]; rfl
    simp only [List.length_append, List.length_replicate, hex_numeral, List.length_map] at hl
    omega
  unfold hex_value
  rw [if_neg hne, List.foldl_append, hex_fold_zeros, hex_numeral,
    hex_fold_digits upper _ (fun d hd => to_digits_lt 16 n d (by decide) hd), foldl_digits_value,
    to_digits_ofDigits 16 n (by decide)]
  simp


/-- C3 as stated fails under a locale that groups digits: after
`std::locale::global(std::locale("en_US.UTF-8"))` the 16-bit value 0xBEEF with
`zero_fill` on, lower case and no prefix renders as "b,eef": five characters,
one of which is no hex digit. -/
theorem C3_counterexample_locale_groups_digits :
    hex_str_integral Env.en_US (.int 2 false) 0xBEEF ⟨false, true, false⟩ = some "b,eef" ∧
    ("b,eef" : String).data.length = 5 ∧
    2 * (IntType.int 2 false).sizeof = 4 ∧
    is_hex_digit ',' = false := by
  decide

/-- C3, amended. Under a global locale that does not group digits, such as the
classic locale, the text `integral_hex_writer` renders with `zero_fill` on
for an integer of byte size `S` (1 to 8, signed, unsigned or `bool`) is the
optional "0x" followed by exactly `2 * S` characters, all of them hex digits:
the unpadded numeral with '0' characters added on its left.  The 32-bit value
0x10 renders under the default configuration as "0x00000010". -/
theorem C3_zero_fill_gives_full_width (env : Env) (T : IntType) (v : Int) (fmt : IntegralFormat)
    (hloc : env.loc.use_grouping = false)
    (hfill : fmt.DoFill = true) (h1 : 1 ≤ T.sizeof) (h8 : T.sizeof ≤ 8) :
    (∃ digits short : List Char,
      hex_str_integral env T v fmt
        = some (String.mk ((if fmt.WithPrefix then ['0', 'x'] else []) ++ digits)) ∧
      digits.length = 2 * T.sizeof ∧
      (∀ c ∈ digits, is_hex_digit c = true) ∧
      hex_str_integral env T v ⟨false, false, fmt.InUpperCase⟩ = some (String.mk short) ∧
      digits = List.replicate (2 * T.sizeof - short.length) '0' ++ short) ∧
    hex_str_integral Env.classic (.int 4 false) 0x10 IntegralFormat.default
      = some "0x00000010" := by
  refine ⟨⟨hex_padded fmt.InUpperCase (2 * T.sizeof) (T.bits_value v),
    hex_numeral fmt.InUpperCase (T.bits_value v), ?_, ?_, ?_, ?_, ?_⟩, by decide⟩
  · rw [hex_str_integral_eq env T v fmt hloc, integral_text, hfill,
      size_to_int_small _ (by omega), Int.toNat_ofNat]
    simp
  · exact hex_padded_length _ _ _ (bits_value_lt T v h1) (by omega)
  · intro c hc
    exact (hex_padded_is_hex _ _ _ c hc).1
  · rw [hex_str_integral_eq env T v _ hloc]
    simp [integral_text]
  · simp [hex_padded, hex_numeral]

/-- C3, at the 16-bit value 0xBEEF without "0x", lower case, in a program that
has not changed its locale. -/
theorem C3_zero_fill_gives_full_width_witness :
    ∃ digits short : List Char,
      hex_str_integral Env.classic (.int 2 false) 0xBEEF ⟨false, true, false⟩
        = some (String.mk ((if (⟨false, true, false⟩ : IntegralFormat).WithPrefix
            then ['0', 'x'] else []) ++ digits)) ∧
      digits.length = 2 * (IntType.int 2 false).sizeof ∧
      (∀ c ∈ digits, is_hex_digit c = true) ∧
      hex_str_integral Env.classic (.int 2 false) 0xBEEF
        ⟨false, false, (⟨false, true, false⟩ : IntegralFormat).InUpperCase⟩
          = some (String.mk short) ∧
      digits = List.replicate (2 * (IntType.int 2 false).sizeof - short.length) '0' ++ short :=
  (C3_zero_fill_gives_full_width Env.classic (.int 2 false) 0xBEEF ⟨false, true, false⟩ rfl rfl
    (by decide) (by decide)).1

/-- C4 as stated fails under a locale that groups digits: after
`std::locale::global(std::locale("en_US.UTF-8"))` the 32-bit signed value -16
renders under the default configuration as "0xFF,FFF,FF0", and the text after
"0x" is no base-16 numeral. -/
theorem C4_counterexample_locale_groups_digits :
    hex_str_integral Env.en_US (.int 4 true) (-16) IntegralFormat.default
      = some "0xFF,FFF,FF0" ∧
    hex_value "FF,FFF,FF0".data = none := by
  decide

/-- C4, amended. Under a global locale that does not group digits, such as the
classic locale, for an integer type of `size` bytes, signed or unsigned, and
every configuration, the text `integral_hex_writer` renders is the optional
"0x" followed by hex digits which, read as a base-16 numeral, denote
`v mod 2 ^ (8 * size)`; no minus sign is written.  The 32-bit signed value
-16 renders under the default configuration as "0xFFFFFFF0". -/
theorem C4_digits_denote_value_mod_width (env : Env) (size : Nat) (signed : Bool) (v : Int)
    (fmt : IntegralFormat) (hloc : env.loc.use_grouping = false) :
    (∃ digits : List Char,
      hex_str_integral env (.int size signed) v fmt
        = some (String.mk ((if fmt.WithPrefix then ['0', 'x'] else []) ++ digits)) ∧
      hex_value digits = some (v % (2 : Int) ^ (8 * size)).toNat ∧
      '-' ∉ (if fmt.WithPrefix then ['0', 'x'] else []) ++ digits) ∧
    hex_str_integral Env.classic (.int 4 true) (-16) IntegralFormat.default
      = some "0xFFFFFFF0" := by
  refine ⟨?_, by decide⟩
  rw [hex_str_integral_eq env _ v fmt hloc, integral_text]
  refine ⟨_, rfl, ?_, ?_⟩
  · cases fmt.DoFill with
    | true => exact hex_value_padded _ _ _
    | false => exact hex_value_padded _ 0 _
  · intro h
    rcases List.mem_append.mp h with h | h
    · split at h
      · simp at h
      · simp at h
    · split at h
      · exact (hex_padded_is_hex _ _ _ _ h).2 rfl
      · exact (hex_numeral_is_hex _ _ _ h).2 rfl

/-- C4, at the 16-bit signed value -1 in lower case without fill, in a program
that has not changed its locale. -/
theorem C4_digits_denote_value_mod_width_witness :
    ∃ digits : List Char,
      hex_str_integral Env.classic (.int 2 true) (-1) ⟨true, false, false⟩
        = some (String.mk ((if (⟨true, false, false⟩ : IntegralFormat).WithPrefix
            then ['0', 'x'] else []) ++ digits)) ∧
      hex_value digits = some ((-1 : Int) % (2 : Int) ^ (8 * 2)).toNat ∧
      '-' ∉ (if (⟨true, false, false⟩ : IntegralFormat).WithPrefix then ['0', 'x'] else [])
        ++ digits :=
  (C4_digits_denote_value_mod_width Env.classic 2 true (-1) ⟨true, false, false⟩ rfl).1


/-! ### How the writers can end -/

theorem bind_no_terminate {α β : Type} (x : Exit α) (f : α → Exit β)
    (hx : ∀ o, x ≠ .terminate o) (hf : ∀ a o, f a ≠ .terminate o) :
    ∀ o, x.bind f ≠ .terminate o := by
  intro o
  cases x with
  | returned a => exact hf a o
  | failure os => simp [Exit.bind]
  | terminate os => exact absurd rfl (hx os)

theorem fold_no_terminate {σ α : Type} (f : σ → α → Exit σ)
    (hf : ∀ s a o, f s a ≠ .terminate o) : ∀ (xs : List α) (s : σ) (o : OStream),
    Exit.fold f s xs ≠ .terminate o := by
  intro xs
  induction xs with
  | nil => intro s o; simp [Exit.fold]
  | cons x xs ih =>
    intro s o
    rw [Exit.fold_cons]
    exact bind_no_terminate _ _ (hf s x) (fun s1 => ih s1) o

theorem returned_no_terminate {α : Type} (a : α) (o : OStream) :
    (Exit.returned a : Exit α) ≠ .terminate o := by
  simp

theorem ite_no_terminate {α : Type} (c : Prop) [Decidable c] (x y : Exit α)
    (hx : ∀ o, x ≠ .terminate o) (hy : ∀ o, y ≠ .terminate o) :
    ∀ o, (if c then x else y) ≠ .terminate o := by
  intro o
  split
  · exact hx o
  · exact hy o

theorem sentry_no_terminate (os o : OStream) : os.sentry_not_good ≠ .terminate o := by
  unfold OStream.sentry_not_good OStream.setstate OStream.clear
  split
  · split <;> simp
  · simp

theorem put_string_no_terminate (os : OStream) (s : List Char) (o : OStream) :
    os.put_string s ≠ .terminate o := by
  unfold OStream.put_string
  split
  · simp
  · exact sentry_no_terminate os o

theorem put_char_no_terminate (os : OStream) (c : Char) (o : OStream) :
    os.put_char c ≠ .terminate o :=
  put_string_no_terminate os [c] o

theorem put_integer_no_terminate (os : OStream) (bits : Nat) (signed : Bool) (v : Int)
    (o : OStream) : os.put_integer bits signed v ≠ .terminate o := by
  unfold OStream.put_integer
  split
  · simp
  · exact sentry_no_terminate os o

theorem print_ascii_no_terminate (env : Env) (os : OStream) (b : Nat) (o : OStream) :
    iterator_hex_writer.print_ascii env os b ≠ .terminate o := by
  unfold iterator_hex_writer.print_ascii
  dsimp only
  split
  · exact put_char_no_terminate _ _ o
  · exact put_char_no_terminate _ _ o

theorem print_cached_no_terminate (env : Env) (fmt : Format) (c : ascii_cache_t) (os o : OStream) :
    c.print_cached env fmt os ≠ .terminate o := by
  cases c with
  | dummy => simp [ascii_cache_t.print_cached]
  | mk offset cache =>
    unfold ascii_cache_t.print_cached
    refine bind_no_terminate _ _ ?_ ?_ o
    · exact ite_no_terminate _ _ _ (fun o => put_char_no_terminate _ _ o)
        (fun o => returned_no_terminate _ o)
    · intro os1
      refine bind_no_terminate _ _ (fun o => put_string_no_terminate _ _ o) ?_
      intro os2
      refine bind_no_terminate _ _ ?_ (fun _ o => returned_no_terminate _ o)
      exact fold_no_terminate _ (fun s a o => print_ascii_no_terminate env s _ o) _ _

theorem print_byte_no_terminate (env : Env) (fmt : Format) (os : OStream) (s : print_state)
    (b : Nat) (o : OStream) : iterator_hex_writer.print_byte env fmt os s b ≠ .terminate o := by
  unfold iterator_hex_writer.print_byte
  refine bind_no_terminate _ _ ?_ ?_ o
  · exact ite_no_terminate _ _ _ (fun o => put_char_no_terminate _ _ o)
      (fun o => returned_no_terminate _ o)
  · intro os1
    refine bind_no_terminate _ _ ?_ ?_
    · refine ite_no_terminate _ _ _ ?_ (fun o => returned_no_terminate _ o)
      refine bind_no_terminate _ _ (fun o => put_string_no_terminate _ _ o) ?_
      intro os2
      refine bind_no_terminate _ _ (fun o => put_integer_no_terminate _ _ _ _ o) ?_
      intro os3 o
      exact put_string_no_terminate _ _ o
    · intro os2
      refine bind_no_terminate _ _ ?_ ?_
      · exact ite_no_terminate _ _ _ (fun o => put_char_no_terminate _ _ o)
          (fun o => returned_no_terminate _ o)
      · intro os3
        refine bind_no_terminate _ _ (fun o => put_integer_no_terminate _ _ _ _ o) ?_
        intro os4 o
        dsimp only
        split
        · exact bind_no_terminate _ _ (fun o => print_cached_no_terminate env fmt _ _ o)
            (fun _ o => returned_no_terminate _ o) o
        · exact returned_no_terminate _ o

theorem do_print_body_no_terminate (env : Env) (fmt : Format) (range : List (List Nat))
    (os o : OStream) : iterator_hex_writer.do_print.body env fmt range os ≠ .terminate o := by
  unfold iterator_hex_writer.do_print.body
  refine bind_no_terminate _ _ ?_ ?_ o
  · refine fold_no_terminate _ ?_ _ _
    intro r value o
    unfold iterator_hex_writer.print_value_bytes
    exact fold_no_terminate _ (fun r b o => print_byte_no_terminate env fmt _ _ _ o) _ _ o
  · intro r o
    split
    · exact bind_no_terminate _ _ (fun o => print_cached_no_terminate env fmt _ _ o)
        (fun _ o => returned_no_terminate _ o) o
    · exact returned_no_terminate _ o

theorem integral_body_no_terminate (fmt : IntegralFormat) (T : IntType)
    (v : integral_hex_writer T) (os o : OStream) :
    integral_hex_writer.body fmt v os ≠ .terminate o := by
  unfold integral_hex_writer.body
  refine bind_no_terminate _ _ ?_ ?_ o
  · exact ite_no_terminate _ _ _ (fun o => put_string_no_terminate _ _ o)
      (fun o => returned_no_terminate _ o)
  · intro os1 o
    dsimp only
    split
    · exact put_integer_no_terminate _ _ _ _ o
    · unfold detail.print_one_byte
      split <;> exact put_integer_no_terminate _ _ _ _ o

/-- A `format_backup` scope leaves the mode of the stream as it found it,
however the scope is left, and keeps what the body wrote. -/
theorem scope_sink (body : OStream → Exit OStream) (os : OStream)
    (hnt : ∀ o, body os ≠ .terminate o) :
    (format_backup.scope body os).sink.fmt = os.fmt ∧
    (os.fmt.exceptions.bad = false →
      (format_backup.scope body os).sink.buf = (body os).sink.buf) := by
  unfold format_backup.scope format_backup.ctor
  by_cases hc : os.fmt.exceptions.meets IoState.badbit = true
  · refine ⟨by simp [hc, Exit.sink], ?_⟩
    intro hm
    simp [IoState.meets, IoState.badbit, hm] at hc
  · simp only [hc, if_false]
    cases hb : body os with
    | returned os1 =>
      by_cases hd : os.fmt.exceptions.meets os1.state = true <;>
        simp [format_backup.dtor, hd, Exit.sink]
    | failure os1 =>
      by_cases hd : os.fmt.exceptions.meets os1.state = true <;>
        simp [format_backup.dtor, hd, Exit.sink]
    | terminate os1 => exact absurd hb (hnt os1)

theorem scope_fmt (body : OStream → Exit OStream) (os : OStream)
    (hnt : ∀ o, body os ≠ .terminate o) :
    (format_backup.scope body os).sink.fmt = os.fmt :=
  (scope_sink body os hnt).1

/-- C5. Whatever the formatting mode of the sink, it is the same after a
render call of `integral_hex_writer` or of `iterator_hex_writer` as before
the call, however the call ends, and the same after a `format_backup` scope
as before it, while the characters written inside the scope stay in the sink;
inside the call the mode does change (base, fill and case of a fresh sink end
up hex, '0' and upper case).  The test of `format_backup.cpp` gives
"11022 33". -/
theorem C5_sink_format_is_restored :
    (∀ (fmt : IntegralFormat) (T : IntType) (v : integral_hex_writer T) (os : OStream),
      (integral_hex_writer.operator_shl fmt os v).sink.fmt = os.fmt) ∧
    (∀ (env : Env) (fmt : Format) (range : List (List Nat)) (os : OStream),
      (iterator_hex_writer.do_print env fmt range os).sink.fmt = os.fmt) ∧
    (∀ (env : Env) (fmt : Format) (range : List (List Nat)) (os : OStream) (x : Exit OStream),
      iterator_hex_writer.operator_shl env fmt os range = some x → x.sink.fmt = os.fmt) ∧
    (∀ (body : OStream → Exit OStream) (os : OStream), (∀ o, body os ≠ .terminate o) →
      (format_backup.scope body os).sink.fmt = os.fmt ∧
      (os.fmt.exceptions.bad = false →
        (format_backup.scope body os).sink.buf = (body os).sink.buf)) ∧
    ((integral_hex_writer.body IntegralFormat.default
        (integral_hex_writer.ctor (.int 4 false) 0x10) (OStream.fresh Locale.classic)).sink.fmt
      = { Fmt.init Locale.classic with base := .hex, fill := '0', uppercase := true }) ∧
    ((iterator_hex_writer.do_print.body Env.classic Format.default [[0x41]]
        (OStream.fresh Locale.classic)).sink.fmt
      = { Fmt.init Locale.classic with base := .hex, uppercase := true }) ∧
    ((format_backup.scope (fun os =>
        (os.put_integer 32 true 11).bind fun os =>
          ((os.setfill '0').setw 3).put_integer 32 true 22)
        (OStream.fresh Locale.classic)).bind fun os =>
      (os.setw 3).put_integer 32 true 33).sink.str = "11022 33" := by
  refine ⟨fun fmt T v os => scope_fmt _ os (integral_body_no_terminate fmt T v os),
    fun env fmt range os => scope_fmt _ os (do_print_body_no_terminate env fmt range os), ?_,
    fun body os hnt => scope_sink body os hnt, by decide, by decide,
    by decide⟩
  intro env fmt range os x h
  unfold iterator_hex_writer.operator_shl at h
  split at h
  · rw [← Option.some.inj h]
    exact scope_fmt _ os (do_print_body_no_terminate env fmt range os)
  · exact absurd h (by simp)

theorem ctor_no_offsets (fmt : Format) (n m : Nat) (hoff : fmt.WithOffsets = false) :
    print_state.ctor fmt n = print_state.ctor fmt m := by
  simp [print_state.ctor, hoff]

/-- C6. With `show_offsets` off, rendering a sequence of elements, each a block
of raw bytes, gives exactly the text of rendering the concatenation of the
elements' bytes as a sequence of single bytes, on every sink and through
`hex_str`; a single record is rendered as the one-element sequence holding it.
The record {0xBE, 0xEF} gives "BEEF", the records {2,20},{3,30} give
"0214031E" and {30,40},{50,60},{70,80},{90,100} give "1E28323C46505A64". -/
theorem C6_elements_render_as_their_bytes (fmt : Format) (range : List (List Nat))
    (hoff : fmt.WithOffsets = false) :
    (∀ (env : Env) (os : OStream), iterator_hex_writer.do_print env fmt range os
      = iterator_hex_writer.do_print env fmt (bytes_range range.flatten) os) ∧
    (∀ env : Env, hex_str env range fmt = hex_str env (bytes_range range.flatten) fmt) ∧
    (∀ (env : Env) (v : List Nat), hex_str_value env v fmt = hex_str env [v] fmt) ∧
    hex_str_value Env.classic [0xBE, 0xEF] ⟨false, false, .SingleRow, false, true⟩
      = some "BEEF" ∧
    hex_str Env.classic [[2, 20], [3, 30]] ⟨false, false, .SingleRow, false, true⟩
      = some "0214031E" ∧
    hex_str Env.classic [[30, 40], [50, 60], [70, 80], [90, 100]]
        ⟨false, false, .SingleRow, false, true⟩
      = some "1E28323C46505A64" := by
  have hb : range_bytes (bytes_range range.flatten) = range_bytes range := by
    rw [range_bytes_bytes_range]; rfl
  have key : ∀ (env : Env) (os : OStream), iterator_hex_writer.do_print env fmt range os
      = iterator_hex_writer.do_print env fmt (bytes_range range.flatten) os := by
    intro env os
    have hbody : iterator_hex_writer.do_print.body env fmt range
        = iterator_hex_writer.do_print.body env fmt (bytes_range range.flatten) := by
      funext os1
      rw [do_print_body_eq, do_print_body_eq, hb,
        ctor_no_offsets fmt (bytes_range range.flatten).length range.length hoff]
    simp only [iterator_hex_writer.do_print, hbody]
  refine ⟨key, ?_, fun _ _ => rfl, by decide, by decide, by decide⟩
  intro env
  simp only [hex_str, iterator_hex_writer.operator_shl, key]

/-- C6, at the two records {2,20},{3,30} with separation and rows of three bytes. -/
theorem C6_elements_render_as_their_bytes_witness :
    hex_str Env.classic [[2, 20], [3, 30]] ⟨false, true, .RowWidth 3, true, true⟩
      = hex_str Env.classic (bytes_range [[2, 20], [3, 30]].flatten)
          ⟨false, true, .RowWidth 3, true, true⟩ :=
  (C6_elements_render_as_their_bytes ⟨false, true, .RowWidth 3, true, true⟩ [[2, 20], [3, 30]]
    rfl).2.1 Env.classic

theorem ascii_char_ne_newline (b : Nat) : ascii_char b ≠ '\n' := by
  have h : ∀ n, n < 127 → 32 ≤ n → Char.ofNat n ≠ '\n' := by decide
  unfold ascii_char
  split
  · next hc => exact h _ (by omega) hc.1
  · decide

theorem address_field_no_newline (upper : Bool) (aw g : Nat) :
    '\n' ∉ address_field upper aw g := by
  intro h
  simp only [address_field, List.mem_append, List.mem_cons, List.mem_singleton,
    List.not_mem_nil, or_false] at h
  rcases h with (h | h) | h
  · rcases h with h | h <;> exact absurd h (by decide)
  · have := (hex_padded_is_hex upper aw g _ h).1
    exact absurd this (by decide)
  · rcases h with h | h <;> exact absurd h (by decide)

theorem flush_text_no_newline (fmt : Format) (row : List Nat) : '\n' ∉ flush_text fmt row := by
  intro h
  unfold flush_text at h
  split at h
  · simp at h
  · simp only [List.mem_append, List.mem_cons, List.mem_singleton, List.not_mem_nil, or_false,
      List.mem_map] at h
    rcases h with (h | h) | ⟨b, _, hb⟩
    · split at h
      · exact absurd (List.mem_replicate.mp h).2 (by decide)
      · simp at h
    · rcases h with h | h <;> exact absurd h (by decide)
    · exact ascii_char_ne_newline b hb

theorem line_text_no_newline (fmt : Format) (aw j : Nat) (row : List Nat) :
    '\n' ∉ line_text fmt aw j row := by
  intro h
  simp only [line_text, List.mem_append] at h
  rcases h with (h | h) | h
  · split at h
    · exact address_field_no_newline _ _ _ h
    · simp at h
  · exact hex_groups_no_newline _ _ h
  · exact flush_text_no_newline _ _ h

theorem hex_groups_ne_nil (fmt : Format) (row : List Nat) (hne : row ≠ []) :
    hex_groups fmt row ≠ [] := by
  cases row with
  | nil => exact absurd rfl hne
  | cons b bs =>
    simp only [hex_groups, List.map_cons, intercalate_cons_eq]
    simp [hex2]

theorem line_text_ne_nil (fmt : Format) (aw j : Nat) (row : List Nat) (hne : row ≠ []) :
    line_text fmt aw j row ≠ [] := by
  have := hex_groups_ne_nil fmt row hne
  simp [line_text, this]

theorem dump_lines_props (fmt : Format) (aw : Nat) (bytes : List Nat)
    (hR : fmt.RowWidthValue.value ≠ 0) :
    (dump_lines fmt aw bytes).length = row_count fmt bytes.length ∧
    ∀ l ∈ dump_lines fmt aw bytes, '\n' ∉ l ∧ l ≠ [] := by
  refine ⟨by simp [dump_lines], ?_⟩
  intro l hl
  simp only [dump_lines, List.mem_map, List.mem_range] at hl
  obtain ⟨j, hj, rfl⟩ := hl
  refine ⟨line_text_no_newline _ _ _ _, line_text_ne_nil _ _ _ _ ?_⟩
  intro h
  have := (row_bytes_length fmt bytes j hj hR).1
  rw [h] at this
  simp at this

theorem count_newline_flatten : ∀ xs : List (List Char), (∀ l ∈ xs, '\n' ∉ l) →
    ((xs.map fun y => ['\n'] ++ y).flatten).count '\n' = xs.length := by
  intro xs
  induction xs with
  | nil => intro _; rfl
  | cons x xs ih =>
    intro h
    have hx : x.count '\n' = 0 := List.count_eq_zero.mpr (h x (by simp))
    simp only [List.map_cons, List.flatten_cons, List.count_append, List.length_cons,
      ih (fun l hl => h l (by simp [hl])), hx]
    simp
    omega

theorem newline_joined_props (lines : List (List Char)) (hne : lines ≠ [])
    (h : ∀ l ∈ lines, '\n' ∉ l ∧ l ≠ []) :
    (['\n'].intercalate lines).count '\n' = lines.length - 1 ∧
    (['\n'].intercalate lines).head? ≠ some '\n' ∧
    (['\n'].intercalate lines).getLast? ≠ some '\n' := by
  refine ⟨?_, ?_, ?_⟩
  · cases lines with
    | nil => exact absurd rfl hne
    | cons x xs =>
      have hx : x.count '\n' = 0 := List.count_eq_zero.mpr (h x (by simp)).1
      rw [intercalate_cons_eq, List.count_append, hx,
        count_newline_flatten xs (fun l hl => (h l (by simp [hl])).1)]
      simp
  · cases lines with
    | nil => exact absurd rfl hne
    | cons x xs =>
      rw [head?_intercalate _ _ _ (h x (by simp)).2]
      intro hc
      exact (h x (by simp)).1 (List.mem_of_mem_head? hc)
  · rcases List.eq_nil_or_concat lines with rfl | ⟨init, y, rfl⟩
    · exact absurd rfl hne
    · rw [List.concat_eq_append] at h ⊢
      rw [getLast?_intercalate _ _ _ (h y (by simp)).2]
      intro hc
      exact (h y (by simp)).1 (List.mem_of_getLast?_eq_some hc)


/-- C7. For `N >= 1` bytes rendered with a finite row width `R`, `show_ascii`
off and `show_offsets` off, the string is a list of `ceil(N / R)` non-empty
lines, none of which holds a newline, joined by single newlines: it holds
exactly `ceil(N / R) - 1` newline characters and neither starts nor ends
with one.  The row width is one for which the writer is a valid type (at most
2^63 - 56); the string is the one of a program that has not changed its
locale, and the same in every program whose C locale is "C" and whose global
locale leaves numerals of two digits alone. -/
theorem C7_newline_count (sep upper : Bool) (R : Nat) (bytes : List Nat) (hR : 0 < R)
    (hmax : R ≤ MAX_ROW_WIDTH) (hne : bytes ≠ []) :
    ∃ (out : String) (lines : List (List Char)),
      hex_str Env.classic (bytes_range bytes) ⟨false, sep, .RowWidth R, false, upper⟩
        = some out ∧
      (∀ env : Env, env.c_ctype → env.loc.keeps_pairs = true →
        hex_str env (bytes_range bytes) ⟨false, sep, .RowWidth R, false, upper⟩ = some out) ∧
      out.data = ['\n'].intercalate lines ∧
      lines.length = (bytes.length + R - 1) / R ∧
      (∀ l ∈ lines, '\n' ∉ l ∧ l ≠ []) ∧
      out.data.count '\n' = (bytes.length + R - 1) / R - 1 ∧
      out.data.head? ≠ some '\n' ∧
      out.data.getLast? ≠ some '\n' := by
  obtain ⟨hsa, hcf⟩ := finite_asserts ⟨false, sep, .RowWidth R, false, upper⟩ R rfl hR hmax
  have hR0 := static_asserts_width _ hsa
  obtain ⟨p1, p2⟩ := dump_lines_props ⟨false, sep, .RowWidth R, false, upper⟩
    (print_state.ctor ⟨false, sep, .RowWidth R, false, upper⟩
      (bytes_range bytes).length).address_width (range_bytes (bytes_range bytes)) hR0
  have hcount : row_count ⟨false, sep, .RowWidth R, false, upper⟩
      (range_bytes (bytes_range bytes)).length = (bytes.length + R - 1) / R := by
    rw [range_bytes_bytes_range, List.length_map]; rfl
  rw [hcount] at p1
  have hlines : dump_lines ⟨false, sep, .RowWidth R, false, upper⟩
      (print_state.ctor ⟨false, sep, .RowWidth R, false, upper⟩
        (bytes_range bytes).length).address_width (range_bytes (bytes_range bytes)) ≠ [] := by
    intro h
    rw [h] at p1
    have hpos : 0 < bytes.length := List.length_pos.mpr hne
    have : 1 ≤ (bytes.length + R - 1) / R := (Nat.le_div_iff_mul_le hR).mpr (by omega)
    simp at p1
    omega
  obtain ⟨q1, q2, q3⟩ := newline_joined_props _ hlines p2
  rw [p1] at q1
  exact ⟨_, _, hex_str_classic _ _ hsa hcf,
    fun env hct hk => hex_str_lines env _ _ hsa hcf hct hk (fun h => by cases h),
    rfl, p1, p2, q1, q2, q3⟩

/-- C7, at five bytes in rows of two. -/
theorem C7_newline_count_witness :
    ∃ (out : String) (lines : List (List Char)),
      hex_str Env.classic (bytes_range [1, 2, 3, 4, 5]) ⟨false, true, .RowWidth 2, false, true⟩
        = some out ∧
      (∀ env : Env, env.c_ctype → env.loc.keeps_pairs = true →
        hex_str env (bytes_range [1, 2, 3, 4, 5]) ⟨false, true, .RowWidth 2, false, true⟩
          = some out) ∧
      out.data = ['\n'].intercalate lines ∧
      lines.length = ([1, 2, 3, 4, 5].length + 2 - 1) / 2 ∧
      (∀ l ∈ lines, '\n' ∉ l ∧ l ≠ []) ∧
      out.data.count '\n' = ([1, 2, 3, 4, 5].length + 2 - 1) / 2 - 1 ∧
      out.data.head? ≠ some '\n' ∧
      out.data.getLast? ≠ some '\n' :=
  C7_newline_count true true 2 [1, 2, 3, 4, 5] (by decide) (by decide) (by decide)

/-- C8 fails on the code: with `show_ascii` off and a finite row width the
gutter and the ASCII column are still written.  The bytes 0x30 0x31 rendered
with `NoOffsets`, `NoNibbleSeparation`, `RowWidth<2>`, `NoASCII`, `UpperCase`
give "3031  01", and three bytes in rows of two give a padded last row; the
text is the same as with `PrintASCII`. -/
theorem C8_no_ascii_still_prints_ascii_column :
    hex_str Env.classic (bytes_range [0x30, 0x31]) ⟨false, false, .RowWidth 2, false, true⟩
      = some "3031  01" ∧
    hex_str Env.classic (bytes_range [0x30, 0x31, 0x32]) ⟨false, true, .RowWidth 2, false, true⟩
      = some "30 31  01\n32     2" ∧
    (∀ (env : Env) (fmt : Format) (range : List (List Nat)) (os : OStream),
      iterator_hex_writer.do_print env { fmt with WithASCII := false } range os
        = iterator_hex_writer.do_print env { fmt with WithASCII := true } range os) := by
  refine ⟨by decide, by decide, ?_⟩
  intro env fmt range os
  rfl

/-- C9 fails on the code for elements of more than one byte: the width is
computed from the number of elements.  For 129 elements of two bytes (258
bytes, last offset 257 = 0x101, three hex digits) `get_address_width` returns
2. -/
theorem C9_address_width_counts_elements :
    (range_bytes (List.replicate 129 [0, 0])).length = 258 ∧
    (print_state.ctor Format.default (List.replicate 129 [0, 0]).length).address_width = 2 ∧
    hex_numeral true (258 - 1) = ['1', '0', '1'] := by
  set_option maxRecDepth 100000 in
  exact ⟨by decide, by decide, by decide⟩

/-- C10 fails on the code for elements of more than one byte: for 129 elements
of two bytes under the default configuration the dump has 17 rows, the first
starts with the six characters "0x00: " and the last with the seven
characters "0x100: ". -/
theorem C10_address_field_resizes :
    ∃ lines : List (List Char),
      hex_str Env.classic (List.replicate 129 [0, 0]) Format.default
        = some (String.mk (['\n'].intercalate lines)) ∧
      lines.length = 17 ∧
      lines.head? = some "0x00: 00 00 00 00 00 00 00 00 00 00 00 00 00 00 00 00  ................".data ∧
      lines.getLast? = some ("0x100: 00 00" ++ String.mk (List.replicate 42 ' ') ++ "  ..").data := by
  refine ⟨_, hex_str_classic Format.default (List.replicate 129 [0, 0]) rfl rfl, ?_, ?_, ?_⟩
  · set_option maxRecDepth 100000 in decide
  · set_option maxRecDepth 100000 in decide
  · set_option maxRecDepth 100000 in decide

/-! ### Address fields -/

theorem address_loop_eq : ∀ (n reminder result : Nat), reminder ≤ n →
    iterator_hex_writer.get_address_width.loop reminder result
      = result + (Nat.digits 16 reminder).length := by
  intro n
  induction n with
  | zero =>
    intro reminder result h
    have h0 : reminder = 0 := by omega
    subst h0
    rw [iterator_hex_writer.get_address_width.loop]
    simp
  | succ n ih =>
    intro reminder result h
    rw [iterator_hex_writer.get_address_width.loop]
    by_cases h0 : reminder = 0
    · subst h0; simp
    · have hpos : 0 < reminder := Nat.pos_of_ne_zero h0
      have hlt : reminder / 16 < reminder := Nat.div_lt_self hpos (by decide)
      rw [dif_neg h0, ih (reminder / 16) (result + 1) (by omega),
        Nat.digits_def' (by decide) hpos, List.length_cons]
      omega

theorem address_loop_le (reminder : Nat) (h : reminder < 2 ^ 64) :
    iterator_hex_writer.get_address_width.loop reminder 0 ≤ 16 := by
  rw [address_loop_eq reminder reminder 0 (Nat.le_refl _), Nat.zero_add]
  rcases Nat.eq_zero_or_pos reminder with rfl | hpos
  · simp
  · rw [Nat.digits_len 16 reminder (by decide) (by omega)]
    have : Nat.log 16 reminder < 16 := Nat.log_lt_of_lt_pow (by omega) (by norm_num; omega)
    omega

theorem get_address_width_bounds (full_size : Nat) :
    2 ≤ iterator_hex_writer.get_address_width full_size ∧
    iterator_hex_writer.get_address_width full_size ≤ 16 := by
  have h := address_loop_le ((full_size + 2 ^ 64 - 1) % 2 ^ 64) (Nat.mod_lt _ (by norm_num))
  unfold iterator_hex_writer.get_address_width
  dsimp only
  split <;> omega

theorem address_width_to_int (fmt : Format) (n : Nat) :
    (size_to_int (print_state.ctor fmt n).address_width).toNat
      = (print_state.ctor fmt n).address_width := by
  have hb := (get_address_width_bounds n).2
  have hle : (print_state.ctor fmt n).address_width ≤ 16 := by
    simp only [print_state.ctor]
    split <;> omega
  rw [size_to_int_small _ (by omega), Int.toNat_ofNat]

theorem row_start_lt (fmt : Format) (n j : Nat) (hj : j < row_count fmt n)
    (hR : fmt.RowWidthValue.value ≠ 0) : j * fmt.RowWidthValue.value < n := by
  have hpos : 0 < fmt.RowWidthValue.value := Nat.pos_of_ne_zero hR
  have h1 : (j + 1) * fmt.RowWidthValue.value ≤ n + fmt.RowWidthValue.value - 1 :=
    (Nat.le_div_iff_mul_le hpos).mp hj
  rw [Nat.succ_mul] at h1
  omega

theorem bytes_range_length (bytes : List Nat) : (bytes_range bytes).length = bytes.length := by
  simp [bytes_range]

theorem hex_numeral_length_eq (upper : Bool) (m : Nat) :
    (hex_numeral upper m).length = max 1 (Nat.digits 16 m).length := by
  simp only [hex_numeral, List.length_map]
  rcases Nat.eq_zero_or_pos m with rfl | hpos
  · simp [to_digits_zero]
  · rw [to_digits_pos 16 m (by decide) hpos, List.length_reverse]
    have : 0 < (Nat.digits 16 m).length :=
      List.length_pos.mpr (Nat.digits_ne_nil_iff_ne_zero.mpr (by omega))
    omega

theorem get_address_width_eq (n : Nat) (h1 : 1 ≤ n) (h2 : n ≤ 2 ^ 64) :
    iterator_hex_writer.get_address_width n = max 2 (Nat.digits 16 (n - 1)).length := by
  have hm : (n + 2 ^ 64 - 1) % 2 ^ 64 = n - 1 := by omega
  unfold iterator_hex_writer.get_address_width
  dsimp only
  rw [hm, address_loop_eq (n - 1) (n - 1) 0 (Nat.le_refl _), Nat.zero_add]
  split <;> omega

theorem digits_length_least (m : Nat) :
    m < 16 ^ (Nat.digits 16 m).length ∧ ∀ e, m < 16 ^ e → (Nat.digits 16 m).length ≤ e := by
  refine ⟨Nat.lt_base_pow_length_digits (by decide), ?_⟩
  intro e he
  rcases Nat.eq_zero_or_pos m with rfl | hpos
  · simp
  · rw [Nat.digits_len 16 m (by decide) (by omega)]
    have := Nat.log_lt_of_lt_pow (by omega) he
    omega

theorem address_width_covers (n : Nat) (h1 : 1 ≤ n) (h2 : n ≤ 2 ^ 64) :
    (hex_numeral true (n - 1)).length ≤ iterator_hex_writer.get_address_width n ∧
    (2 ≤ (hex_numeral true (n - 1)).length →
      iterator_hex_writer.get_address_width n = (hex_numeral true (n - 1)).length) := by
  rw [get_address_width_eq n h1 h2, hex_numeral_length_eq]
  constructor
  · omega
  · intro h; omega

theorem loop_bounded_sound : ∀ (fuel reminder result x : Nat),
    iterator_hex_writer.get_address_width.loop_bounded fuel reminder result = some x →
    iterator_hex_writer.get_address_width.loop reminder result = x := by
  intro fuel
  induction fuel with
  | zero =>
    intro reminder result x h
    rw [iterator_hex_writer.get_address_width.loop]
    simp only [iterator_hex_writer.get_address_width.loop_bounded] at h
    split at h
    · next h0 => rw [dif_pos h0]; exact Option.some.inj h
    · exact absurd h (by simp)
  | succ fuel ih =>
    intro reminder result x h
    rw [iterator_hex_writer.get_address_width.loop]
    simp only [iterator_hex_writer.get_address_width.loop_bounded] at h
    split at h
    · next h0 => rw [dif_pos h0]; exact Option.some.inj h
    · next h0 => rw [dif_neg h0]; exact ih _ _ _ h

theorem loop_bounded_complete : ∀ (fuel reminder result : Nat), reminder < 16 ^ fuel →
    iterator_hex_writer.get_address_width.loop_bounded fuel reminder result
      = some (iterator_hex_writer.get_address_width.loop reminder result) := by
  intro fuel
  induction fuel with
  | zero =>
    intro reminder result h
    have h0 : reminder = 0 := by simpa using h
    subst h0
    rw [iterator_hex_writer.get_address_width.loop]
    simp [iterator_hex_writer.get_address_width.loop_bounded]
  | succ fuel ih =>
    intro reminder result h
    rw [iterator_hex_writer.get_address_width.loop]
    by_cases h0 : reminder = 0
    · simp [iterator_hex_writer.get_address_width.loop_bounded, h0]
    · have hd : reminder / 16 < 16 ^ fuel := by
        apply Nat.div_lt_of_lt_mul
        rw [Nat.pow_succ] at h
        omega
      simp only [iterator_hex_writer.get_address_width.loop_bounded, h0, if_false, dif_neg,
        not_false_eq_true]
      exact ih _ _ hd

theorem get_address_width_of_bounded (n fuel x : Nat)
    (h : iterator_hex_writer.get_address_width.loop_bounded fuel ((n + 2 ^ 64 - 1) % 2 ^ 64) 0
      = some x) :
    iterator_hex_writer.get_address_width n = if x < 2 then 2 else x := by
  unfold iterator_hex_writer.get_address_width
  dsimp only
  rw [loop_bounded_sound fuel _ 0 x h]

theorem ctor_offsets (fmt : Format) (n : Nat) (h : fmt.WithOffsets = true) :
    (print_state.ctor fmt n).address_width = iterator_hex_writer.get_address_width n := by
  simp [print_state.ctor, h]

theorem range_bytes_zeros (n : Nat) :
    range_bytes (bytes_range (List.replicate n 0)) = List.replicate n 0 := by
  rw [range_bytes_bytes_range]
  simp

/-- The last line of a dump of `n` zero bytes. -/
theorem zeros_last_line (e : Env) (fmt : Format) (aw n q : Nat)
    (hq : row_count fmt n = q + 1) :
    (lines_out e fmt aw (List.replicate n 0)).length = q + 1 ∧
    (lines_out e fmt aw (List.replicate n 0)).getLast?
      = some (line_out e fmt aw q (List.replicate
          (min fmt.RowWidthValue.value (n - q * fmt.RowWidthValue.value)) 0)) := by
  unfold lines_out
  rw [List.length_replicate, hq]
  refine ⟨by simp, ?_⟩
  rw [List.range_succ, List.map_append, List.map_singleton]
  simp [row_bytes, List.drop_replicate, List.take_replicate]


theorem line_out_off (e : Env) (fmt : Format) (aw j : Nat) (row : List Nat)
    (hg : e.loc.use_grouping = false) (hb : ∀ b ∈ row, b < 256) :
    line_out e fmt aw j row
      = (if fmt.WithOffsets then
          address_field fmt.InUpperCase (size_to_int aw).toNat
            ((j * fmt.RowWidthValue.value) % 2 ^ 64)
        else []) ++ hex_groups fmt row ++ flush_out e fmt row := by
  unfold line_out
  rw [hex_fields_plain e (keeps_pairs_of_off _ hg) fmt row hb]
  cases ho : fmt.WithOffsets with
  | false => simp
  | true => simp [address_out_plain e hg]

theorem row_lt (bytes : List Nat) (n R : Nat) :
    ∀ b ∈ ((bytes.map fun b => b % 256).drop n).take R, b < 256 := by
  intro b hb
  have h := List.mem_of_mem_drop (List.mem_of_mem_take hb)
  obtain ⟨a, _, rfl⟩ := List.mem_map.mp h
  exact Nat.mod_lt _ (by decide)

/-- C11 as stated fails in a program whose global locale groups digits: after
`std::locale::global(std::locale("en_US.UTF-8"))` the stream of `hex_str`
writes the offset 0x1000 of the last of the 257 rows of 4097 zero bytes as
"1,000", so that row begins with "0x1,000: " and not with "0x1000: ". -/
theorem C11_counterexample_locale_groups_address :
    address_field true (iterator_hex_writer.get_address_width 4097) (256 * 16)
      = "0x1000: ".data ∧
    ∃ lines : List (List Char),
      hex_str Env.en_US (bytes_range (List.replicate 4097 0)) Format.default
        = some (String.mk (['\n'].intercalate lines)) ∧
      lines.length = 257 ∧
      lines.getLast?
        = some ("0x1,000: 00" ++ String.mk (List.replicate 45 ' ') ++ "  .").data := by
  have haw : iterator_hex_writer.get_address_width 4097 = 4 := by
    rw [get_address_width_of_bounded 4097 16 4 (by decide)]; decide
  have hw : (print_state.ctor Format.default
      (bytes_range (List.replicate 4097 0)).length).address_width = 4 := by
    rw [bytes_range_length, List.length_replicate, ctor_offsets Format.default 4097 rfl, haw]
  obtain ⟨h1, h2⟩ := zeros_last_line Env.en_US Format.default 4 4097 256 (by decide)
  refine ⟨by rw [haw]; decide, _, hex_str_out Env.en_US Format.default _ rfl rfl, ?_, ?_⟩
  · rw [range_bytes_zeros, hw]
    exact h1
  · rw [range_bytes_zeros, hw, h2]
    decide

/-- C11, amended. In a program whose global locale does not group digits (the
default "C" locale is one), with `show_offsets` on and a finite row width `R`
of at most 2^63 - 56 (the widths for which the writer is a valid type; 0 is
rejected), row `k` of the dump of a sequence of at most 2^64 bytes is "0x", the
offset `k * R` in hex padded with zeros on the left to the precomputed address
width, ": ", and then exactly the text row `k` has when the same bytes are
rendered with `show_offsets` off: the address field stands at the start of
every row and nowhere else. -/
theorem C11_rows_begin_with_address_field (env : Env) (fmt : Format) (R : Nat)
    (bytes : List Nat) (hloc : env.loc.use_grouping = false) (hoff : fmt.WithOffsets = true)
    (hrow : fmt.RowWidthValue = .RowWidth R) (hR : 0 < R) (hmax : R ≤ MAX_ROW_WIDTH)
    (hlen : bytes.length ≤ 2 ^ 64) :
    hex_str env (bytes_range bytes) fmt
      = some (String.mk (['\n'].intercalate ((List.range ((bytes.length + R - 1) / R)).map
          fun k => ['0', 'x'] ++
            hex_padded fmt.InUpperCase (iterator_hex_writer.get_address_width bytes.length)
              (k * R) ++ [':', ' '] ++
            (hex_groups fmt (((bytes.map fun b => b % 256).drop (k * R)).take R) ++
              flush_out env fmt (((bytes.map fun b => b % 256).drop (k * R)).take R))))) ∧
    hex_str env (bytes_range bytes) { fmt with WithOffsets := false }
      = some (String.mk (['\n'].intercalate ((List.range ((bytes.length + R - 1) / R)).map
          fun k => hex_groups fmt (((bytes.map fun b => b % 256).drop (k * R)).take R) ++
            flush_out env fmt (((bytes.map fun b => b % 256).drop (k * R)).take R)))) ∧
    hex_str Env.classic (bytes_range [0, 1, 2, 3, 4, 5]) ⟨true, true, .RowWidth 4, true, true⟩
      = some "0x00: 00 01 02 03  ....\n0x04: 04 05        .." := by
  have hRv : fmt.RowWidthValue.value = R := by rw [hrow]; rfl
  have hR0 : fmt.RowWidthValue.value ≠ 0 := by rw [hRv]; omega
  obtain ⟨hsa, hcf⟩ := finite_asserts fmt R hrow hR hmax
  obtain ⟨hsa2, hcf2⟩ := finite_asserts { fmt with WithOffsets := false } R hrow hR hmax
  refine ⟨?_, ?_, by set_option maxRecDepth 100000 in decide⟩
  · rw [hex_str_out env fmt _ hsa hcf, range_bytes_bytes_range]
    congr 3
    unfold lines_out
    simp only [row_count, row_bytes, hRv, List.length_map]
    apply List.map_congr_left
    intro k hk
    have hk2 : k < row_count fmt bytes.length := by
      simpa [row_count, hRv] using List.mem_range.mp hk
    have hlt := row_start_lt fmt bytes.length k hk2 hR0
    rw [hRv] at hlt
    have hmod : k * R % 2 ^ 64 = k * R := Nat.mod_eq_of_lt (by omega)
    have haw : (print_state.ctor fmt (bytes_range bytes).length).address_width
        = iterator_hex_writer.get_address_width bytes.length := by
      simp [print_state.ctor, hoff, bytes_range_length]
    rw [line_out_off env fmt _ k _ hloc (row_lt bytes (k * R) R), address_width_to_int, haw,
      hRv, hmod]
    simp [hoff, address_field]
  · rw [hex_str_out env { fmt with WithOffsets := false } _ hsa2 hcf2, range_bytes_bytes_range]
    congr 3
    unfold lines_out
    simp only [row_count, row_bytes, hRv, List.length_map]
    apply List.map_congr_left
    intro k _
    rw [line_out_off env { fmt with WithOffsets := false } _ k _ hloc (row_lt bytes (k * R) R)]
    simp only [Bool.false_eq_true, if_false, List.nil_append]
    rfl

/-- C11 amended, at six bytes in rows of four, lower case, in a program that
has not changed its locale. -/
theorem C11_rows_begin_with_address_field_witness :
    hex_str Env.classic (bytes_range [0, 1, 2, 3, 4, 5]) ⟨true, false, .RowWidth 4, true, false⟩
      = some (String.mk (['\n'].intercalate ((List.range (([0, 1, 2, 3, 4, 5].length + 4 - 1)
          / 4)).map fun k => ['0', 'x'] ++
            hex_padded false (iterator_hex_writer.get_address_width [0, 1, 2, 3, 4, 5].length)
              (k * 4) ++ [':', ' '] ++
            (hex_groups ⟨true, false, .RowWidth 4, true, false⟩
                ((([0, 1, 2, 3, 4, 5].map fun b => b % 256).drop (k * 4)).take 4) ++
              flush_out Env.classic ⟨true, false, .RowWidth 4, true, false⟩
                ((([0, 1, 2, 3, 4, 5].map fun b => b % 256).drop (k * 4)).take 4))))) :=
  (C11_rows_begin_with_address_field Env.classic ⟨true, false, .RowWidth 4, true, false⟩ 4
    [0, 1, 2, 3, 4, 5] rfl rfl rfl (by decide) (by decide) (by decide)).1

theorem range_bytes_ne_nil (range : List (List Nat)) (E : Nat) (hE : 0 < E)
    (hel : ∀ e ∈ range, e.length = E) (hne : range ≠ []) : range_bytes range ≠ [] := by
  cases range with
  | nil => exact absurd rfl hne
  | cons e es =>
    have he : e.length = E := hel e (by simp)
    intro h
    have hl : (range_bytes (e :: es)).length = 0 := by rw [h]; rfl
    simp only [range_bytes, List.flatten_cons, List.map_append, List.length_append,
      List.length_map] at hl
    omega

theorem hex_fields_ne_nil (e : Env) (fmt : Format) (row : List Nat) (hne : row ≠ []) :
    hex_fields e fmt row ≠ [] := by
  cases row with
  | nil => exact absurd rfl hne
  | cons b rest =>
    unfold hex_fields
    rw [List.map_cons, intercalate_cons_eq]
    intro h
    exact hex_field_ne_nil _ _ _ _ (List.append_eq_nil.mp h).1

theorem joined_lines_out_ne_nil (e : Env) (fmt : Format) (aw : Nat) (bytes : List Nat)
    (hne : bytes ≠ []) (hR : fmt.RowWidthValue.value ≠ 0) :
    ['\n'].intercalate (lines_out e fmt aw bytes) ≠ [] := by
  have hc := row_count_drop fmt bytes hne hR
  unfold lines_out
  rw [hc, List.range_succ_eq_map, List.map_cons, intercalate_cons_eq]
  intro h
  have h1 := (List.append_eq_nil.mp h).1
  unfold line_out at h1
  have h2 := (List.append_eq_nil.mp (List.append_eq_nil.mp h1).1).2
  refine hex_fields_ne_nil e fmt _ ?_ h2
  rw [row_bytes_zero]
  intro ht
  rcases List.take_eq_nil_iff.mp ht with h0 | h0
  · exact hR h0
  · exact hne h0

/-- C13. In every environment and under every valid configuration (one that
passes the `static_assert`s and for which the writer is a valid type),
`hex_str` over a sequence of elements of a fixed size of at least one byte
returns a string, and that string is empty exactly when the sequence is
empty. -/
theorem C13_empty_string_iff_empty_sequence (env : Env) (fmt : Format)
    (range : List (List Nat)) (E : Nat)
    (hsa : iterator_hex_writer.static_asserts fmt = true)
    (hcf : iterator_hex_writer.cache_fits fmt = true) (hE : 0 < E)
    (hel : ∀ e ∈ range, e.length = E) :
    hex_str env [] fmt = some "" ∧
    ∃ out : String, hex_str env range fmt = some out ∧ (out = "" ↔ range = []) := by
  have hR := static_asserts_width fmt hsa
  have hempty : hex_str env [] fmt = some "" := by
    rw [hex_str_out env fmt [] hsa hcf]
    have hb : range_bytes [] = [] := rfl
    rw [hb, lines_out_nil env fmt _ hR]
    rfl
  refine ⟨hempty, ?_⟩
  by_cases hne : range = []
  · subst hne
    exact ⟨"", hempty, by simp⟩
  · refine ⟨_, hex_str_out env fmt range hsa hcf, ?_⟩
    have hb := range_bytes_ne_nil range E hE hel hne
    have hj := joined_lines_out_ne_nil env fmt
      (print_state.ctor fmt range.length).address_width _ hb hR
    constructor
    · intro h
      exact absurd (congrArg String.data h) hj
    · intro h
      exact absurd h hne

/-- C13, at two zero bytes under the default configuration, in a program that
has not changed its locale. -/
theorem C13_empty_string_iff_empty_sequence_witness :
    hex_str Env.classic [] Format.default = some "" ∧
    ∃ out : String, hex_str Env.classic [[0], [0]] Format.default = some out ∧
      (out = "" ↔ [[0], [0]] = ([] : List (List Nat))) :=
  C13_empty_string_iff_empty_sequence Env.classic Format.default [[0], [0]] 1 rfl rfl
    (by decide) (by decide)

/-! ### More on integral_hex_writer -/

theorem bits_value_byte (signed : Bool) (v : Int) :
    (IntType.int 1 signed).bits_value v = (v % 256).toNat ∧
    (IntType.int 1 signed).bits_value v < 256 := by
  have e : (2 : Int) ^ (8 * 1) = 256 := by norm_num
  have hlt : v % 256 < 256 := Int.emod_lt_of_pos _ (by decide)
  have hge : 0 ≤ v % 256 := Int.emod_nonneg _ (by decide)
  simp only [IntType.bits_value, e]
  exact ⟨trivial, by omega⟩

theorem hex_padded_two (upper : Bool) (n : Nat) (h : n < 256) :
    hex_padded upper 2 n = hex2 upper n := byte_digits upper n h

theorem hex_numeral_length (upper : Bool) (n k : Nat) (hk : 0 < k) (h : n < 16 ^ k) :
    1 ≤ (hex_numeral upper n).length ∧ (hex_numeral upper n).length ≤ k := by
  simp only [hex_numeral, List.length_map]
  exact ⟨to_digits_length_pos 16 n (by decide), to_digits_length_le 16 n k (by decide) hk h⟩

/-- C14 as stated fails: with `zero_fill` off the 8-bit value 5 is rendered
with the single digit "5" (here after "0x"), not with two hex digits. -/
theorem C14_counterexample_one_digit_without_fill :
    hex_str_integral Env.classic (.int 1 false) 5 ⟨true, false, true⟩ = some "0x5" ∧
    ¬ ∃ digits : List Char, digits.length = 2 ∧
      hex_str_integral Env.classic (.int 1 false) 5 ⟨true, false, true⟩
        = some (String.mk (['0', 'x'] ++ digits)) := by
  have h : hex_str_integral Env.classic (.int 1 false) 5 ⟨true, false, true⟩ = some "0x5" := by
    decide
  refine ⟨h, ?_⟩
  rintro ⟨digits, hl, hd⟩
  rw [h] at hd
  have hd2 := congrArg String.data (Option.some.inj hd)
  have hl2 : ("0x5" : String).data.length = (['0', 'x'] ++ digits).length := by rw [hd2]
  simp only [List.length_append, hl] at hl2
  exact absurd hl2 (by decide)

/-- C14, amended. For every 8-bit value, signed or unsigned, and every
configuration, the text is the optional "0x" followed by hex digits that
denote the value mod 256, never the character itself: exactly the two-digit
rendering when `zero_fill` is on, and the shortest numeral, of one or two
digits, when it is off; the text is the same under every global locale that
leaves numerals of two digits alone.  The letter 'a' (0x61) gives the digits
"61" in every configuration and "0x61" under the default one. -/
theorem C14_byte_values_are_shown_as_hex_digits (signed : Bool) (v : Int)
    (fmt : IntegralFormat) :
    hex_str_integral Env.classic (.int 1 signed) v fmt
      = some (String.mk ((if fmt.WithPrefix then ['0', 'x'] else []) ++
        (if fmt.DoFill then hex2 fmt.InUpperCase (v % 256).toNat
          else hex_numeral fmt.InUpperCase (v % 256).toNat))) ∧
    (∀ env : Env, env.loc.keeps_pairs = true →
      hex_str_integral env (.int 1 signed) v fmt
        = hex_str_integral Env.classic (.int 1 signed) v fmt) ∧
    hex_value (if fmt.DoFill then hex2 fmt.InUpperCase (v % 256).toNat
      else hex_numeral fmt.InUpperCase (v % 256).toNat) = some (v % 256).toNat ∧
    1 ≤ (hex_numeral fmt.InUpperCase (v % 256).toNat).length ∧
    (hex_numeral fmt.InUpperCase (v % 256).toNat).length ≤ 2 ∧
    (∀ (s p f u : Bool), hex_str_integral Env.classic (.int 1 s) 0x61 ⟨p, f, u⟩
      = some (if p then "0x61" else "61")) ∧
    hex_str_integral Env.classic (.int 1 true) 0x61 IntegralFormat.default = some "0x61" ∧
    hex_str_integral Env.classic (.int 1 false) 0x61 IntegralFormat.default = some "0x61" := by
  obtain ⟨hb1, hb2⟩ := bits_value_byte signed v
  have hpad : hex_padded fmt.InUpperCase 2 (v % 256).toNat = hex2 fmt.InUpperCase (v % 256).toNat :=
    hex_padded_two _ _ (by rw [← hb1]; exact hb2)
  refine ⟨?_, ?_, ?_, ?_, ?_, by decide, by decide, by decide⟩
  · rw [hex_str_integral_eq Env.classic _ _ _ rfl, integral_text, hb1]
    have hw : (size_to_int (2 * (IntType.int 1 signed).sizeof)).toNat = 2 := by
      simp [IntType.sizeof, size_to_int]
    rw [hw, hpad]
  · intro env hk
    rw [hex_str_integral_out, hex_str_integral_out, integral_field_small _ _ _ _ hk hb2,
      integral_field_small Env.classic.loc _ _ _ rfl hb2]
  · cases fmt.DoFill with
    | true =>
      simp only [if_true]
      rw [← hpad]
      exact hex_value_padded _ _ _
    | false => exact hex_value_padded _ 0 _
  · exact (hex_numeral_length _ _ 2 (by decide) (by rw [← hb1]; norm_num; exact hb2)).1
  · exact (hex_numeral_length _ _ 2 (by decide) (by rw [← hb1]; norm_num; exact hb2)).2

/-- C15. Under the default configuration (prefix, fill, upper case)
`integral_hex_writer` renders `true` as exactly "0x01" and `false` as exactly
"0x00"; a `bool` made from any non-zero value is `true`, and the text is the
same under every global locale that leaves numerals of two digits alone. -/
theorem C15_bool_renders_as_one_byte :
    hex_str_integral Env.classic .bool 1 IntegralFormat.default = some "0x01" ∧
    hex_str_integral Env.classic .bool 0 IntegralFormat.default = some "0x00" ∧
    (∀ v : Int, hex_str_integral Env.classic .bool v IntegralFormat.default
      = some (if v = 0 then "0x00" else "0x01")) ∧
    (∀ (env : Env) (v : Int), env.loc.keeps_pairs = true →
      hex_str_integral env .bool v IntegralFormat.default
        = some (if v = 0 then "0x00" else "0x01")) := by
  have key : ∀ (env : Env) (v : Int), env.loc.keeps_pairs = true →
      hex_str_integral env .bool v IntegralFormat.default
        = some (if v = 0 then "0x00" else "0x01") := by
    intro env v hk
    have hlt : IntType.bool.bits_value v < 256 := by
      simp only [IntType.bits_value]
      split <;> decide
    rw [hex_str_integral_out, integral_field_small _ _ _ _ hk hlt]
    by_cases hv : v = 0
    · subst hv
      rfl
    · have hb : IntType.bool.bits_value v = 1 := by simp [IntType.bits_value, hv]
      rw [integral_text, hb, if_neg hv]
      rfl
  exact ⟨by decide, by decide, fun v => key Env.classic v rfl, key⟩

theorem digit_char_eq_zero (upper : Bool) : ∀ d, d < 16 → digit_char upper d = '0' → d = 0 := by
  cases upper <;> decide

theorem hex_numeral_zero (upper : Bool) : hex_numeral upper 0 = ['0'] := by
  simp [hex_numeral, to_digits_zero, digit_char_zero]

theorem hex_numeral_head (upper : Bool) (n : Nat) (hn : n ≠ 0) :
    (hex_numeral upper n).head? ≠ some '0' := by
  intro h
  simp only [hex_numeral, List.head?_map, Option.map_eq_some'] at h
  obtain ⟨d, hd, hc⟩ := h
  have hlt := to_digits_lt 16 n d (by decide) (List.mem_of_mem_head? hd)
  have h0 := digit_char_eq_zero upper d hlt hc
  subst h0
  exact to_digits_head_ne_zero 16 n (by decide) (Nat.pos_of_ne_zero hn) hd

/-- C16 as stated fails under a locale that groups digits: after
`std::locale::global(std::locale("en_US.UTF-8"))` the 32-bit value 0xFA000
with `zero_fill` off, upper case and no prefix renders as "FA,000", which is
not the numeral "FA000". -/
theorem C16_counterexample_locale_groups_digits :
    hex_str_integral Env.en_US (.int 4 false) 0xFA000 ⟨false, false, true⟩ = some "FA,000" ∧
    hex_numeral true 0xFA000 = "FA000".data ∧
    hex_value "FA,000".data = none := by
  decide

/-- C16, amended. Under a global locale that does not group digits, such as the
classic locale, with `zero_fill` off the text is the optional "0x" followed by
the shortest hex numeral of `v mod 2 ^ (8 * size)`: digits that denote that
value, without a leading zero when the value is not 0, and the single digit
"0" when it is.  The 32-bit value 0xFA without prefix renders as "fa" in lower
case and "FA" in upper case. -/
theorem C16_no_fill_gives_shortest_numeral (env : Env) (size : Nat) (signed : Bool) (v : Int)
    (fmt : IntegralFormat) (hloc : env.loc.use_grouping = false) (hfill : fmt.DoFill = false) :
    hex_str_integral env (.int size signed) v fmt
      = some (String.mk ((if fmt.WithPrefix then ['0', 'x'] else []) ++
        hex_numeral fmt.InUpperCase (v % (2 : Int) ^ (8 * size)).toNat)) ∧
    hex_value (hex_numeral fmt.InUpperCase (v % (2 : Int) ^ (8 * size)).toNat)
      = some (v % (2 : Int) ^ (8 * size)).toNat ∧
    ((v % (2 : Int) ^ (8 * size)).toNat ≠ 0 →
      (hex_numeral fmt.InUpperCase (v % (2 : Int) ^ (8 * size)).toNat).head? ≠ some '0') ∧
    ((v % (2 : Int) ^ (8 * size)).toNat = 0 →
      hex_numeral fmt.InUpperCase (v % (2 : Int) ^ (8 * size)).toNat = ['0']) ∧
    hex_str_integral Env.classic (.int 4 false) 0xFA ⟨false, false, false⟩ = some "fa" ∧
    hex_str_integral Env.classic (.int 4 false) 0xFA ⟨false, false, true⟩ = some "FA" ∧
    hex_str_integral Env.classic (.int 4 false) 0 ⟨false, false, true⟩ = some "0" := by
  refine ⟨?_, hex_value_padded _ 0 _, hex_numeral_head _ _, ?_, by decide, by decide, by decide⟩
  · rw [hex_str_integral_eq env _ _ _ hloc, integral_text, hfill]
    rfl
  · intro h0
    rw [h0, hex_numeral_zero]

/-- C16 amended, at the 16-bit signed value -1 with prefix, upper case, in a
program that has not changed its locale. -/
theorem C16_no_fill_gives_shortest_numeral_witness :
    hex_str_integral Env.classic (.int 2 true) (-1) ⟨true, false, true⟩
      = some (String.mk ((if (⟨true, false, true⟩ : IntegralFormat).WithPrefix
          then ['0', 'x'] else []) ++
        hex_numeral (⟨true, false, true⟩ : IntegralFormat).InUpperCase
          ((-1 : Int) % (2 : Int) ^ (8 * 2)).toNat)) :=
  (C16_no_fill_gives_shortest_numeral Env.classic 2 true (-1) ⟨true, false, true⟩ rfl rfl).1

/-- C17. For every integral value, every choice of `zero_fill` and case and
every global locale, `hex_str` returns a string with prefix off, and with
prefix on it returns the two characters "0x" (lower-case x also in upper-case
mode) followed by that string, so the prefix takes no part in the zero
padding. -/
theorem C17_prefix_is_prepended (env : Env) (T : IntType) (v : Int) (fill upper : Bool) :
    (∃ s : String, hex_str_integral env T v ⟨false, fill, upper⟩ = some s ∧
      hex_str_integral env T v ⟨true, fill, upper⟩ = some ("0x" ++ s) ∧
      ("0x" ++ s).data = ['0', 'x'] ++ s.data) ∧
    hex_str_integral Env.classic (.int 4 false) 0xFA ⟨false, true, false⟩ = some "000000fa" ∧
    hex_str_integral Env.classic (.int 4 false) 0xFA ⟨false, true, true⟩ = some "000000FA" ∧
    hex_str_integral Env.classic (.int 4 false) 0xFA ⟨true, true, false⟩ = some "0x000000fa" ∧
    hex_str_integral Env.classic (.int 4 false) 0xFA ⟨true, false, true⟩ = some "0xFA" ∧
    hex_str_integral Env.classic (.int 4 false) 0xFA ⟨true, true, true⟩ = some "0x000000FA" := by
  refine ⟨⟨_, hex_str_integral_out env T v ⟨false, fill, upper⟩, ?_, ?_⟩,
    by decide, by decide, by decide, by decide, by decide⟩
  · rw [hex_str_integral_out]
    congr 1
  · simp [String.data_append]

theorem to_upper_digit (d : Nat) (hd : d < 16) :
    digit_char true d = to_upper_hex (digit_char false d) ∧
    is_upper_hex (digit_char true d) = true ∧ is_lower_hex (digit_char false d) = true := by
  revert d
  decide

theorem hex_numeral_upper (n : Nat) :
    hex_numeral true n = (hex_numeral false n).map to_upper_hex := by
  simp only [hex_numeral, List.map_map]
  apply List.map_congr_left
  intro d hd
  exact (to_upper_digit d (to_digits_lt 16 n d (by decide) hd)).1

theorem hex_padded_upper (w n : Nat) :
    hex_padded true w n = (hex_padded false w n).map to_upper_hex := by
  have h0 : to_upper_hex '0' = '0' := by decide
  simp only [hex_padded, List.map_append, List.map_replicate, h0]
  congr 1
  exact hex_numeral_upper n

theorem hex_padded_case (w n : Nat) (c : Char) :
    (c ∈ hex_padded true w n → is_upper_hex c = true) ∧
    (c ∈ hex_padded false w n → is_lower_hex c = true) := by
  constructor
  · intro hc
    rcases List.mem_append.mp hc with h | h
    · obtain ⟨_, rfl⟩ := List.mem_replicate.mp h
      decide
    · obtain ⟨d, hd, rfl⟩ := List.mem_map.mp h
      exact (to_upper_digit d (to_digits_lt 16 n d (by decide) hd)).2.1
  · intro hc
    rcases List.mem_append.mp hc with h | h
    · obtain ⟨_, rfl⟩ := List.mem_replicate.mp h
      decide
    · obtain ⟨d, hd, rfl⟩ := List.mem_map.mp h
      exact (to_upper_digit d (to_digits_lt 16 n d (by decide) hd)).2.2

theorem integral_text_no_prefix (T : IntType) (v : Int) (fill upper : Bool) :
    ∃ w, integral_text ⟨false, fill, upper⟩ T v = hex_padded upper w (T.bits_value v) := by
  cases fill with
  | true => exact ⟨(size_to_int (2 * T.sizeof)).toNat, by simp [integral_text]⟩
  | false =>
    refine ⟨0, ?_⟩
    simp [integral_text, hex_padded_short]

/-- C18 as stated fails under a locale that groups digits: after
`std::locale::global(std::locale("en_US.UTF-8"))` the 32-bit value 0xFA000
without prefix and fill renders in upper case as "FA,000", which holds a
comma, a character that is neither in 0-9 nor in A-F. -/
theorem C18_counterexample_locale_groups_digits :
    hex_str_integral Env.en_US (.int 4 false) 0xFA000 ⟨false, false, true⟩ = some "FA,000" ∧
    ',' ∈ "FA,000".data ∧
    is_upper_hex ',' = false := by
  decide

/-- C18, amended. Under a global locale that does not group digits, such as the
classic locale, for every integral value and every choice of `zero_fill`, with
prefix off the upper-case text is the lower-case text with each of a-f
replaced by A-F: the upper-case text holds only 0-9 and A-F, the lower-case
text only 0-9 and a-f, and both have the same length. -/
theorem C18_case_only_changes_letters (env : Env) (T : IntType) (v : Int) (fill : Bool)
    (hloc : env.loc.use_grouping = false) :
    (∃ up low : String,
      hex_str_integral env T v ⟨false, fill, true⟩ = some up ∧
      hex_str_integral env T v ⟨false, fill, false⟩ = some low ∧
      up.data = low.data.map to_upper_hex ∧
      (∀ c ∈ up.data, is_upper_hex c = true) ∧
      (∀ c ∈ low.data, is_lower_hex c = true) ∧
      up.data.length = low.data.length) ∧
    hex_str_integral Env.classic (.int 4 false) 0xFA ⟨false, false, false⟩ = some "fa" ∧
    hex_str_integral Env.classic (.int 4 false) 0xFA ⟨false, false, true⟩ = some "FA" ∧
    hex_str_integral Env.classic (.int 4 false) 0xFA ⟨false, true, false⟩ = some "000000fa" ∧
    hex_str_integral Env.classic (.int 4 false) 0xFA ⟨false, true, true⟩ = some "000000FA" := by
  have hu : integral_text ⟨false, fill, true⟩ T v
      = (integral_text ⟨false, fill, false⟩ T v).map to_upper_hex := by
    cases fill with
    | true => simp [integral_text, hex_padded_upper]
    | false => simp [integral_text, hex_numeral_upper]
  refine ⟨⟨_, _, hex_str_integral_eq env T v _ hloc, hex_str_integral_eq env T v _ hloc, hu,
    ?_, ?_, ?_⟩, by decide, by decide, by decide, by decide⟩
  · intro c hc
    obtain ⟨w, hw⟩ := integral_text_no_prefix T v fill true
    have hc2 : c ∈ integral_text ⟨false, fill, true⟩ T v := hc
    rw [hw] at hc2
    exact (hex_padded_case w _ c).1 hc2
  · intro c hc
    obtain ⟨w, hw⟩ := integral_text_no_prefix T v fill false
    have hc2 : c ∈ integral_text ⟨false, fill, false⟩ T v := hc
    rw [hw] at hc2
    exact (hex_padded_case w _ c).2 hc2
  · show (integral_text ⟨false, fill, true⟩ T v).length = _
    rw [hu, List.length_map]

/-- C18 amended, at the 32-bit value 0xFA without fill, in a program that has
not changed its locale. -/
theorem C18_case_only_changes_letters_witness :
    hex_str_integral Env.classic (.int 4 false) 0xFA ⟨false, false, true⟩ = some "FA" :=
  (C18_case_only_changes_letters Env.classic (.int 4 false) 0xFA false rfl).2.2.1

/-! ### Sinks and strings, accepted and rejected configurations -/

theorem bind_returns {α β : Type} (x : Exit α) (f : α → Exit β) (P : α → Prop) (Q : β → Prop)
    (hx : ∃ a, x = .returned a ∧ P a) (hf : ∀ a, P a → ∃ b, f a = .returned b ∧ Q b) :
    ∃ b, x.bind f = .returned b ∧ Q b := by
  obtain ⟨a, rfl, ha⟩ := hx
  exact hf a ha

theorem fold_returns {σ α : Type} (f : σ → α → Exit σ) (P : σ → Prop)
    (hf : ∀ s a, P s → ∃ s1, f s a = .returned s1 ∧ P s1) :
    ∀ (xs : List α) (s : σ), P s → ∃ s1, Exit.fold f s xs = .returned s1 ∧ P s1 := by
  intro xs
  induction xs with
  | nil => intro s hs; exact ⟨s, rfl, hs⟩
  | cons x xs ih =>
    intro s hs
    rw [Exit.fold_cons]
    exact bind_returns _ _ P P (hf s x hs) ih

theorem ite_returns {α : Type} (c : Prop) [Decidable c] (x y : Exit α) (Q : α → Prop)
    (hx : ∃ a, x = .returned a ∧ Q a) (hy : ∃ a, y = .returned a ∧ Q a) :
    ∃ a, (if c then x else y) = .returned a ∧ Q a := by
  split
  · exact hx
  · exact hy

theorem put_string_returns (os : OStream) (s : List Char) (h : os.state = IoState.goodbit) :
    ∃ os1, os.put_string s = .returned os1 ∧ os1.state = IoState.goodbit :=
  ⟨_, put_string_ok os s h, h⟩

theorem put_char_returns (os : OStream) (c : Char) (h : os.state = IoState.goodbit) :
    ∃ os1, os.put_char c = .returned os1 ∧ os1.state = IoState.goodbit :=
  put_string_returns os [c] h

theorem put_integer_returns (os : OStream) (bits : Nat) (signed : Bool) (v : Int)
    (h : os.state = IoState.goodbit) :
    ∃ os1, os.put_integer bits signed v = .returned os1 ∧ os1.state = IoState.goodbit :=
  ⟨os.emit (pad_num os.fmt (num_text os.fmt bits signed v).1 (num_text os.fmt bits signed v).2),
    by simp [OStream.put_integer, OStream.good, h], h⟩

theorem upper_state (c : Bool) (os : OStream) :
    (if c then os.set_uppercase else os).state = os.state := by
  cases c <;> rfl

theorem print_ascii_returns (env : Env) (os : OStream) (b : Nat)
    (h : os.state = IoState.goodbit) :
    ∃ os1, iterator_hex_writer.print_ascii env os b = .returned os1 ∧
      os1.state = IoState.goodbit := by
  unfold iterator_hex_writer.print_ascii
  dsimp only
  split
  · exact put_char_returns _ _ h
  · exact put_char_returns _ _ h

theorem print_cached_returns (env : Env) (fmt : Format) (c : ascii_cache_t) (os : OStream)
    (h : os.state = IoState.goodbit) :
    ∃ r, c.print_cached env fmt os = .returned r ∧ r.2.state = IoState.goodbit := by
  cases c with
  | dummy => exact ⟨_, rfl, h⟩
  | mk offset cache =>
    unfold ascii_cache_t.print_cached
    refine bind_returns _ _ (fun os => os.state = IoState.goodbit) _ ?_ ?_
    · exact ite_returns _ _ _ _ (put_char_returns _ _ h) ⟨os, rfl, h⟩
    · intro os1 h1
      refine bind_returns _ _ (fun os => os.state = IoState.goodbit) _
        (put_string_returns _ _ h1) ?_
      intro os2 h2
      refine bind_returns _ _ (fun os => os.state = IoState.goodbit) _ ?_ ?_
      · exact fold_returns _ (fun os => os.state = IoState.goodbit)
          (fun s a hs => print_ascii_returns env s _ hs) _ _ h2
      · intro os3 h3
        exact ⟨_, rfl, h3⟩

theorem print_byte_returns (env : Env) (fmt : Format) (os : OStream) (s : print_state)
    (b : Nat) (h : os.state = IoState.goodbit) :
    ∃ r, iterator_hex_writer.print_byte env fmt os s b = .returned r ∧
      r.1.state = IoState.goodbit := by
  unfold iterator_hex_writer.print_byte
  refine bind_returns _ _ (fun os => os.state = IoState.goodbit) _ ?_ ?_
  · exact ite_returns _ _ _ _ (put_char_returns _ _ h) ⟨os, rfl, h⟩
  · intro os1 h1
    refine bind_returns _ _ (fun os => os.state = IoState.goodbit) _ ?_ ?_
    · refine ite_returns _ _ _ _ ?_ ⟨os1, rfl, h1⟩
      refine bind_returns _ _ (fun os => os.state = IoState.goodbit) _
        (put_string_returns _ _ h1) ?_
      intro os2 h2
      refine bind_returns _ _ (fun os => os.state = IoState.goodbit) _
        (put_integer_returns _ _ _ _ ?_) ?_
      · dsimp only
        rw [upper_state]
        exact h2
      · intro os3 h3
        exact put_string_returns _ _ h3
    · intro os2 h2
      refine bind_returns _ _ (fun os => os.state = IoState.goodbit) _ ?_ ?_
      · exact ite_returns _ _ _ _ (put_char_returns _ _ h2) ⟨os2, rfl, h2⟩
      · intro os3 h3
        refine bind_returns _ _ (fun os => os.state = IoState.goodbit) _
          (put_integer_returns _ _ _ _ ?_) ?_
        · dsimp only
          rw [upper_state]
          exact h3
        · intro os4 h4
          dsimp only
          split
          · refine bind_returns _ _
              (fun (r : ascii_cache_t × OStream) => r.2.state = IoState.goodbit) _
              (print_cached_returns env fmt _ _ h4) ?_
            intro r hr
            exact ⟨_, rfl, hr⟩
          · exact ⟨_, rfl, h4⟩

theorem with_locale_self (env : Env) : env.with_locale env.loc = env := rfl

theorem good_default (upper : Bool) (loc : Locale) (m : IoState) (p : List Char) :
    Good upper loc ⟨{ Fmt.init loc with exceptions := m }, IoState.goodbit, p⟩ := by
  refine ⟨rfl, rfl, by simp [Fmt.init], rfl, by simp [Fmt.init], ?_⟩
  intro h
  simp [Fmt.init] at h

theorem integral_shl_default (env : Env) (m : IoState) (p : List Char) (hm : m.bad = false)
    (fmt : IntegralFormat) (T : IntType) (v : Int) :
    ∃ s : String, hex_str_integral env T v fmt = some s ∧
      integral_hex_writer.operator_shl fmt
          ⟨{ Fmt.init env.loc with exceptions := m }, IoState.goodbit, p⟩
          (integral_hex_writer.ctor T v)
        = .returned ⟨{ Fmt.init env.loc with exceptions := m }, IoState.goodbit, p ++ s.data⟩ := by
  refine ⟨_, hex_str_integral_out env T v fmt, ?_⟩
  rw [integral_shl_good fmt T v _ (good_default fmt.InUpperCase env.loc m p) hm]
  rfl

theorem iterator_shl_default (env : Env) (m : IoState) (p : List Char) (hm : m.bad = false)
    (fmt : Format) (range : List (List Nat)) :
    iterator_hex_writer.operator_shl env fmt
        ⟨{ Fmt.init env.loc with exceptions := m }, IoState.goodbit, p⟩ range
      = (hex_str env range fmt).map fun out =>
          Exit.returned ⟨{ Fmt.init env.loc with exceptions := m }, IoState.goodbit,
            p ++ out.data⟩ := by
  by_cases hacc : iterator_hex_writer.static_asserts fmt = true ∧
      iterator_hex_writer.cache_fits fmt = true
  · obtain ⟨hsa, hcf⟩ := hacc
    rw [hex_str_out env fmt range hsa hcf]
    simp only [iterator_hex_writer.operator_shl, hsa, hcf, and_self, if_true, Option.map_some']
    rw [do_print_lines env fmt range _ (static_asserts_width fmt hsa)
      (good_default fmt.InUpperCase env.loc m p) hm]
    rfl
  · have h1 : iterator_hex_writer.operator_shl env fmt
        ⟨{ Fmt.init env.loc with exceptions := m }, IoState.goodbit, p⟩ range = none := by
      simp only [iterator_hex_writer.operator_shl, hacc, if_false]
    have h2 : hex_str env range fmt = none := by
      simp only [hex_str, iterator_hex_writer.operator_shl, hacc, if_false]
    rw [h1, h2]
    rfl

theorem hex_str_isSome (env : Env) (fmt : Format) (range : List (List Nat)) :
    (hex_str env range fmt).isSome
      = (iterator_hex_writer.static_asserts fmt && iterator_hex_writer.cache_fits fmt) := by
  by_cases hacc : iterator_hex_writer.static_asserts fmt = true ∧
      iterator_hex_writer.cache_fits fmt = true
  · rw [hex_str_out env fmt range hacc.1 hacc.2, hacc.1, hacc.2]
    rfl
  · have h2 : hex_str env range fmt = none := by
      simp only [hex_str, iterator_hex_writer.operator_shl, hacc, if_false]
    rw [h2]
    simp only [not_and, Bool.not_eq_true] at hacc
    cases hs : iterator_hex_writer.static_asserts fmt with
    | false => rfl
    | true => rw [hacc hs]; rfl

/-- C19 as stated fails on two kinds of sink in default formatting mode.  A
sink whose locale is not the global one: in a program whose global locale is
`en_US.UTF-8`, `hex_str` of the 32-bit value 0xFA000000 is "0xFA,000,000", and
a sink in default mode that holds the classic locale receives "0xFA000000".
A sink with `badbit` in its exception mask: the constructor of `format_backup`
throws `std::ios_base::failure`, and the sink receives nothing, where
`hex_str` returns "0x000000FA". -/
theorem C19_counterexample_sink_locale_and_exception_mask :
    hex_str_integral Env.en_US (.int 4 false) 0xFA000000 IntegralFormat.default
      = some "0xFA,000,000" ∧
    integral_hex_writer.operator_shl IntegralFormat.default (OStream.fresh Locale.classic)
        (integral_hex_writer.ctor (.int 4 false) 0xFA000000)
      = .returned ⟨Fmt.init Locale.classic, IoState.goodbit, "0xFA000000".data⟩ ∧
    hex_str_integral Env.classic (.int 4 false) 0xFA IntegralFormat.default
      = some "0x000000FA" ∧
    integral_hex_writer.operator_shl IntegralFormat.default
        ⟨{ Fmt.init Locale.classic with exceptions := IoState.badbit }, IoState.goodbit, []⟩
        (integral_hex_writer.ctor (.int 4 false) 0xFA)
      = .failure
          ⟨{ Fmt.init Locale.classic with exceptions := IoState.badbit }, IoState.goodbit, []⟩ ∧
    iterator_hex_writer.operator_shl Env.classic ⟨false, false, .SingleRow, false, true⟩
        ⟨{ Fmt.init Locale.classic with exceptions := IoState.badbit }, IoState.goodbit, []⟩
        (bytes_range [0xDE, 0xAD])
      = some (.failure
          ⟨{ Fmt.init Locale.classic with exceptions := IoState.badbit }, IoState.goodbit, []⟩) ∧
    hex_str Env.classic (bytes_range [0xDE, 0xAD]) ⟨false, false, .SingleRow, false, true⟩
      = some "DEAD" := by
  refine ⟨by decide, by decide, by decide, by decide, by decide, by decide⟩

/-- C19, amended. Take a sink in default formatting mode that is in good state,
has no `badbit` in its exception mask, holds the locale that is global when
`hex_str` is called, and holds the text `p`.  For every integral value and
configuration `hex_str` returns a string, and writing the writer to the sink
returns and leaves the sink, in the same mode and state, with `p` followed by
that string.  For a sequence and for a single record, under a valid
configuration, `hex_str` returns a string and the sink holds `p` followed by
it; under any other configuration there is neither a string nor a writer.
Consecutive renders into one sink give the concatenation of the strings:
`hex(true)`, " ", `hex(false)` give "0x01 0x00". -/
theorem C19_hex_str_is_what_the_sink_receives (env : Env) (m : IoState) (p : List Char)
    (hm : m.bad = false) :
    (∀ (fmt : IntegralFormat) (T : IntType) (v : Int),
      ∃ s : String, hex_str_integral env T v fmt = some s ∧
        integral_hex_writer.operator_shl fmt
            ⟨{ Fmt.init env.loc with exceptions := m }, IoState.goodbit, p⟩
            (integral_hex_writer.ctor T v)
          = .returned
              ⟨{ Fmt.init env.loc with exceptions := m }, IoState.goodbit, p ++ s.data⟩) ∧
    (∀ (fmt : Format) (range : List (List Nat)),
      iterator_hex_writer.operator_shl env fmt
          ⟨{ Fmt.init env.loc with exceptions := m }, IoState.goodbit, p⟩ range
        = (hex_str env range fmt).map fun out =>
            Exit.returned ⟨{ Fmt.init env.loc with exceptions := m }, IoState.goodbit,
              p ++ out.data⟩) ∧
    (∀ (fmt : Format) (range : List (List Nat)),
      (hex_str env range fmt).isSome
        = (iterator_hex_writer.static_asserts fmt && iterator_hex_writer.cache_fits fmt)) ∧
    (∀ (fmt : Format) (v : List Nat),
      iterator_hex_writer.operator_shl env fmt
          ⟨{ Fmt.init env.loc with exceptions := m }, IoState.goodbit, p⟩ [v]
        = (hex_str_value env v fmt).map fun out =>
            Exit.returned ⟨{ Fmt.init env.loc with exceptions := m }, IoState.goodbit,
              p ++ out.data⟩) ∧
    (∀ (f1 f2 : IntegralFormat) (T1 T2 : IntType) (v1 v2 : Int),
      ∃ s1 s2 : String, hex_str_integral env T1 v1 f1 = some s1 ∧
        hex_str_integral env T2 v2 f2 = some s2 ∧
        ((integral_hex_writer.operator_shl f1
            ⟨{ Fmt.init env.loc with exceptions := m }, IoState.goodbit, p⟩
            (integral_hex_writer.ctor T1 v1)).bind fun os =>
          integral_hex_writer.operator_shl f2 os (integral_hex_writer.ctor T2 v2))
          = .returned ⟨{ Fmt.init env.loc with exceptions := m }, IoState.goodbit,
              p ++ (s1 ++ s2).data⟩) ∧
    (((integral_hex_writer.operator_shl IntegralFormat.default (OStream.fresh Locale.classic)
        (integral_hex_writer.ctor .bool 1)).bind fun os =>
      os.put_string [' ']).bind fun os =>
      integral_hex_writer.operator_shl IntegralFormat.default os
        (integral_hex_writer.ctor .bool 0))
      = .returned ⟨Fmt.init Locale.classic, IoState.goodbit, "0x01 0x00".data⟩ ∧
    hex_str Env.classic (bytes_range [0xDE, 0xAD, 0xBE, 0xEF])
        ⟨false, false, .SingleRow, false, true⟩
      = some "DEADBEEF" ∧
    iterator_hex_writer.operator_shl Env.classic ⟨false, false, .SingleRow, false, true⟩
        (OStream.fresh Locale.classic) (bytes_range [0xDE, 0xAD, 0xBE, 0xEF])
      = some (.returned ⟨Fmt.init Locale.classic, IoState.goodbit, "DEADBEEF".data⟩) := by
  refine ⟨integral_shl_default env m p hm, iterator_shl_default env m p hm,
    hex_str_isSome env, fun fmt v => iterator_shl_default env m p hm fmt [v], ?_,
    by decide, by decide, by decide⟩
  intro f1 f2 T1 T2 v1 v2
  obtain ⟨s1, e1, h1⟩ := integral_shl_default env m p hm f1 T1 v1
  obtain ⟨s2, e2, h2⟩ := integral_shl_default env m (p ++ s1.data) hm f2 T2 v2
  refine ⟨s1, s2, e1, e2, ?_⟩
  rw [h1, Exit.bind_returned, h2, String.data_append, List.append_assoc]

/-- C19 amended, at a fresh sink of a program that has not changed its locale
and the 32-bit value 0xFA. -/
theorem C19_hex_str_is_what_the_sink_receives_witness :
    ∃ s : String,
      hex_str_integral Env.classic (.int 4 false) 0xFA IntegralFormat.default = some s ∧
      integral_hex_writer.operator_shl IntegralFormat.default
          ⟨{ Fmt.init Env.classic.loc with exceptions := IoState.goodbit }, IoState.goodbit,
            ['a']⟩
          (integral_hex_writer.ctor (.int 4 false) 0xFA)
        = .returned
            ⟨{ Fmt.init Env.classic.loc with exceptions := IoState.goodbit }, IoState.goodbit,
              ['a'] ++ s.data⟩ :=
  (C19_hex_str_is_what_the_sink_receives Env.classic IoState.goodbit ['a'] rfl).1
    IntegralFormat.default (.int 4 false) 0xFA

/-- C21. Without configuration arguments a scalar is rendered with prefix,
zero fill and upper case: `hex_str` of the 32-bit value 0xFA is "0x000000FA".
A sequence is rendered with offsets, nibble separation, rows of 16 bytes, the
ASCII column and upper case: `hex_str` of two zero bytes is "0x00: 00 00",
42 padding spaces, the two-space gutter and "..". -/
theorem C21_default_configuration :
    IntegralFormat.default = ⟨true, true, true⟩ ∧
    Format.default = ⟨true, true, .RowWidth 16, true, true⟩ ∧
    hex_str_integral Env.classic (.int 4 false) 0xFA IntegralFormat.default
      = some "0x000000FA" ∧
    hex_str Env.classic (bytes_range [0, 0]) Format.default
      = some ("0x00: 00 00" ++ String.mk (List.replicate 42 ' ') ++ "  " ++ "..") ∧
    hex_str Env.classic (bytes_range [0xDE, 0xAD, 0xBE, 0xEF]) Format.default
      = some ("0x00: DE AD BE EF" ++ String.mk (List.replicate 36 ' ') ++ "  " ++ "....") := by
  refine ⟨rfl, rfl, by decide, ?_, ?_⟩
  · set_option maxRecDepth 100000 in decide
  · set_option maxRecDepth 100000 in decide

/-- C22 as stated fails: at an exact power of 16 the width is never one less
than the number of hex digits of `sequence_length - 1`.  For 16 elements the
width is 2 and 15 needs one digit, for 256 elements the width is 2 and 255
needs two, for 4096 elements the width is 3 and 4095 needs three. -/
theorem C22_counterexample_no_undercount_at_powers_of_16 :
    iterator_hex_writer.get_address_width 16 = 2 ∧ (hex_numeral true (16 - 1)).length = 1 ∧
    iterator_hex_writer.get_address_width 256 = 2 ∧ (hex_numeral true (256 - 1)).length = 2 ∧
    iterator_hex_writer.get_address_width 4096 = 3 ∧ (hex_numeral true (4096 - 1)).length = 3 ∧
    ¬ ∃ k : Nat, 16 ^ k ≤ 2 ^ 64 ∧
      iterator_hex_writer.get_address_width (16 ^ k) + 1
        = (hex_numeral true (16 ^ k - 1)).length := by
  refine ⟨?_, by decide, ?_, by decide, ?_, by decide, ?_⟩
  · rw [get_address_width_of_bounded 16 16 1 (by decide)]; decide
  · rw [get_address_width_of_bounded 256 16 2 (by decide)]; decide
  · rw [get_address_width_of_bounded 4096 16 3 (by decide)]; decide
  rintro ⟨k, hk, h⟩
  have hpos : 1 ≤ 16 ^ k := Nat.one_le_pow _ _ (by decide)
  have := (address_width_covers (16 ^ k) hpos hk).1
  omega

/-- C22, amended. For every sequence of `n` elements, `1 <= n <= 2^64`, exact
powers of 16 included, the width `get_address_width` returns is at least the
number of hex digits of `n - 1`, and equal to it when that number is 2 or
more: the computation does not undercount. -/
theorem C22_address_width_never_undercounts (n : Nat) (h1 : 1 ≤ n) (h2 : n ≤ 2 ^ 64) :
    (hex_numeral true (n - 1)).length ≤ iterator_hex_writer.get_address_width n ∧
    (2 ≤ (hex_numeral true (n - 1)).length →
      iterator_hex_writer.get_address_width n = (hex_numeral true (n - 1)).length) :=
  address_width_covers n h1 h2

/-- C22 amended, at 256 elements. -/
theorem C22_address_width_never_undercounts_witness :
    (hex_numeral true (256 - 1)).length ≤ iterator_hex_writer.get_address_width 256 ∧
    (2 ≤ (hex_numeral true (256 - 1)).length →
      iterator_hex_writer.get_address_width 256 = (hex_numeral true (256 - 1)).length) :=
  C22_address_width_never_undercounts 256 (by decide) (by decide)

/-- C23. For a range of `n` elements, `1 <= n <= 2^64`, `get_address_width`
returns `max 2 d`, where `d` is the least number with `16 ^ d > n - 1`.  The
width depends on the number of elements only, whatever their byte size: the
print state of a range of `n` elements holds it, and with `show_offsets` on the
text `hex_str` returns, and the text `do_print` appends to a sink, consist of
the rows of the bytes of the range with address fields of the width
`get_address_width n`.  For single-byte elements every byte offset `g < n`,
hence every row offset, has at most that many hex digits, so its address field
has exactly the width.  Rendered under the default configuration, 129 elements
of two bytes get the width 2 of 129, and their last row starts with
"0x100: ". -/
theorem C23_address_width_from_element_count (n : Nat) (h1 : 1 ≤ n) (h2 : n ≤ 2 ^ 64) :
    (∃ d : Nat, n - 1 < 16 ^ d ∧ (∀ e, n - 1 < 16 ^ e → d ≤ e) ∧
      iterator_hex_writer.get_address_width n = max 2 d) ∧
    (∀ (fmt : Format) (range : List (List Nat)), range.length = n →
      (print_state.ctor fmt range.length).address_width
        = if fmt.WithOffsets then iterator_hex_writer.get_address_width n else 0) ∧
    (∀ (env : Env) (fmt : Format) (range : List (List Nat)), range.length = n →
      fmt.WithOffsets = true → iterator_hex_writer.static_asserts fmt = true →
      iterator_hex_writer.cache_fits fmt = true →
      hex_str env range fmt = some (String.mk (['\n'].intercalate
        (lines_out env fmt (iterator_hex_writer.get_address_width n) (range_bytes range)))) ∧
      ∀ os : OStream, Good fmt.InUpperCase os.fmt.loc os → os.fmt.exceptions.bad = false →
        iterator_hex_writer.do_print env fmt range os
          = .returned (os.append (['\n'].intercalate
              (lines_out (env.with_locale os.fmt.loc) fmt
                (iterator_hex_writer.get_address_width n) (range_bytes range))))) ∧
    (∀ g, g < n → g < 16 ^ iterator_hex_writer.get_address_width n ∧
      ∀ upper, (hex_padded upper (iterator_hex_writer.get_address_width n) g).length
        = iterator_hex_writer.get_address_width n) ∧
    (∃ lines : List (List Char),
      hex_str Env.classic (List.replicate 129 [0, 0]) Format.default
        = some (String.mk (['\n'].intercalate lines)) ∧
      lines.getLast?
        = some ("0x100: 00 00" ++ String.mk (List.replicate 42 ' ') ++ "  ..").data) := by
  have hw := get_address_width_eq n h1 h2
  obtain ⟨d1, d2⟩ := digits_length_least (n - 1)
  refine ⟨⟨_, d1, d2, hw⟩, ?_, ?_, ?_, ?_⟩
  · intro fmt range hl
    simp [print_state.ctor, hl]
  · intro env fmt range hl hoff hsa hcf
    have haw : (print_state.ctor fmt range.length).address_width
        = iterator_hex_writer.get_address_width n := by
      rw [ctor_offsets fmt _ hoff, hl]
    refine ⟨by rw [hex_str_out env fmt range hsa hcf, haw], ?_⟩
    intro os hg hm
    rw [do_print_lines env fmt range os (static_asserts_width fmt hsa) hg hm, haw]
  · intro g hg
    have hlt : g < 16 ^ iterator_hex_writer.get_address_width n := by
      have hle : (Nat.digits 16 (n - 1)).length ≤ iterator_hex_writer.get_address_width n := by
        rw [hw]; omega
      have hp : 16 ^ (Nat.digits 16 (n - 1)).length
          ≤ 16 ^ iterator_hex_writer.get_address_width n :=
        Nat.pow_le_pow_right (by decide) hle
      omega
    refine ⟨hlt, fun upper => hex_padded_length upper _ g hlt ?_⟩
    have := (get_address_width_bounds n).1
    omega
  · refine ⟨_, hex_str_classic Format.default (List.replicate 129 [0, 0]) rfl rfl, ?_⟩
    set_option maxRecDepth 100000 in decide

/-- C23, at 129 elements: width 2, also for two-byte elements. -/
theorem C23_address_width_from_element_count_witness :
    ∃ d : Nat, 129 - 1 < 16 ^ d ∧ (∀ e, 129 - 1 < 16 ^ e → d ≤ e) ∧
      iterator_hex_writer.get_address_width 129 = max 2 d :=
  (C23_address_width_from_element_count 129 (by decide) (by decide)).1

theorem hex_str_empty (env : Env) (fmt : Format)
    (hsa : iterator_hex_writer.static_asserts fmt = true)
    (hcf : iterator_hex_writer.cache_fits fmt = true) : hex_str env [] fmt = some "" := by
  rw [hex_str_out env fmt [] hsa hcf]
  have hb : range_bytes [] = [] := rfl
  rw [hb, lines_out_nil env fmt _ (static_asserts_width fmt hsa)]
  rfl

theorem do_print_empty (env : Env) (fmt : Format) (os : OStream) :
    (iterator_hex_writer.do_print env fmt [] os).sink = os ∧
    (os.fmt.exceptions = IoState.goodbit →
      iterator_hex_writer.do_print env fmt [] os = .returned os) := by
  have hb : iterator_hex_writer.do_print.body env fmt [] os = .returned os := by
    simp [iterator_hex_writer.do_print.body, print_state.ctor]
  constructor
  · by_cases hc : os.fmt.exceptions.meets IoState.badbit = true <;>
      by_cases hd : os.fmt.exceptions.meets os.state = true <;>
      simp [iterator_hex_writer.do_print, format_backup.scope, format_backup.ctor, hc, hb,
        format_backup.dtor, hd, Exit.sink]
  · intro hm
    have hc : os.fmt.exceptions.meets IoState.badbit = false := by rw [hm]; rfl
    have hd : os.fmt.exceptions.meets os.state = false := by
      rw [hm]; simp [IoState.meets, IoState.goodbit]
    simp [iterator_hex_writer.do_print, format_backup.scope, format_backup.ctor, hc, hb,
      format_backup.dtor, hd]

/-- C28. For an empty range with `show_offsets` on, `full_size - 1` is
`2^64 - 1` in `size_t` arithmetic; the loop of `get_address_width` has not
exited after 15 iterations, exits after 16 and the width is 16.  For every
range length the loop exits within 16 iterations with the result of the
total function `loop`.  The render of the empty range still appends nothing
to any sink, it returns on every sink with an empty exception mask, and
`hex_str` returns the empty string for every row width for which the writer
is a valid type. -/
theorem C28_empty_range_address_width :
    (0 + 2 ^ 64 - 1) % 2 ^ 64 = 2 ^ 64 - 1 ∧
    iterator_hex_writer.get_address_width.loop_bounded 15 (2 ^ 64 - 1) 0 = none ∧
    iterator_hex_writer.get_address_width.loop_bounded 16 (2 ^ 64 - 1) 0 = some 16 ∧
    iterator_hex_writer.get_address_width.loop (2 ^ 64 - 1) 0 = 16 ∧
    iterator_hex_writer.get_address_width 0 = 16 ∧
    (print_state.ctor Format.default ([] : List (List Nat)).length).address_width = 16 ∧
    (∀ full_size : Nat,
      iterator_hex_writer.get_address_width.loop_bounded 16 ((full_size + 2 ^ 64 - 1) % 2 ^ 64) 0
        = some (iterator_hex_writer.get_address_width.loop
            ((full_size + 2 ^ 64 - 1) % 2 ^ 64) 0)) ∧
    (∀ (env : Env) (fmt : Format) (os : OStream),
      (iterator_hex_writer.do_print env fmt [] os).sink = os ∧
      (os.fmt.exceptions = IoState.goodbit →
        iterator_hex_writer.do_print env fmt [] os = .returned os)) ∧
    (∀ (env : Env) (sep ascii upper : Bool) (R : Nat), R + 1 ≤ MAX_ROW_WIDTH →
      hex_str env [] ⟨true, sep, .RowWidth (R + 1), ascii, upper⟩ = some "") := by
  have hb : iterator_hex_writer.get_address_width.loop_bounded 16 (2 ^ 64 - 1) 0 = some 16 := by
    decide
  have hl : iterator_hex_writer.get_address_width.loop (2 ^ 64 - 1) 0 = 16 :=
    loop_bounded_sound 16 _ 0 16 hb
  have hm : (0 + 2 ^ 64 - 1) % 2 ^ 64 = 2 ^ 64 - 1 := by norm_num
  have hw : iterator_hex_writer.get_address_width 0 = 16 := by
    unfold iterator_hex_writer.get_address_width
    dsimp only
    rw [hm, hl]
    decide
  refine ⟨hm, by decide, hb, hl, hw, ?_, ?_, do_print_empty, ?_⟩
  · simp [print_state.ctor, Format.default, hw]
  · intro full_size
    exact loop_bounded_complete 16 _ 0 (by
      have : (full_size + 2 ^ 64 - 1) % 2 ^ 64 < 2 ^ 64 := Nat.mod_lt _ (by norm_num)
      norm_num at this ⊢
      exact this)
  · intro env sep ascii upper R hmax
    obtain ⟨hsa, hcf⟩ := finite_asserts ⟨true, sep, .RowWidth (R + 1), ascii, upper⟩ (R + 1) rfl
      (by omega) hmax
    exact hex_str_empty env _ hsa hcf

/-! ### The sink mode before the call -/

/-- C24 as stated fails: the text appended for the 32-bit value 0xFA changes
with the mode the sink had before the call.  A default sink receives
"0x000000FA"; with `showbase` set it receives "0x00000XFA", with `left`
adjustment "0xFA000000", with a pending width of 6 "    0x000000FA"; and in
lower-case mode without prefix and fill a sink with `uppercase` set receives
"FA" instead of "fa". -/
theorem C24_counterexample_sink_mode_changes_text :
    integral_hex_writer.operator_shl IntegralFormat.default
        ⟨Fmt.init Locale.classic, IoState.goodbit, []⟩
        (integral_hex_writer.ctor (.int 4 false) 0xFA)
      = .returned ⟨Fmt.init Locale.classic, IoState.goodbit, "0x000000FA".data⟩ ∧
    integral_hex_writer.operator_shl IntegralFormat.default
        ⟨{ Fmt.init Locale.classic with showbase := true }, IoState.goodbit, []⟩
        (integral_hex_writer.ctor (.int 4 false) 0xFA)
      = .returned ⟨{ Fmt.init Locale.classic with showbase := true }, IoState.goodbit,
          "0x00000XFA".data⟩ ∧
    integral_hex_writer.operator_shl IntegralFormat.default
        ⟨{ Fmt.init Locale.classic with adjust := .left }, IoState.goodbit, []⟩
        (integral_hex_writer.ctor (.int 4 false) 0xFA)
      = .returned ⟨{ Fmt.init Locale.classic with adjust := .left }, IoState.goodbit,
          "0xFA000000".data⟩ ∧
    integral_hex_writer.operator_shl IntegralFormat.default
        ⟨{ Fmt.init Locale.classic with width := 6 }, IoState.goodbit, []⟩
        (integral_hex_writer.ctor (.int 4 false) 0xFA)
      = .returned ⟨{ Fmt.init Locale.classic with width := 6 }, IoState.goodbit,
          "    0x000000FA".data⟩ ∧
    integral_hex_writer.operator_shl ⟨false, false, false⟩
        ⟨Fmt.init Locale.classic, IoState.goodbit, []⟩
        (integral_hex_writer.ctor (.int 4 false) 0xFA)
      = .returned ⟨Fmt.init Locale.classic, IoState.goodbit, "fa".data⟩ ∧
    integral_hex_writer.operator_shl ⟨false, false, false⟩
        ⟨{ Fmt.init Locale.classic with uppercase := true }, IoState.goodbit, []⟩
        (integral_hex_writer.ctor (.int 4 false) 0xFA)
      = .returned ⟨{ Fmt.init Locale.classic with uppercase := true }, IoState.goodbit,
          "FA".data⟩ := by
  refine ⟨by decide, by decide, by decide, by decide, by decide, by decide⟩

/-- C24, amended. Take two sinks that are in good state, have no `badbit` in
their exception masks, hold the same locale, and whose modes have `showbase`
off, no `left` adjustment, a pending width of at most 1 and `uppercase` off
unless the configuration is upper case.  For every integer value and
configuration `operator<<` returns on both and appends the same characters to
both, whatever the base, fill character, precision, `showpos` and right or
internal adjustment of the sinks; these characters are the string `hex_str`
returns in a program whose global locale is the locale of the sinks. -/
theorem C24_text_is_independent_of_good_sink_modes (fmt : IntegralFormat) (T : IntType)
    (v : Int) (loc : Locale) (os1 os2 : OStream) (h1 : Good fmt.InUpperCase loc os1)
    (h2 : Good fmt.InUpperCase loc os2) (m1 : os1.fmt.exceptions.bad = false)
    (m2 : os2.fmt.exceptions.bad = false) :
    ∃ text : List Char,
      integral_hex_writer.operator_shl fmt os1 (integral_hex_writer.ctor T v)
        = .returned (os1.append text) ∧
      integral_hex_writer.operator_shl fmt os2 (integral_hex_writer.ctor T v)
        = .returned (os2.append text) ∧
      (∀ env : Env, env.loc = loc → hex_str_integral env T v fmt = some (String.mk text)) := by
  have e1 : os1.fmt.loc = loc := h1.2.1
  have e2 : os2.fmt.loc = loc := h2.2.1
  refine ⟨integral_field loc fmt T v, ?_, ?_, ?_⟩
  · rw [integral_shl_good fmt T v os1 (by rw [e1]; exact h1) m1, e1]
  · rw [integral_shl_good fmt T v os2 (by rw [e2]; exact h2) m2, e2]
  · intro env he
    rw [hex_str_integral_out, he]

/-- C24 amended, at a default sink and a sink in octal mode with fill '*',
internal adjustment, `showpos`, precision 3, pending width 1, `failbit` in its
exception mask and some text. -/
theorem C24_text_is_independent_of_good_sink_modes_witness :
    ∃ text : List Char,
      integral_hex_writer.operator_shl IntegralFormat.default (OStream.fresh Locale.classic)
          (integral_hex_writer.ctor (.int 4 true) (-16))
        = .returned ((OStream.fresh Locale.classic).append text) ∧
      integral_hex_writer.operator_shl IntegralFormat.default
          ⟨⟨.oct, .internal, false, false, true, '*', 1, 3, Locale.classic, IoState.failbit⟩,
            IoState.goodbit, ['a', 'b']⟩
          (integral_hex_writer.ctor (.int 4 true) (-16))
        = .returned ((⟨⟨.oct, .internal, false, false, true, '*', 1, 3, Locale.classic,
            IoState.failbit⟩, IoState.goodbit, ['a', 'b']⟩ : OStream).append text) ∧
      (∀ env : Env, env.loc = Locale.classic →
        hex_str_integral env (.int 4 true) (-16) IntegralFormat.default
          = some (String.mk text)) :=
  C24_text_is_independent_of_good_sink_modes IntegralFormat.default (.int 4 true) (-16)
    Locale.classic (OStream.fresh Locale.classic)
    ⟨⟨.oct, .internal, false, false, true, '*', 1, 3, Locale.classic, IoState.failbit⟩,
      IoState.goodbit, ['a', 'b']⟩
    (good_fresh true Locale.classic) ⟨rfl, rfl, by decide, rfl, by decide, fun _ => rfl⟩ rfl rfl

/-! ### The ASCII cache -/

theorem bind_eq_returned {α β : Type} (x : Exit α) (f : α → Exit β) (b : β)
    (h : x.bind f = .returned b) : ∃ a, x = .returned a ∧ f a = .returned b := by
  cases x with
  | returned a => exact ⟨a, rfl, h⟩
  | failure os => simp [Exit.bind] at h
  | terminate os => simp [Exit.bind] at h

theorem fold_congr {σ α : Type} (f g : σ → α → Exit σ) : ∀ (xs : List α),
    (∀ s, ∀ a ∈ xs, f s a = g s a) → ∀ s, Exit.fold f s xs = Exit.fold g s xs := by
  intro xs
  induction xs with
  | nil => intro _ s; rfl
  | cons x xs ih =>
    intro h s
    rw [Exit.fold_cons, Exit.fold_cons, h s x (by simp)]
    congr 1
    funext s1
    exact ih (fun s a ha => h s a (by simp [ha])) s1

theorem getD_of_take_eq (c c2 : List Nat) (k i : Nat) (h : c2.take k = c.take k) (hi : i < k) :
    c2.getD i 0 = c.getD i 0 := by
  have e : (c2.take k)[i]? = (c.take k)[i]? := by rw [h]
  rw [List.getElem?_take_of_lt hi, List.getElem?_take_of_lt hi] at e
  rw [List.getD_eq_getElem?_getD, List.getD_eq_getElem?_getD, e]

/-- The member `print_cached` reads the slots below `offset` only: two caches
that agree there give the same stream. -/
theorem print_cached_reads (env : Env) (fmt : Format) (k : Nat) (c c2 : List Nat)
    (os : OStream) (h : c2.take k = c.take k) :
    ((ascii_cache_t.mk k c2).print_cached env fmt os).bind (fun r => Exit.returned r.2)
      = ((ascii_cache_t.mk k c).print_cached env fmt os).bind (fun r => Exit.returned r.2) := by
  have hf : ∀ os1 : OStream,
      Exit.fold (fun os i => iterator_hex_writer.print_ascii env os (c2.getD i 0)) os1
          (List.range k)
        = Exit.fold (fun os i => iterator_hex_writer.print_ascii env os (c.getD i 0)) os1
          (List.range k) := by
    intro os1
    apply fold_congr
    intro s i hi
    rw [getD_of_take_eq c c2 k i h (List.mem_range.mp hi)]
  simp only [ascii_cache_t.print_cached, Exit.bind_assoc, Exit.bind_returned, hf]

theorem print_cached_fst (env : Env) (fmt : Format) (c : ascii_cache_t) (os1 os2 : OStream)
    (r1 r2 : ascii_cache_t × OStream) (h1 : c.print_cached env fmt os1 = .returned r1)
    (h2 : c.print_cached env fmt os2 = .returned r2) : r1.1 = r2.1 := by
  cases c with
  | dummy =>
    simp only [ascii_cache_t.print_cached, Exit.returned.injEq] at h1 h2
    rw [← h1, ← h2]
  | mk offset cache =>
    unfold ascii_cache_t.print_cached at h1 h2
    obtain ⟨a1, _, h1⟩ := bind_eq_returned _ _ _ h1
    obtain ⟨b1, _, h1⟩ := bind_eq_returned _ _ _ h1
    obtain ⟨c1, _, h1⟩ := bind_eq_returned _ _ _ h1
    obtain ⟨a2, _, h2⟩ := bind_eq_returned _ _ _ h2
    obtain ⟨b2, _, h2⟩ := bind_eq_returned _ _ _ h2
    obtain ⟨c2, _, h2⟩ := bind_eq_returned _ _ _ h2
    simp only [Exit.returned.injEq] at h1 h2
    rw [← h1, ← h2]

theorem print_byte_state (env : Env) (fmt : Format) (os1 os2 : OStream) (s : print_state)
    (b : Nat) (r1 r2 : OStream × print_state)
    (h1 : iterator_hex_writer.print_byte env fmt os1 s b = .returned r1)
    (h2 : iterator_hex_writer.print_byte env fmt os2 s b = .returned r2) : r1.2 = r2.2 := by
  unfold iterator_hex_writer.print_byte at h1 h2
  obtain ⟨a1, _, h1⟩ := bind_eq_returned _ _ _ h1
  obtain ⟨b1, _, h1⟩ := bind_eq_returned _ _ _ h1
  obtain ⟨c1, _, h1⟩ := bind_eq_returned _ _ _ h1
  obtain ⟨d1, _, h1⟩ := bind_eq_returned _ _ _ h1
  obtain ⟨a2, _, h2⟩ := bind_eq_returned _ _ _ h2
  obtain ⟨b2, _, h2⟩ := bind_eq_returned _ _ _ h2
  obtain ⟨c2, _, h2⟩ := bind_eq_returned _ _ _ h2
  obtain ⟨d2, _, h2⟩ := bind_eq_returned _ _ _ h2
  dsimp only at h1 h2
  by_cases hend : s.row_offset + 1 = fmt.RowWidthValue.value
  · rw [if_pos hend] at h1 h2
    obtain ⟨e1, g1, h1⟩ := bind_eq_returned _ _ _ h1
    obtain ⟨e2, g2, h2⟩ := bind_eq_returned _ _ _ h2
    have he := print_cached_fst env fmt _ _ _ _ _ g1 g2
    simp only [Exit.returned.injEq] at h1 h2
    rw [← h1, ← h2, he]
  · rw [if_neg hend] at h1 h2
    simp only [Exit.returned.injEq] at h1 h2
    rw [← h1, ← h2]

theorem print_bytes_state (env : Env) (fmt : Format) : ∀ (bytes : List Nat) (os1 os2 : OStream)
    (s : print_state) (r1 r2 : OStream × print_state),
    iterator_hex_writer.print_bytes env fmt os1 s bytes = .returned r1 →
    iterator_hex_writer.print_bytes env fmt os2 s bytes = .returned r2 → r1.2 = r2.2 := by
  intro bytes
  induction bytes with
  | nil =>
    intro os1 os2 s r1 r2 h1 h2
    simp only [iterator_hex_writer.print_bytes, Exit.fold_nil, Exit.returned.injEq] at h1 h2
    rw [← h1, ← h2]
  | cons b bs ih =>
    intro os1 os2 s r1 r2 h1 h2
    unfold iterator_hex_writer.print_bytes at h1 h2
    rw [Exit.fold_cons] at h1 h2
    obtain ⟨a1, g1, h1⟩ := bind_eq_returned _ _ _ h1
    obtain ⟨a2, g2, h2⟩ := bind_eq_returned _ _ _ h2
    have hs := print_byte_state env fmt os1 os2 s b a1 a2 g1 g2
    have k1 : iterator_hex_writer.print_bytes env fmt a1.1 a1.2 bs = .returned r1 := h1
    have k2 : iterator_hex_writer.print_bytes env fmt a2.1 a1.2 bs = .returned r2 := by
      rw [hs]; exact h2
    exact ih _ _ _ _ _ k1 k2

theorem print_bytes_returns (env : Env) (fmt : Format) (bytes : List Nat) (os : OStream)
    (s : print_state) (h : os.state = IoState.goodbit) :
    ∃ r, iterator_hex_writer.print_bytes env fmt os s bytes = .returned r := by
  obtain ⟨r, hr, _⟩ := fold_returns
    (fun (r : OStream × print_state) b => iterator_hex_writer.print_byte env fmt r.1 r.2 b)
    (fun (r : OStream × print_state) => r.1.state = IoState.goodbit)
    (fun r b hr => print_byte_returns env fmt r.1 r.2 b hr) bytes (os, s) h
  exact ⟨r, hr⟩

theorem succ_mod_cases (L R : Nat) (hR : 0 < R) :
    (L % R + 1 = R → (L + 1) % R = 0) ∧ (L % R + 1 ≠ R → (L + 1) % R = L % R + 1) := by
  have hlt : L % R < R := Nat.mod_lt _ hR
  rw [Nat.add_mod]
  constructor
  · intro h
    rcases Nat.lt_or_ge 1 R with h1 | h1
    · rw [Nat.mod_eq_of_lt h1, h, Nat.mod_self]
    · have hR1 : R = 1 := by omega
      subst hR1
      simp [Nat.mod_one]
  · intro h
    have h1 : 1 < R := by omega
    rw [Nat.mod_eq_of_lt h1, Nat.mod_eq_of_lt (by omega)]

theorem row_after_concat (fmt : Format) (row bs : List Nat) (b : Nat) :
    row_after fmt row (bs ++ [b])
      = if (row_after fmt row bs).length + 1 = fmt.RowWidthValue.value then []
        else row_after fmt row bs ++ [b] := by
  rw [(bytes_out_append Env.classic fmt 0 bs [b] 0 row).2]
  rfl

theorem row_after_eq (fmt : Format) (hR : 0 < fmt.RowWidthValue.value) : ∀ pre : List Nat,
    (row_after fmt [] pre).length = pre.length % fmt.RowWidthValue.value ∧
    row_after fmt [] pre = pre.drop (pre.length - pre.length % fmt.RowWidthValue.value) := by
  intro pre
  induction pre using List.reverseRecOn with
  | nil => simp [row_after]
  | append_singleton bs b ih =>
    obtain ⟨ih1, ih2⟩ := ih
    obtain ⟨m1, m2⟩ := succ_mod_cases bs.length fmt.RowWidthValue.value hR
    have hle : bs.length % fmt.RowWidthValue.value ≤ bs.length := Nat.mod_le _ _
    rw [row_after_concat, ih1, List.length_append, List.length_singleton]
    by_cases hend : bs.length % fmt.RowWidthValue.value + 1 = fmt.RowWidthValue.value
    · rw [if_pos hend, m1 hend]
      simp
    · rw [if_neg hend, m2 hend]
      refine ⟨by simp [ih1], ?_⟩
      have e : bs.length + 1 - (bs.length % fmt.RowWidthValue.value + 1)
          = bs.length - bs.length % fmt.RowWidthValue.value := by omega
      rw [e, List.drop_append_of_le_length (by omega), ← ih2]

/-- C25. During a render with a finite row width `R`, on every sink in good
state the byte loop returns after any number of bytes, and whenever it has
returned (so whenever `print_byte` is about to add the next byte), on any
sink, the fill count of the ASCII cache equals the row offset, which is the
number of bytes printed modulo `R` and so is below `R` and 0 right after a
flush; the cache has `R` slots, so `add_byte` writes inside it, and its first
`offset` slots hold exactly the bytes of the current row.  The member
`print_cached` reads these slots only: what it does to a sink is the same for
every cache with the same first `offset` slots, and when it returns the fill
count is 0. -/
theorem C25_cache_fill_count_is_the_row_offset (env : Env) (fmt : Format) (R n : Nat)
    (pre : List Nat) (os : OStream) (hrow : fmt.RowWidthValue = .RowWidth R) (hR : 0 < R)
    (hb : ∀ b ∈ pre, b < 256) :
    (os.state = IoState.goodbit →
      ∃ r, iterator_hex_writer.print_bytes env fmt os (print_state.ctor fmt n) pre
        = .returned r) ∧
    (∀ r, iterator_hex_writer.print_bytes env fmt os (print_state.ctor fmt n) pre = .returned r →
      ∃ c : List Nat,
        r.2.ascii_cache = .mk r.2.row_offset c ∧
        c.length = R ∧
        r.2.row_offset = pre.length % R ∧
        r.2.row_offset < R ∧
        c.take r.2.row_offset = pre.drop (pre.length - pre.length % R) ∧
        (∀ (b : Nat), r.2.ascii_cache.add_byte b
            = .mk (pre.length % R + 1) (c.set (pre.length % R) b) ∧ pre.length % R < c.length) ∧
        (∀ (c2 : List Nat) (os1 : OStream), c2.take r.2.row_offset = c.take r.2.row_offset →
          ((ascii_cache_t.mk r.2.row_offset c2).print_cached env fmt os1).bind
              (fun x => Exit.returned x.2)
            = (r.2.ascii_cache.print_cached env fmt os1).bind (fun x => Exit.returned x.2)) ∧
        (∀ (os1 : OStream) (x : ascii_cache_t × OStream),
          r.2.ascii_cache.print_cached env fmt os1 = .returned x → x.1 = .mk 0 c) ∧
        (∀ os1 : OStream, os1.state = IoState.goodbit →
          ∃ x, r.2.ascii_cache.print_cached env fmt os1 = .returned x)) := by
  have hRv : fmt.RowWidthValue.value = R := by rw [hrow]; rfl
  have hR0 : fmt.RowWidthValue.value ≠ 0 := by rw [hRv]; omega
  refine ⟨print_bytes_returns env fmt pre os _, ?_⟩
  intro r hr
  obtain ⟨os0, s0, e0, _, _, hinv⟩ := print_bytes_sim env fmt env.loc pre (OStream.fresh env.loc)
    (print_state.ctor fmt n) [] hb (good_fresh fmt.InUpperCase env.loc) (inv_init fmt n hR0)
  have hs : r.2 = s0 := print_bytes_state env fmt pre os (OStream.fresh env.loc) _ r (os0, s0) hr e0
  rw [← hs] at hinv
  obtain ⟨r1, r2⟩ := row_after_eq fmt (by rw [hRv]; exact hR) pre
  rw [hRv] at r1 r2
  obtain ⟨hro, hc⟩ := hinv
  rw [hrow] at hc
  obtain ⟨hlt, c, hc1, hc2, hc3⟩ := hc
  rw [r1] at hro hlt hc1 hc3
  refine ⟨c, ?_, hc2, hro, ?_, ?_, ?_, ?_, ?_, ?_⟩
  · rw [hc1, hro]
  · rw [hro]; exact hlt
  · rw [hro, hc3, ← r2]
  · intro b
    rw [hc1]
    exact ⟨rfl, by omega⟩
  · intro c2 os1 h
    rw [hc1, hro]
    rw [hro] at h
    exact print_cached_reads env fmt _ c c2 os1 h
  · intro os1 x hx
    rw [hc1] at hx
    unfold ascii_cache_t.print_cached at hx
    obtain ⟨a1, _, hx⟩ := bind_eq_returned _ _ _ hx
    obtain ⟨b1, _, hx⟩ := bind_eq_returned _ _ _ hx
    obtain ⟨c1, _, hx⟩ := bind_eq_returned _ _ _ hx
    simp only [Exit.returned.injEq] at hx
    rw [← hx]
  · intro os1 h1
    obtain ⟨x, hx, _⟩ := print_cached_returns env fmt r.2.ascii_cache os1 h1
    exact ⟨x, hx⟩

/-- C25, at five bytes printed in rows of sixteen to a fresh sink of a program
that has not changed its locale. -/
theorem C25_cache_fill_count_is_the_row_offset_witness :
    ∃ r, iterator_hex_writer.print_bytes Env.classic Format.default
        (OStream.fresh Locale.classic) (print_state.ctor Format.default 7) [1, 2, 3, 4, 5]
      = .returned r :=
  (C25_cache_fill_count_is_the_row_offset Env.classic Format.default 16 7 [1, 2, 3, 4, 5]
    (OStream.fresh Locale.classic) rfl (by decide) (by decide)).1 rfl

/-! ### Independent rows -/

theorem intercalate_append {α : Type} (sep : List α) (A B : List (List α)) (hA : A ≠ [])
    (hB : B ≠ []) :
    sep.intercalate (A ++ B) = sep.intercalate A ++ sep ++ sep.intercalate B := by
  cases A with
  | nil => exact absurd rfl hA
  | cons a as =>
    cases B with
    | nil => exact absurd rfl hB
    | cons b bs =>
      rw [List.cons_append, intercalate_cons_eq, intercalate_cons_eq, intercalate_cons_eq]
      simp

theorem row_count_mul_add (fmt : Format) (m k : Nat) (hR : fmt.RowWidthValue.value ≠ 0) :
    row_count fmt (m * fmt.RowWidthValue.value + k) = m + row_count fmt k := by
  have hpos : 0 < fmt.RowWidthValue.value := Nat.pos_of_ne_zero hR
  unfold row_count
  have e : m * fmt.RowWidthValue.value + k + fmt.RowWidthValue.value - 1
      = (k + fmt.RowWidthValue.value - 1) + m * fmt.RowWidthValue.value := by omega
  rw [e, Nat.add_mul_div_right _ _ hpos, Nat.add_comm]

theorem row_bytes_left (fmt : Format) (xs ys : List Nat) (m j : Nat)
    (hx : xs.length = m * fmt.RowWidthValue.value) (hj : j < m) :
    row_bytes fmt (xs ++ ys) j = row_bytes fmt xs j := by
  have h1 : (j + 1) * fmt.RowWidthValue.value ≤ m * fmt.RowWidthValue.value :=
    Nat.mul_le_mul_right _ hj
  rw [Nat.succ_mul] at h1
  unfold row_bytes
  rw [List.drop_append_of_le_length (by omega),
    List.take_append_of_le_length (by rw [List.length_drop]; omega)]

theorem row_bytes_right (fmt : Format) (xs ys : List Nat) (m i : Nat)
    (hx : xs.length = m * fmt.RowWidthValue.value) :
    row_bytes fmt (xs ++ ys) (m + i) = row_bytes fmt ys i := by
  unfold row_bytes
  rw [Nat.add_mul, ← hx, List.drop_append]

theorem line_out_no_offsets (e : Env) (fmt : Format) (aw j : Nat) (row : List Nat)
    (hoff : fmt.WithOffsets = false) :
    line_out e fmt aw j row = hex_fields e fmt row ++ flush_out e fmt row := by
  simp [line_out, hoff]

theorem lines_out_append (e : Env) (fmt : Format) (aw1 aw2 aw3 : Nat) (xs ys : List Nat)
    (m : Nat) (hoff : fmt.WithOffsets = false) (hR : fmt.RowWidthValue.value ≠ 0)
    (hx : xs.length = m * fmt.RowWidthValue.value) :
    lines_out e fmt aw1 (xs ++ ys) = lines_out e fmt aw2 xs ++ lines_out e fmt aw3 ys := by
  have hcx : row_count fmt xs.length = m := by
    have := row_count_mul_add fmt m 0 hR
    rw [Nat.add_zero, row_count_zero fmt hR, Nat.add_zero] at this
    rw [hx, this]
  unfold lines_out
  rw [List.length_append, hx, row_count_mul_add fmt m ys.length hR, List.range_add,
    List.map_append, List.map_map, ← hx, hcx]
  congr 1
  · apply List.map_congr_left
    intro j hj
    rw [line_out_no_offsets _ _ _ _ _ hoff, line_out_no_offsets _ _ _ _ _ hoff,
      row_bytes_left fmt xs ys m j hx (List.mem_range.mp hj)]
  · apply List.map_congr_left
    intro i _
    simp only [Function.comp]
    rw [line_out_no_offsets _ _ _ _ _ hoff, line_out_no_offsets _ _ _ _ _ hoff,
      row_bytes_right fmt xs ys m i hx]

theorem lines_out_ne_nil (e : Env) (fmt : Format) (aw : Nat) (bytes : List Nat)
    (hne : bytes ≠ []) (hR : fmt.RowWidthValue.value ≠ 0) : lines_out e fmt aw bytes ≠ [] := by
  intro h
  have hl : (lines_out e fmt aw bytes).length = row_count fmt bytes.length := by
    simp [lines_out]
  rw [h, row_count_drop fmt bytes hne hR] at hl
  simp at hl

/-- C26. With `show_offsets` off and a finite row width `R`, for a non-empty
byte sequence `xs` whose length is a multiple of `R` and a non-empty byte
sequence `ys`, the rendering of `xs` followed by `ys` is the rendering of
`xs`, one newline, and the rendering of `ys`, under the same configuration
and in the same environment, whichever it is.  The row width is one for which
the writer is a valid type. -/
theorem C26_rows_render_independently (env : Env) (fmt : Format) (R m : Nat)
    (xs ys : List Nat) (hoff : fmt.WithOffsets = false)
    (hrow : fmt.RowWidthValue = .RowWidth R) (hR : 0 < R) (hmax : R ≤ MAX_ROW_WIDTH)
    (hxs : xs ≠ []) (hys : ys ≠ []) (hx : xs.length = m * R) :
    ∃ sx sy : String,
      hex_str env (bytes_range xs) fmt = some sx ∧
      hex_str env (bytes_range ys) fmt = some sy ∧
      hex_str env (bytes_range (xs ++ ys)) fmt = some (sx ++ "\n" ++ sy) := by
  obtain ⟨hsa, hcf⟩ := finite_asserts fmt R hrow hR hmax
  have hRv : fmt.RowWidthValue.value = R := by rw [hrow]; rfl
  have hR0 : fmt.RowWidthValue.value ≠ 0 := by rw [hRv]; omega
  refine ⟨_, _, hex_str_out env fmt _ hsa hcf, hex_str_out env fmt _ hsa hcf, ?_⟩
  rw [hex_str_out env fmt _ hsa hcf]
  congr 1
  apply String.ext
  have hxm : (xs.map fun b => b % 256) ≠ [] := by simpa using hxs
  have hym : (ys.map fun b => b % 256) ≠ [] := by simpa using hys
  simp only [range_bytes_bytes_range, List.map_append, String.data_append]
  rw [lines_out_append env fmt _
      (print_state.ctor fmt (bytes_range xs).length).address_width
      (print_state.ctor fmt (bytes_range ys).length).address_width _ _ m hoff hR0
      (by rw [List.length_map, hRv]; exact hx),
    intercalate_append _ _ _ (lines_out_ne_nil env fmt _ _ hxm hR0)
      (lines_out_ne_nil env fmt _ _ hym hR0)]

/-- C26, at four bytes in rows of two followed by three bytes, in a program
that has not changed its locale. -/
theorem C26_rows_render_independently_witness :
    ∃ sx sy : String,
      hex_str Env.classic (bytes_range [1, 2, 3, 4]) ⟨false, true, .RowWidth 2, true, true⟩
        = some sx ∧
      hex_str Env.classic (bytes_range [0x41, 0x42, 0x43]) ⟨false, true, .RowWidth 2, true, true⟩
        = some sy ∧
      hex_str Env.classic (bytes_range ([1, 2, 3, 4] ++ [0x41, 0x42, 0x43]))
          ⟨false, true, .RowWidth 2, true, true⟩ = some (sx ++ "\n" ++ sy) :=
  C26_rows_render_independently Env.classic ⟨false, true, .RowWidth 2, true, true⟩ 2 2
    [1, 2, 3, 4] [0x41, 0x42, 0x43] rfl rfl (by decide) (by decide) (by decide) (by decide)
    (by decide)

/-! ### Single-row mode is injective -/

theorem digit_char_inj (upper : Bool) : ∀ a, a < 16 → ∀ b, b < 16 →
    digit_char upper a = digit_char upper b → a = b := by
  cases upper <;> decide

theorem hex2_inj (upper : Bool) (a b : Nat) (ha : a < 256) (hb : b < 256)
    (h : hex2 upper a = hex2 upper b) : a = b := by
  simp only [hex2, List.cons.injEq, and_true] at h
  have h1 := digit_char_inj upper _ (Nat.mod_lt _ (by decide)) _ (Nat.mod_lt _ (by decide)) h.1
  have h2 := digit_char_inj upper _ (Nat.mod_lt _ (by decide)) _ (Nat.mod_lt _ (by decide)) h.2
  omega

theorem flatten_map_inj {α β : Type} (g : α → List β) (c : Nat) (hc : 0 < c) (P : α → Prop)
    (hlen : ∀ x, (g x).length = c) (hinj : ∀ x y, P x → P y → g x = g y → x = y) :
    ∀ xs ys : List α, (∀ x ∈ xs, P x) → (∀ y ∈ ys, P y) →
      (xs.map g).flatten = (ys.map g).flatten → xs = ys := by
  intro xs
  induction xs with
  | nil =>
    intro ys _ _ h
    cases ys with
    | nil => rfl
    | cons y ys =>
      have hl := congrArg List.length h
      simp only [List.map_nil, List.flatten_nil, List.length_nil, List.map_cons,
        List.flatten_cons, List.length_append, hlen] at hl
      omega
  | cons x xs ih =>
    intro ys hx hy h
    cases ys with
    | nil =>
      have hl := congrArg List.length h
      simp only [List.map_nil, List.flatten_nil, List.length_nil, List.map_cons,
        List.flatten_cons, List.length_append, hlen] at hl
      omega
    | cons y ys =>
      simp only [List.map_cons, List.flatten_cons] at h
      obtain ⟨h1, h2⟩ := List.append_inj h (by rw [hlen, hlen])
      have hxy := hinj x y (hx x (by simp)) (hy y (by simp)) h1
      rw [hxy, ih ys (fun z hz => hx z (by simp [hz])) (fun z hz => hy z (by simp [hz])) h2]

theorem hex_groups_inj (fmt : Format) (xs ys : List Nat) (hx : ∀ b ∈ xs, b < 256)
    (hy : ∀ b ∈ ys, b < 256) (h : hex_groups fmt xs = hex_groups fmt ys) : xs = ys := by
  have hg : ∀ x, (nibble_sep fmt ++ hex2 fmt.InUpperCase x).length = chars_per_byte fmt := by
    intro x
    unfold nibble_sep chars_per_byte
    split <;> simp [hex2]
  have hcpos : 0 < chars_per_byte fmt := by
    unfold chars_per_byte; split <;> decide
  have hinj : ∀ x y, x < 256 → y < 256 →
      nibble_sep fmt ++ hex2 fmt.InUpperCase x = nibble_sep fmt ++ hex2 fmt.InUpperCase y →
      x = y := by
    intro x y hx1 hy1 he
    exact hex2_inj _ x y hx1 hy1 (List.append_cancel_left he)
  cases xs with
  | nil =>
    cases ys with
    | nil => rfl
    | cons y ys =>
      have := hex_groups_ne_nil fmt (y :: ys) (by simp)
      rw [← h] at this
      exact absurd (by simp [hex_groups, List.intercalate]) this
  | cons x xs =>
    cases ys with
    | nil =>
      have := hex_groups_ne_nil fmt (x :: xs) (by simp)
      rw [h] at this
      exact absurd (by simp [hex_groups, List.intercalate]) this
    | cons y ys =>
      simp only [hex_groups, List.map_cons, intercalate_cons_eq, List.map_map] at h
      obtain ⟨h1, h2⟩ := List.append_inj h (by simp [hex2])
      have hxy := hex2_inj _ x y (hx x (by simp)) (hy y (by simp)) h1
      have ht := flatten_map_inj (fun b => nibble_sep fmt ++ hex2 fmt.InUpperCase b)
        (chars_per_byte fmt) hcpos (fun b => b < 256) hg hinj xs ys
        (fun z hz => hx z (by simp [hz])) (fun z hz => hy z (by simp [hz])) h2
      rw [hxy, ht]

theorem map_mod_of_lt (xs : List Nat) (hx : ∀ b ∈ xs, b < 256) :
    (xs.map fun b => b % 256) = xs := by
  induction xs with
  | nil => rfl
  | cons x xs ih =>
    rw [List.map_cons, Nat.mod_eq_of_lt (hx x (by simp)), ih (fun z hz => hx z (by simp [hz]))]

/-- C27. In single-row mode (offsets and ASCII off), for each choice of
`separate_nibbles` and case, two byte sequences that render to the same
string are equal, and the string for `N >= 1` bytes has `2 * N` characters
without separation and `3 * N - 1` with it; rendering is injective as well
under every global locale that leaves numerals of two digits alone. -/
theorem C27_single_row_is_injective (sep upper : Bool) (xs ys : List Nat)
    (hx : ∀ b ∈ xs, b < 256) (hy : ∀ b ∈ ys, b < 256)
    (hlx : xs.length ≤ SIZE_MAX) (hly : ys.length ≤ SIZE_MAX) :
    (hex_str Env.classic (bytes_range xs) ⟨false, sep, .SingleRow, false, upper⟩
        = hex_str Env.classic (bytes_range ys) ⟨false, sep, .SingleRow, false, upper⟩ →
      xs = ys) ∧
    (xs ≠ [] → ∃ out : String,
      hex_str Env.classic (bytes_range xs) ⟨false, sep, .SingleRow, false, upper⟩ = some out ∧
      out.length = if sep = true then 3 * xs.length - 1 else 2 * xs.length) ∧
    (∀ env : Env, env.loc.keeps_pairs = true →
      hex_str env (bytes_range xs) ⟨false, sep, .SingleRow, false, upper⟩
        = hex_str env (bytes_range ys) ⟨false, sep, .SingleRow, false, upper⟩ →
      xs = ys) := by
  have kx : ∀ env : Env, env.loc.keeps_pairs = true →
      hex_str env (bytes_range xs) ⟨false, sep, .SingleRow, false, upper⟩
        = some (String.mk (hex_groups ⟨false, sep, .SingleRow, false, upper⟩ xs)) := by
    intro env hk
    have h := single_row_text env ⟨false, sep, .SingleRow, false, upper⟩ (bytes_range xs)
      rfl rfl rfl (by rw [range_bytes_bytes_range, List.length_map]; exact hlx) hk
    rw [range_bytes_bytes_range, map_mod_of_lt xs hx] at h
    exact h
  have ky : ∀ env : Env, env.loc.keeps_pairs = true →
      hex_str env (bytes_range ys) ⟨false, sep, .SingleRow, false, upper⟩
        = some (String.mk (hex_groups ⟨false, sep, .SingleRow, false, upper⟩ ys)) := by
    intro env hk
    have h := single_row_text env ⟨false, sep, .SingleRow, false, upper⟩ (bytes_range ys)
      rfl rfl rfl (by rw [range_bytes_bytes_range, List.length_map]; exact hly) hk
    rw [range_bytes_bytes_range, map_mod_of_lt ys hy] at h
    exact h
  have inj : ∀ env : Env, env.loc.keeps_pairs = true →
      hex_str env (bytes_range xs) ⟨false, sep, .SingleRow, false, upper⟩
        = hex_str env (bytes_range ys) ⟨false, sep, .SingleRow, false, upper⟩ →
      xs = ys := by
    intro env hk h
    rw [kx env hk, ky env hk] at h
    have hd := congrArg String.data (Option.some.inj h)
    exact hex_groups_inj _ xs ys hx hy hd
  refine ⟨inj Env.classic rfl, ?_, inj⟩
  intro hne
  refine ⟨_, kx Env.classic rfl, ?_⟩
  show (hex_groups ⟨false, sep, .SingleRow, false, upper⟩ xs).length = _
  rw [hex_groups_length _ xs hne]
  have hpos : 0 < xs.length := List.length_pos.mpr hne
  cases sep <;> simp [chars_per_byte]

/-- C27, at the byte sequences DE AD and BE EF with separation. -/
theorem C27_single_row_is_injective_witness :
    (hex_str Env.classic (bytes_range [0xDE, 0xAD]) ⟨false, true, .SingleRow, false, true⟩
        = hex_str Env.classic (bytes_range [0xBE, 0xEF]) ⟨false, true, .SingleRow, false, true⟩ →
      [0xDE, 0xAD] = [0xBE, 0xEF]) ∧
    ([0xDE, 0xAD] ≠ ([] : List Nat) → ∃ out : String,
      hex_str Env.classic (bytes_range [0xDE, 0xAD]) ⟨false, true, .SingleRow, false, true⟩
        = some out ∧
      out.length = if true = true then 3 * [0xDE, 0xAD].length - 1 else 2 * [0xDE, 0xAD].length) :=
  ⟨(C27_single_row_is_injective true true [0xDE, 0xAD] [0xBE, 0xEF] (by decide) (by decide)
    (by decide) (by decide)).1,
   (C27_single_row_is_injective true true [0xDE, 0xAD] [0xBE, 0xEF] (by decide) (by decide)
    (by decide) (by decide)).2.1⟩

end shp
